import Mathlib

/-!
The tangle library: graph store, degree centrality, community detection, GO enrichment

A shallow embedding of the C++ sources (`src/graph.cpp`, `src/algo/centrality.cpp`,
`src/algo/community.cpp`, `src/annotate/go_enrichment.cpp`,
`src/annotate/annotation_db.cpp`, `src/io/edgelist_io.cpp`) together with theorems
about them.

Modelling conventions.
* `std::vector` is a `List`; `NodeId` (a `uint32_t`) and `size_t` are `Nat`
  (graphs are taken to hold fewer than `2^32` nodes, so the cast in
  `add_node_internal` is the identity).
* The values of `double` and `long double` are rationals `ℚ`. In the weighted degree
  centrality and in the move selection of a node visit (`visit_node_binary64`) every
  operation is rounded to binary64 (`rn`), as in the code. The enrichment statistics
  are stated under exact arithmetic; there a division whose divisor is zero has no
  value (`none`). The other theorems on community detection use the model
  `visit_node`, whose gains are exact.
* `int` and `unsigned int` counters are unbounded (`Int`, `Nat`): no overflow.
* A mutating method is a function from the state to a result and the state after
  the call; a thrown `std::out_of_range` is `GraphError.out_of_range`, an unchecked
  `operator[]` outside its vector is `GraphError.index_out_of_bounds`.
* `std::unordered_map<ProteinId, NodeId>` is an association list with unique keys,
  `std::map` / `std::set` are key-sorted lists.
-/

namespace tangle

/-! ## Graph store (`include/tangle/graph.hpp`, `src/graph.cpp`) -/

/-- Failure modes of the graph code. -/
inductive GraphError where
  | out_of_range
  | index_out_of_bounds
deriving DecidableEq, Repr

/-- Equality of results is decidable, so that concrete runs can be evaluated. -/
instance instDecidableEqExcept {ε α : Type} [DecidableEq ε] [DecidableEq α] :
    DecidableEq (Except ε α)
  | .ok a, .ok b => if h : a = b then isTrue (by rw [h]) else isFalse (by simpa using h)
  | .error a, .error b => if h : a = b then isTrue (by rw [h]) else isFalse (by simpa using h)
  | .ok _, .error _ => isFalse (by simp)
  | .error _, .ok _ => isFalse (by simp)

/-- The struct `Node` of `graph.hpp`. -/
structure Node where
  id : Nat
  protein_id : String
  gene_symbol : Option String
deriving DecidableEq, Repr

/-- The struct `Edge` of `graph.hpp`. -/
structure Edge where
  u : Nat
  v : Nat
  weight : ℚ
deriving DecidableEq, Repr

/-- The private members of class `PpiGraph`. -/
structure PpiGraph where
  nodes_ : List Node
  edges_ : List Edge
  adj_ : List (List Nat)
  protein_index_ : List (String × Nat)
deriving DecidableEq

/-- The default-constructed graph. -/
def PpiGraph.empty : PpiGraph := ⟨[], [], [], []⟩

/-- The accessor `num_nodes()`. -/
def PpiGraph.num_nodes (g : PpiGraph) : Nat := g.nodes_.length

/-- The accessor `num_edges()`. -/
def PpiGraph.num_edges (g : PpiGraph) : Nat := g.edges_.length

/-- The call `protein_index_.find(pid)`: the value stored under `pid`, if any. -/
def index_find : List (String × Nat) → String → Option Nat
  | [], _ => none
  | (k, v) :: rest, pid => if k = pid then some v else index_find rest pid

/-- The assignment `protein_index_[pid] = id`: overwrite the entry, or create it. -/
def index_assign : List (String × Nat) → String → Nat → List (String × Nat)
  | [], pid, id => [(pid, id)]
  | (k, v) :: rest, pid, id =>
    if k = pid then (k, id) :: rest else (k, v) :: index_assign rest pid id

/-- The method `PpiGraph::ensure_adj_size`: grow `adj_` with empty rows up to `nodes_.size()`. -/
def ensure_adj_size (g : PpiGraph) : PpiGraph :=
  if g.adj_.length < g.nodes_.length then
    { g with adj_ := g.adj_ ++ List.replicate (g.nodes_.length - g.adj_.length) [] }
  else g

/-- The method `PpiGraph::add_node_internal`. -/
def add_node_internal (g : PpiGraph) (pid : String) (symbol : Option String) :
    Nat × PpiGraph :=
  let id := g.nodes_.length
  let g1 := { g with nodes_ := g.nodes_ ++ [Node.mk id pid symbol] }
  let g2 := { g1 with protein_index_ := index_assign g1.protein_index_ pid id }
  (id, ensure_adj_size g2)

/-- The method `PpiGraph::add_node`. -/
def add_node (g : PpiGraph) (pid : String) (symbol : Option String) : Nat × PpiGraph :=
  match index_find g.protein_index_ pid with
  | some id => (id, g)
  | none => add_node_internal g pid symbol

/-- The method `PpiGraph::get_or_add_node`. -/
def get_or_add_node (g : PpiGraph) (pid : String) (symbol : Option String) :
    Nat × PpiGraph :=
  match index_find g.protein_index_ pid with
  | some id => (id, g)
  | none => add_node_internal g pid symbol

/-- The method `PpiGraph::add_edge`; the two `adj_[..].push_back(..)` are unchecked accesses. -/
def add_edge (g : PpiGraph) (u v : Nat) (w : ℚ) : Except GraphError Unit × PpiGraph :=
  if g.nodes_.length ≤ u ∨ g.nodes_.length ≤ v then
    (.error .out_of_range, g)
  else
    let g1 := { g with edges_ := g.edges_ ++ [Edge.mk u v w] }
    let g2 := ensure_adj_size g1
    if u < g2.adj_.length then
      let g3 := { g2 with adj_ := g2.adj_.modify (fun row => row ++ [v]) u }
      if v < g3.adj_.length then
        (.ok (), { g3 with adj_ := g3.adj_.modify (fun row => row ++ [u]) v })
      else (.error .index_out_of_bounds, g3)
    else (.error .index_out_of_bounds, g2)

/-- The method `PpiGraph::node`. -/
def node (g : PpiGraph) (id : Nat) : Except GraphError Node :=
  match g.nodes_[id]? with
  | some n => .ok n
  | none => .error .out_of_range

/-- The method `PpiGraph::neighbors`. -/
def neighbors (g : PpiGraph) (id : Nat) : Except GraphError (List Nat) :=
  match g.adj_[id]? with
  | some row => .ok row
  | none => .error .out_of_range

/-- The method `PpiGraph::find_node`. -/
def find_node (g : PpiGraph) (pid : String) : Option Nat :=
  index_find g.protein_index_ pid

/-- The graphs obtainable from the empty graph through the public mutators. -/
inductive Reachable : PpiGraph → Prop
  | empty : Reachable PpiGraph.empty
  | add_node (g : PpiGraph) (pid : String) (symbol : Option String) :
      Reachable g → Reachable (add_node g pid symbol).2
  | get_or_add_node (g : PpiGraph) (pid : String) (symbol : Option String) :
      Reachable g → Reachable (get_or_add_node g pid symbol).2
  | add_edge (g : PpiGraph) (u v : Nat) (w : ℚ) :
      Reachable g → Reachable (add_edge g u v w).2

/-! ## Binary64 arithmetic

The values of a `double` are rationals; an arithmetic operation of the code returns
the exact result rounded to the nearest binary64 value, ties to even (IEEE 754, the
default rounding mode). Overflow is outside the model: results are taken to stay
below `2^1024`. -/

/-- The integer nearest to `N / D` (for `D > 0`), a tie going to the even one. -/
def round_half_even (N D : Nat) : Nat :=
  let f := N / D
  let r := N % D
  if 2 * r < D then f
  else if D < 2 * r then f + 1
  else if f % 2 = 0 then f else f + 1

/-- The number of binary digits of `n`, computed by halving; `fuel` bounds the number
of halvings. -/
def bit_length_aux : Nat → Nat → Nat
  | 0, _ => 0
  | fuel + 1, n => if n = 0 then 0 else bit_length_aux fuel (n / 2) + 1

/-- The number of binary digits of `n`: `⌊log2 n⌋ + 1` for `n > 0` (at most `n`
halvings are needed). -/
def bit_length (n : Nat) : Nat := bit_length_aux n n

/-- The exponent `e` of the binary64 grid around a positive rational `N / D`: the
spacing of the binary64 values near it is `2^e`, where `e = ⌊log2 (N / D)⌋ - 52`, and
`e = -1074` in the subnormal range. The difference `k0` of the numbers of binary
digits of `N` and `D` is `⌊log2 (N / D)⌋` or one more than it, which the comparison of
`N / D` with `2^k0` decides. -/
def grid_exponent (N D : Nat) : Int :=
  let k0 : Int := (bit_length N : Int) - (bit_length D : Int)
  let above : Bool :=
    if 0 ≤ k0 then decide (D * 2 ^ k0.toNat ≤ N) else decide (D ≤ N * 2 ^ (-k0).toNat)
  let fl : Int := if above then k0 else k0 - 1
  max (fl - 52) (-1074)

/-- Rounding to binary64: the nearest binary64 value, ties to even. The magnitude is
the multiple `M * 2^e` of the grid spacing with `M` the integer nearest to
`|x| / 2^e`. -/
def rn (x : ℚ) : ℚ :=
  if x = 0 then 0
  else
    let N := x.num.natAbs
    let D := x.den
    let e := grid_exponent N D
    let mag : ℚ :=
      if 0 ≤ e then ((round_half_even N (D * 2 ^ e.toNat) * 2 ^ e.toNat : Nat) : ℚ)
      else ((round_half_even (N * 2 ^ (-e).toNat) D : Nat) : ℚ) / ((2 ^ (-e).toNat : Nat) : ℚ)
    if x < 0 then -mag else mag

/-- The binary64 sum `a + b`. -/
def fadd (a b : ℚ) : ℚ := rn (a + b)

/-- The binary64 difference `a - b`. -/
def fsub (a b : ℚ) : ℚ := rn (a - b)

/-- The binary64 product `a * b`. -/
def fmul (a b : ℚ) : ℚ := rn (a * b)

/-- The binary64 quotient `a / b`, for a divisor `b` other than zero (the code divides
by `2.0 * m` only inside the loop, which is entered only when `m` is not zero). -/
def fdiv (a b : ℚ) : ℚ := rn (a / b)

/-! ## Degree centrality (`src/algo/centrality.cpp`) -/

/-- One iteration of the weighted loop: `degrees[edge.u] += w; degrees[edge.v] += w`,
two binary64 additions. -/
def add_edge_weight (degrees : List ℚ) (e : Edge) : Except GraphError (List ℚ) :=
  if e.u < degrees.length then
    let d1 := degrees.modify (fun x => fadd x e.weight) e.u
    if e.v < d1.length then .ok (d1.modify (fun x => fadd x e.weight) e.v)
    else .error .index_out_of_bounds
  else .error .index_out_of_bounds

/-- One iteration of the unweighted loop: `degrees[i] = neighbors(i).size()`. -/
def set_neighbor_count (g : PpiGraph) (degrees : List ℚ) (i : Nat) :
    Except GraphError (List ℚ) :=
  match neighbors g i with
  | .error e => .error e
  | .ok row =>
    if i < degrees.length then .ok (degrees.set i (row.length : ℚ))
    else .error .index_out_of_bounds

/-- The function `degree_centrality` of `centrality.cpp`. -/
def degree_centrality (g : PpiGraph) (use_weights : Bool) : Except GraphError (List ℚ) :=
  let degrees := List.replicate g.num_nodes (0 : ℚ)
  if use_weights then
    g.edges_.foldlM add_edge_weight degrees
  else
    (List.range g.num_nodes).foldlM (set_neighbor_count g) degrees

/-! ## Ordered containers used by the community detector -/

/-- The update `m[k] = f (m[k])` on a key-sorted `std::map`, a missing key starting
from the value-initialised `dflt`. -/
def omap_update {β : Type} (dflt : β) (f : β → β) :
    List (Nat × β) → Nat → List (Nat × β)
  | [], k => [(k, f dflt)]
  | (k1, b) :: rest, k =>
    if k < k1 then (k, f dflt) :: (k1, b) :: rest
    else if k = k1 then (k1, f b) :: rest
    else (k1, b) :: omap_update dflt f rest k

/-- The read `m[k]` on a `std::map`: the stored value, `dflt` for a missing key. -/
def omap_get {β : Type} (dflt : β) : List (Nat × β) → Nat → β
  | [], _ => dflt
  | (k1, b) :: rest, k => if k = k1 then b else omap_get dflt rest k

/-- The call `s.insert(k)` on a sorted, duplicate-free `std::set`. -/
def oset_insert : List Nat → Nat → List Nat
  | [], k => [k]
  | k1 :: rest, k =>
    if k < k1 then k :: k1 :: rest
    else if k = k1 then k1 :: rest
    else k1 :: oset_insert rest k

/-! ## Community detection (`src/algo/community.cpp`) -/

/-- One iteration of the initialisation loop (lines 52-57): both endpoint degrees and
the running total `m` grow by the edge weight (by `1.0` in unweighted mode). -/
def louvain_init_step (use_weights : Bool) (st : List ℚ × ℚ) (e : Edge) :
    Except GraphError (List ℚ × ℚ) :=
  let weight : ℚ := if use_weights then e.weight else 1
  if e.u < st.1.length then
    let d1 := st.1.modify (fun x => x + weight) e.u
    if e.v < d1.length then .ok (d1.modify (fun x => x + weight) e.v, st.2 + weight)
    else .error .index_out_of_bounds
  else .error .index_out_of_bounds

/-- The map `community_degrees_map` of lines 86-89; `communities` and `node_degrees`
both hold `num_nodes` entries, so the loop over `i` pairs them up. -/
def community_degrees (communities : List Nat) (node_degrees : List ℚ) : List (Nat × ℚ) :=
  (communities.zip node_degrees).foldl
    (fun mp cd => omap_update (0 : ℚ) (fun x => x + cd.2) mp cd.1) []

/-- The values `communities[neighbor]` for the neighbours of the visited node, in
adjacency order; the accesses are unchecked. -/
def neighbor_labels (communities : List Nat) : List Nat → Except GraphError (List Nat)
  | [] => .ok []
  | nb :: rest =>
    match communities[nb]? with
    | none => .error .index_out_of_bounds
    | some c =>
      match neighbor_labels communities rest with
      | .error e => .error e
      | .ok cs => .ok (c :: cs)

/-- The count `k_i_in` of lines 101-106: one per neighbour currently in `target`. -/
def k_i_in (labels : List Nat) (target : Nat) : ℚ :=
  labels.foldl (fun acc c => if c = target then acc + 1 else acc) 0

/-- The gain of line 111. -/
def gain (labels : List Nat) (cdm : List (Nat × ℚ)) (k_i m : ℚ) (target : Nat) : ℚ :=
  k_i_in labels target - (omap_get 0 cdm target * k_i) / (2 * m)

/-- The body of the loop over `neighbor_communities` (lines 97-117); the state is
`(best_community, max_gain)`. -/
def consider_target (labels : List Nat) (cdm : List (Nat × ℚ)) (k_i m : ℚ)
    (original : Nat) (best : Nat × ℚ) (target : Nat) : Nat × ℚ :=
  if target = original then best
  else if gain labels cdm k_i m target > best.2 then (target, gain labels cdm k_i m target)
  else best

/-- The body of the loop over `node_order` (lines 80-125); the state is
`(communities, improvement)`. -/
def visit_node (g : PpiGraph) (node_degrees : List ℚ) (m : ℚ)
    (st : List Nat × Bool) (u : Nat) : Except GraphError (List Nat × Bool) :=
  match st.1[u]? with
  | none => .error .index_out_of_bounds
  | some original =>
    let cdm := community_degrees st.1 node_degrees
    match neighbors g u with
    | .error e => .error e
    | .ok row =>
      match neighbor_labels st.1 row with
      | .error e => .error e
      | .ok labels =>
        let neighbor_communities := labels.foldl oset_insert []
        match node_degrees[u]? with
        | none => .error .index_out_of_bounds
        | some k_i =>
          let best := neighbor_communities.foldl
            (consider_target labels cdm k_i m original) (original, 0)
          if best.1 ≠ original then .ok (st.1.set u best.1, true)
          else .ok st

/-- One execution of the body of the `while` loop (lines 69-125) with the shuffled
`node_order` given. -/
def run_pass (g : PpiGraph) (node_degrees : List ℚ) (m : ℚ) (node_order : List Nat)
    (communities : List Nat) : Except GraphError (List Nat × Bool) :=
  node_order.foldlM (visit_node g node_degrees m) (communities, false)

/-- The `while (improvement)` loop; `orders p` is the outcome of the shuffle in pass
`p`, and `none` says that `fuel` passes did not reach a pass without a move. -/
def louvain_loop (g : PpiGraph) (node_degrees : List ℚ) (m : ℚ) (orders : Nat → List Nat) :
    Nat → Nat → List Nat → Option (Except GraphError (List Nat))
  | 0, _, _ => none
  | fuel + 1, pass, communities =>
    match run_pass g node_degrees m (orders pass) communities with
    | .error e => some (.error e)
    | .ok (communities1, improvement) =>
      if improvement then louvain_loop g node_degrees m orders fuel (pass + 1) communities1
      else some (.ok communities1)

/-- The output grouping of lines 134-142: `community_map[communities[i]].push_back(i)`
for ascending `i`, then the mapped vectors in key order. -/
def group_by_community (communities : List Nat) : List (List Nat) :=
  ((communities.zip (List.range communities.length)).foldl
    (fun mp ci => omap_update ([] : List Nat) (fun grp => grp ++ [ci.2]) mp ci.1) []).map
    Prod.snd

/-- The function `louvain_community`, with the shuffles and a bound on the number
of passes as extra arguments. -/
def louvain_community (g : PpiGraph) (use_weights : Bool) (orders : Nat → List Nat)
    (fuel : Nat) : Option (Except GraphError (List (List Nat))) :=
  if g.num_nodes = 0 then some (.ok [])
  else
    match g.edges_.foldlM (louvain_init_step use_weights)
        (List.replicate g.num_nodes (0 : ℚ), (0 : ℚ)) with
    | .error e => some (.error e)
    | .ok (node_degrees, total) =>
      let m := total / 2
      if m = 0 then some (.ok ((List.range g.num_nodes).map (fun i => [i])))
      else
        match louvain_loop g node_degrees m orders fuel 0 (List.range g.num_nodes) with
        | none => none
        | some (.error e) => some (.error e)
        | some (.ok communities) => some (.ok (group_by_community communities))

/-- The graph of the community-detection test: two 4-cliques and the bridge 0-4. -/
def two_cliques : PpiGraph :=
  let g0 := (["0", "1", "2", "3", "4", "5", "6", "7"]).foldl
    (fun g pid => (get_or_add_node g pid none).2) PpiGraph.empty
  ([(0, 1), (0, 2), (0, 3), (1, 2), (1, 3), (2, 3),
    (4, 5), (4, 6), (4, 7), (5, 6), (5, 7), (6, 7), (0, 4)] : List (Nat × Nat)).foldl
    (fun g e => (add_edge g e.1 e.2 1).2) g0

/-! ## Specification-side notions for the graph store -/

/-- The opposite endpoints of the edges incident to `i`, in edge order: an edge `u-v`
gives `v` to `u` and `u` to `v` (a self-loop gives its node twice). -/
def incident_opposites : List Edge → Nat → List Nat
  | [], _ => []
  | e :: rest, i =>
    (if e.u = i then [e.v] else []) ++ (if e.v = i then [e.u] else []) ++
      incident_opposites rest i

/-- The sum, over all edges, of the edge weight counted once for each endpoint equal
to `i`. -/
def incident_weight (edges : List Edge) (i : Nat) : ℚ :=
  (edges.map (fun e =>
    (if e.u = i then e.weight else 0) + (if e.v = i then e.weight else 0))).sum

/-- The weights of the edges incident to `i`, in edge order, once for each endpoint
equal to `i` (a self-loop gives its weight twice): the values that the weighted loop
adds to `degrees[i]`, in the order in which it adds them. -/
def incident_weights : List Edge → Nat → List ℚ
  | [], _ => []
  | e :: rest, i =>
    (if e.u = i then [e.weight] else []) ++ (if e.v = i then [e.weight] else []) ++
      incident_weights rest i

/-- Three nodes and the edges A-B of weight `0.1` and A-C of weight `0.2`, the weights
being the binary64 values nearest to one tenth and to two tenths. -/
def tenths_graph : PpiGraph :=
  (add_edge (add_edge
    (get_or_add_node (get_or_add_node (get_or_add_node PpiGraph.empty "A" none).2
      "B" none).2 "C" none).2
    0 1 (rn (1 / 10))).2 0 2 (rn (2 / 10))).2

/-- The graph of the unweighted centrality test: the chain A-B-C-D of unit edges. -/
def chain_graph : PpiGraph :=
  let g0 := (["A", "B", "C", "D"]).foldl
    (fun g pid => (get_or_add_node g pid none).2) PpiGraph.empty
  ([("A", "B"), ("B", "C"), ("C", "D")] : List (String × String)).foldl
    (fun g e => (add_edge g ((find_node g e.1).getD 0) ((find_node g e.2).getD 0) 1).2) g0

/-- The graph of the weighted centrality test: A-B (0.5), B-C (1.5), C-A (2.0). -/
def weighted_triangle : PpiGraph :=
  let g0 := (["A", "B", "C"]).foldl
    (fun g pid => (get_or_add_node g pid none).2) PpiGraph.empty
  ([("A", "B", 1 / 2), ("B", "C", 3 / 2), ("C", "A", 2)] : List (String × String × ℚ)).foldl
    (fun g e =>
      (add_edge g ((find_node g e.1).getD 0) ((find_node g e.2.1).getD 0) e.2.2).2) g0

/-- The sum of the degrees of the nodes currently assigned to community `t`. -/
def sigma_tot (communities : List Nat) (node_degrees : List ℚ) (t : Nat) : ℚ :=
  ((communities.zip node_degrees).map (fun cd => if cd.1 = t then cd.2 else 0)).sum

/-- Keys strictly ascending: the representation invariant of a `std::map`. -/
def KeysSorted {β : Type} (mp : List (Nat × β)) : Prop :=
  (mp.map Prod.fst).Pairwise (fun a b => a < b)

/-- A reachable graph with the two nodes A, B, the edge A-B, a parallel edge B-A and a
self-loop at A; used to instantiate the theorems on reachable graphs. -/
def sample_graph : PpiGraph :=
  (add_edge (add_edge (add_edge
    (get_or_add_node (add_node PpiGraph.empty "A" none).2 "B" (some "geneB")).2
    0 1 (1 / 2)).2 1 0 2).2 0 0 1).2

/-- Community labels on the two-clique graph that do not mix the cliques: the nodes
0..3 carry labels below 4, the nodes 4..7 labels in 4..7. -/
def CliqueLabels (cs : List Nat) : Prop :=
  ∃ c0 c1 c2 c3 c4 c5 c6 c7, cs = [c0, c1, c2, c3, c4, c5, c6, c7] ∧
    c0 < 4 ∧ c1 < 4 ∧ c2 < 4 ∧ c3 < 4 ∧
    (4 ≤ c4 ∧ c4 < 8) ∧ (4 ≤ c5 ∧ c5 < 8) ∧ (4 ≤ c6 ∧ c6 < 8) ∧ (4 ≤ c7 ∧ c7 < 8)

/-- The groups are listed in ascending order of the smallest node id of each group. -/
def ascending_by_smallest (groups : List (List Nat)) : Prop :=
  (groups.map (fun grp => grp.foldl min (grp.headD 0))).Pairwise (fun a b => a < b)

/-- Two node ids are the two ends of an edge of the graph. -/
def adjacent (g : PpiGraph) (a b : Nat) : Prop :=
  ∃ e ∈ g.edges_, (e.u = a ∧ e.v = b) ∨ (e.u = b ∧ e.v = a)

/-- Two node ids are joined by a path of edges (the same connected component). -/
def joined (g : PpiGraph) (a b : Nat) : Prop :=
  Relation.ReflTransGen (adjacent g) a b

/-- Nodes with the same community label lie in the same connected component. -/
def SameLabelJoined (g : PpiGraph) (cs : List Nat) : Prop :=
  ∀ i j x, cs[i]? = some x → cs[j]? = some x → joined g i j

/-- Four nodes with the two edges 0-3 and 1-2. -/
def crossed_pairs : PpiGraph :=
  let g0 := (["0", "1", "2", "3"]).foldl
    (fun g pid => (get_or_add_node g pid none).2) PpiGraph.empty
  ([(0, 3), (1, 2)] : List (Nat × Nat)).foldl (fun g e => (add_edge g e.1 e.2 1).2) g0

/-- The graph of the disconnected-graph test: the components A-B and C-D. -/
def two_pairs : PpiGraph :=
  let a := get_or_add_node PpiGraph.empty "A" none
  let b := get_or_add_node a.2 "B" none
  let g1 := (add_edge b.2 a.1 b.1 1).2
  let c := get_or_add_node g1 "C" none
  let d := get_or_add_node c.2 "D" none
  (add_edge d.2 c.1 d.1 1).2

/-- Three nodes and no edge. -/
def isolated_nodes : PpiGraph :=
  (["A", "B", "C"]).foldl (fun g pid => (get_or_add_node g pid none).2) PpiGraph.empty

/-- The class invariant of `PpiGraph`. -/
structure WellFormed (g : PpiGraph) : Prop where
  adj_length : g.adj_.length = g.nodes_.length
  ids : g.nodes_.map Node.id = List.range g.nodes_.length
  index : g.protein_index_ = g.nodes_.map (fun nd => (nd.protein_id, nd.id))
  unique : (g.nodes_.map Node.protein_id).Nodup
  endpoints : ∀ e ∈ g.edges_, e.u < g.nodes_.length ∧ e.v < g.nodes_.length
  adj : g.adj_ = (List.range g.nodes_.length).map (incident_opposites g.edges_)

/-! ## Annotation index (`include/tangle/annotate/annotation_db.hpp`) -/

/-- The private members of class `AnnotationDb`; the two `unordered_map`s are
association lists, and a count is a natural number (counts start at zero and are
only incremented). -/
structure AnnotationDb where
  protein_to_go_ : List (String × List String)
  all_go_terms_ : List String
  term_counts_ : List (String × Nat)
deriving DecidableEq

/-- The method `AnnotationDb::get_annotations`: the stored term list, empty for an unknown id. -/
def get_annotations (db : AnnotationDb) (protein : String) : List String :=
  match db.protein_to_go_.find? (fun kv => kv.1 = protein) with
  | some kv => kv.2
  | none => []

/-- The method `AnnotationDb::get_term_frequency`: the stored count, `0` for an unseen term. -/
def get_term_frequency (db : AnnotationDb) (go_term : String) : Nat :=
  match db.term_counts_.find? (fun kv => kv.1 = go_term) with
  | some kv => kv.2
  | none => 0

/-- The method `AnnotationDb::get_all_annotated_proteins`: the keys of `protein_to_go_`. -/
def get_all_annotated_proteins (db : AnnotationDb) : List String :=
  db.protein_to_go_.map Prod.fst

/-- The method `AnnotationDb::get_all_go_terms`. -/
def get_all_go_terms (db : AnnotationDb) : List String := db.all_go_terms_

/-- The method `AnnotationDb::has_annotations`: `protein_to_go_.count(protein) > 0`. -/
def has_annotations (db : AnnotationDb) (protein : String) : Bool :=
  (db.protein_to_go_.find? (fun kv => kv.1 = protein)).isSome

/-! ## Loading the annotation index (`src/annotate/annotation_db.cpp`) -/

/-- The three columns that `load_from_gaf` extracts from a line on which it found
both the protein column and the GO column: DB object id, symbol, GO id. -/
structure GafRecord where
  protein_id : String
  protein_symbol : String
  go_id : String
deriving DecidableEq

/-- The column scan of lines 26-66: a line that is empty or starts with `!` is
skipped; otherwise the columns are the tab-separated pieces, and the GO column is
found exactly when there are at least five of them. -/
def parse_gaf_line (line : String) : Option GafRecord :=
  if line.isEmpty || line.front == '!' then none
  else
    match line.splitOn "\t" with
    | _ :: pid :: sym :: _ :: go :: _ => some (GafRecord.mk pid sym go)
    | _ => none

/-- The statement `protein_to_go_[key].push_back(term)`. -/
def multimap_push : List (String × List String) → String → String →
    List (String × List String)
  | [], key, term => [(key, [term])]
  | (k, ts) :: rest, key, term =>
    if k = key then (k, ts ++ [term]) :: rest else (k, ts) :: multimap_push rest key term

/-- The body of lines 68-79 for one record; the state is
`(protein_to_go_, all_go_terms_)`. -/
def load_step (st : List (String × List String) × List String) (r : GafRecord) :
    List (String × List String) × List String :=
  if r.go_id ≠ "" then
    let m1 := multimap_push st.1 r.protein_id r.go_id
    let all1 := st.2 ++ [r.go_id]
    if r.protein_symbol ≠ "" then (multimap_push m1 r.protein_symbol r.go_id, all1)
    else (m1, all1)
  else st

/-- The call `std::sort(v.begin(), v.end())` on a vector of strings. -/
def std_sort (v : List String) : List String :=
  List.insertionSort (fun a b => a ≤ b) v

/-- The idiom `v.erase(std::unique(v.begin(), v.end()), v.end())`: of each run of equal
neighbours only one element stays. -/
def std_unique : List String → List String
  | [] => []
  | [a] => [a]
  | a :: b :: rest => if a = b then std_unique (b :: rest) else a :: std_unique (b :: rest)

/-- The statement `term_counts_[term]++` on an `unordered_map<GoTermId, int>`. -/
def count_incr : List (String × Nat) → String → List (String × Nat)
  | [], t => [(t, 1)]
  | (t1, n) :: rest, t =>
    if t1 = t then (t1, n + 1) :: rest else (t1, n) :: count_incr rest t

/-- The post-processing of lines 82-97 applied to the maps filled by the line loop. -/
def post_process (st : List (String × List String) × List String) : AnnotationDb :=
  let sorted := st.1.map (fun kv => (kv.1, std_unique (std_sort kv.2)))
  { protein_to_go_ := sorted
    all_go_terms_ := std_unique (std_sort st.2)
    term_counts_ := sorted.foldl (fun counts kv => kv.2.foldl count_incr counts) [] }

/-- The index that `load_from_gaf` builds from the records of a file. -/
def load_records (records : List GafRecord) : AnnotationDb :=
  post_process (records.foldl load_step ([], []))

/-- The method `AnnotationDb::load_from_gaf` on the lines of an opened file. -/
def load_from_gaf (lines : List String) : AnnotationDb :=
  load_records (lines.filterMap parse_gaf_line)

/-! ## Enrichment engine (`src/annotate/go_enrichment.cpp`) -/

/-- A quotient of exact values; it has no value when the divisor is zero. -/
def checked_div (a b : ℚ) : Option ℚ := if b = 0 then none else some (a / b)

/-- The function `combinations(int n, int k)`. -/
def combinations (n k : Int) : ℚ :=
  if k < 0 ∨ k > n then 0
  else if k = 0 ∨ k = n then 1
  else
    let k2 : Int := if k > Int.tdiv n 2 then n - k else k
    (List.range k2.toNat).foldl
      (fun (res : ℚ) (j : Nat) =>
        res * (((n - ((j : Int) + 1) + 1 : Int)) : ℚ) / ((((j : Int) + 1 : Int)) : ℚ))
      1

/-- The function `hypergeometric_pmf(k, n, K, N)`. -/
def hypergeometric_pmf (k n K N : Int) : Option ℚ :=
  checked_div (combinations K k * combinations (N - K) (n - k)) (combinations N n)

/-- The statement `p += x` where `p` or `x` may be without value. -/
def add_value (p x : Option ℚ) : Option ℚ :=
  match p, x with
  | some a, some b => some (a + b)
  | _, _ => none

/-- The function `hypergeometric_cdf_upper(k, n, K, N)`: the loop runs over
`i = k, k+1, .., min(n, K)`. -/
def hypergeometric_cdf_upper (k n K N : Int) : Option ℚ :=
  (List.range (min n K + 1 - k).toNat).foldl
    (fun (p : Option ℚ) (j : Nat) => add_value p (hypergeometric_pmf (k + (j : Int)) n K N))
    (some 0)

/-- The struct `GoEnrichmentResult`. -/
structure GoEnrichmentResult where
  go_term : String
  p_value : Option ℚ
  adjusted_p_value : Option ℚ
  count_in_set : Nat
  total_in_set : Nat
  count_in_background : Nat
  total_in_background : Nat
deriving DecidableEq

/-- The statement `unique_terms_in_set[term]++` on a `std::map<GoTermId, int>`. -/
def term_count_incr : List (String × Nat) → String → List (String × Nat)
  | [], t => [(t, 1)]
  | (t1, c) :: rest, t =>
    if t < t1 then (t, 1) :: (t1, c) :: rest
    else if t = t1 then (t1, c + 1) :: rest
    else (t1, c) :: term_count_incr rest t

/-- Step 1 of `go_enrichment` (lines 59-65): the terms of the query set with the
number of query entries bearing each. -/
def unique_terms_in_set (protein_set : List String) (db : AnnotationDb) :
    List (String × Nat) :=
  protein_set.foldl (fun mp prot => (get_annotations db prot).foldl term_count_incr mp) []

/-- Step 2 of `go_enrichment` (lines 68-89): one result per counted term. -/
def raw_results (terms : List (String × Nat)) (n N : Nat) (db : AnnotationDb) :
    List GoEnrichmentResult :=
  terms.filterMap (fun pair =>
    let k : Nat := pair.2
    let K : Nat := get_term_frequency db pair.1
    if k > 0 then
      some { go_term := pair.1
             p_value := hypergeometric_cdf_upper (k : Int) (n : Int) (K : Int) (N : Int)
             adjusted_p_value := some 0
             count_in_set := k
             total_in_set := n
             count_in_background := K
             total_in_background := N }
    else none)

/-- The expression `std::min(1.0, res.p_value * num_tests)`; `std::min(1.0, x)` is
`1.0` when `x` is not a number or infinite. -/
def bonferroni (p : Option ℚ) (num_tests : Nat) : Option ℚ :=
  match p with
  | some x => some (min 1 (x * (num_tests : ℚ)))
  | none => some 1

/-- The function `go_enrichment`. -/
def go_enrichment (protein_set : List String) (db : AnnotationDb)
    (correction_method : String) : List GoEnrichmentResult :=
  let N := (get_all_annotated_proteins db).length
  if N = 0 then []
  else
    let n := protein_set.length
    if n = 0 then []
    else
      let results := raw_results (unique_terms_in_set protein_set db) n N db
      if results.isEmpty then results
      else
        let num_tests := results.length
        if correction_method = "bonferroni" then
          results.map (fun res =>
            { res with adjusted_p_value := bonferroni res.p_value num_tests })
        else
          results.map (fun res => { res with adjusted_p_value := res.p_value })

/-! ## Specification-side notions for the enrichment engine -/

/-- The binomial coefficient `C(a, b)` on integers: the number of `b`-element subsets
of an `a`-element set, `0` when `b < 0` or `b > a`. -/
def binomial (a b : Int) : ℚ :=
  if 0 ≤ b ∧ b ≤ a then ((a.toNat.choose b.toNat : Nat) : ℚ) else 0

/-- The upper-tail hypergeometric sum
`Σ_{i=k}^{min(n,K)} C(K,i)·C(N−K,n−i)/C(N,n)`; it has no value when the sum has a
term and the divisor `C(N,n)` is zero. -/
def upper_tail_sum (k n K N : Nat) : Option ℚ :=
  if N.choose n = 0 ∧ k ≤ min n K then none
  else some (∑ i in Finset.Icc k (min n K),
    ((K.choose i : Nat) : ℚ) * binomial ((N : Int) - (K : Int)) ((n : Int) - (i : Int))
      / ((N.choose n : Nat) : ℚ))

/-- The term list stored under a key of a protein-to-terms map, empty for an absent
key: what `get_annotations` reads. -/
def terms_of (m : List (String × List String)) (p : String) : List String :=
  match m.find? (fun kv => kv.1 = p) with
  | some kv => kv.2
  | none => []

/-- The count stored under a term of a term-to-count map, `0` for an absent term:
what `get_term_frequency` reads. -/
def count_of (counts : List (String × Nat)) (t : String) : Nat :=
  match counts.find? (fun kv => kv.1 = t) with
  | some kv => kv.2
  | none => 0

/-- A record pairs the identifier `p` with its GO term: `p` is its protein id, or its
gene symbol and that symbol is not empty. -/
def record_names (r : GafRecord) (p : String) : Prop :=
  r.protein_id = p ∨ (r.protein_symbol ≠ "" ∧ r.protein_symbol = p)

/-- An index with five annotated proteins in which `GO:0005575` is carried by three,
the situation of the enrichment test (`N = 5`, `K = 3`). -/
def sample_db : AnnotationDb where
  protein_to_go_ :=
    [("P12345", ["GO:0005575", "GO:0008150"]), ("Q99999", ["GO:0005575"]),
      ("A1A1A1", ["GO:0005575"]), ("B2B2B2", ["GO:0008150"]), ("C2C2C2", ["GO:1234567"])]
  all_go_terms_ := ["GO:0005575", "GO:0008150", "GO:1234567"]
  term_counts_ := [("GO:0005575", 3), ("GO:0008150", 2), ("GO:1234567", 1)]

/-- Modelled from the spec: the annotation file `tests/dummy_goa.gaf` of the
enrichment test, which is not among the sources. Five proteins and three GO terms,
`GO:0005575` carried by three proteins, `P12345` carrying two terms and `C2C2C2`
carrying `GO:1234567`, as the test asserts. -/
def test_gaf_lines : List String :=
  ["!gaf-version: 2.2",
   "UniProtKB\tP12345\t\t\tGO:0005575\tPMID:1",
   "UniProtKB\tP12345\t\t\tGO:0008150\tPMID:1",
   "UniProtKB\tQ99999\t\t\tGO:0005575\tPMID:2",
   "UniProtKB\tA1A1A1\t\t\tGO:0005575\tPMID:3",
   "UniProtKB\tB2B2B2\t\t\tGO:0008150\tPMID:4",
   "UniProtKB\tC2C2C2\t\t\tGO:1234567"]

/-- The index of the enrichment test. -/
def test_db : AnnotationDb := load_from_gaf test_gaf_lines

/-- A file that annotates two proteins: `P1`, whose record carries the gene symbol
`GENE1`, with `GO:0000001`, and `P2`, without a symbol, with `GO:0000002`. -/
def alias_pair_gaf_lines : List String :=
  ["UniProtKB\tP1\tGENE1\t\tGO:0000001\tPMID:1", "UniProtKB\tP2\t\t\tGO:0000002\tPMID:2"]

/-- A file whose only record carries the gene symbol `GENE1` next to the protein
id `P1`. -/
def alias_gaf_lines : List String := ["UniProtKB\tP1\tGENE1\t\tGO:0000001\tPMID:1"]

/-- Two nodes joined by one edge of weight 1. -/
def single_edge : PpiGraph :=
  let a := get_or_add_node PpiGraph.empty "A" none
  let b := get_or_add_node a.2 "B" none
  (add_edge b.2 a.1 b.1 1).2

/-- The weight that the initialisation loop adds for an edge: `use_weights ?
edge.weight : 1.0`. -/
def init_weight (use_weights : Bool) (e : Edge) : ℚ :=
  if use_weights then e.weight else 1

/-- The path A-B-C together with the separate edge D-E, all of unit weight. -/
def path_and_pair : PpiGraph :=
  let g0 := (["A", "B", "C", "D", "E"]).foldl
    (fun g pid => (get_or_add_node g pid none).2) PpiGraph.empty
  ([(0, 1), (1, 2), (3, 4)] : List (Nat × Nat)).foldl (fun g e => (add_edge g e.1 e.2 1).2) g0

/-- The community labels that occur during a run on `path_and_pair`: on the path the
labels are non-decreasing and not all equal, on the pair they are 3 or 4. -/
def path_pair_states : List (List Nat) :=
  ([[0, 0, 1], [0, 0, 2], [0, 1, 1], [0, 1, 2], [0, 2, 2], [1, 1, 2], [1, 2, 2]] :
      List (List Nat)).flatMap
    (fun p => ([[3, 3], [3, 4], [4, 4]] : List (List Nat)).map (fun q => p ++ q))

/-- The visit of `u` succeeds and leaves labels that belong to `states`. -/
def visit_within (states : List (List Nat)) (g : PpiGraph) (node_degrees : List ℚ) (m : ℚ)
    (cs : List Nat) (b : Bool) (u : Nat) : Bool :=
  match visit_node g node_degrees m (cs, b) u with
  | .ok st => decide (st.1 ∈ states)
  | .error _ => false

/-- The visit of `u`, started with `improvement == false`, succeeds and sets
`improvement`. -/
def visit_moves (g : PpiGraph) (node_degrees : List ℚ) (m : ℚ) (cs : List Nat) (u : Nat) :
    Bool :=
  match visit_node g node_degrees m (cs, false) u with
  | .ok st => st.2
  | .error _ => false

/-- An annotation file with three annotated proteins: `P1` and `P2` carry
`GO:0000001`, `P3` carries `GO:0000002`. -/
def three_protein_gaf_lines : List String :=
  ["UniProtKB\tP1\t\t\tGO:0000001\tPMID:1",
   "UniProtKB\tP2\t\t\tGO:0000001\tPMID:2",
   "UniProtKB\tP3\t\t\tGO:0000002\tPMID:3"]

/-- The number of edges that join the nodes `i` and `j`, in either direction. -/
def edges_between (g : PpiGraph) (i j : Nat) : Nat :=
  (g.edges_.filter (fun e => decide ((e.u = i ∧ e.v = j) ∨ (e.u = j ∧ e.v = i)))).length

/-- A complete graph: exactly one edge for every pair of distinct nodes, and no
self-loop. -/
def IsComplete (g : PpiGraph) : Prop :=
  ∀ i < g.num_nodes, ∀ j < g.num_nodes, edges_between g i j = if i = j then 0 else 1

/-- The triangle A-B, B-C, C-A of unit edges (the graph of the edge-list test). -/
def triangle_graph : PpiGraph :=
  (add_edge (add_edge (add_edge
    (get_or_add_node (get_or_add_node (get_or_add_node PpiGraph.empty "ProtA" none).2
      "ProtB" none).2 "ProtC" none).2
    0 1 1).2 1 2 1).2 2 0 1).2

/-! ## Edge-list files (`src/io/edgelist_io.cpp`)

A file is the list of its characters. Opening a file is outside the model: the
reader takes the content of the file, the writer returns it. The conversions
`std::stod` and `operator<<` on a `double`, used in weighted mode only, are
parameters of the model. -/

/-- Failure modes of `load_edgelist`: the three `std::runtime_error`s thrown while a
line is read, and an exception of the graph store. -/
inductive IoError where
  | malformed_line
  | missing_weight
  | invalid_weight
  | graph (e : GraphError)
deriving DecidableEq

/-- The call `std::getline(stream, field, delim)` on the unread characters of a
stream: it fails (`none`) when no character is left; otherwise it yields the
characters before the first `delim`, or all of them when there is none, and leaves the
characters after that `delim` unread. -/
def getline (delim : Char) : List Char → Option (List Char × List Char)
  | [] => none
  | c :: rest =>
    if c = delim then some ([], rest)
    else
      match getline delim rest with
      | none => some ([c], [])
      | some (field, rest2) => some (c :: field, rest2)

/-- The lines that the loop `while (std::getline(file, line))` reads; every call
consumes at least one character, `fuel` bounds the number of calls (`none`: the bound
was too small). -/
def read_lines : Nat → List Char → Option (List (List Char))
  | 0, _ => none
  | fuel + 1, text =>
    match getline '\n' text with
    | none => some []
    | some (line, rest) =>
      match read_lines fuel rest with
      | none => none
      | some lines => some (line :: lines)

/-- The body of the loop of `load_edgelist` for one line (lines 17-48). -/
def load_edgelist_line (stod : List Char → Option ℚ) (weighted : Bool) (delimiter : Char)
    (graph : PpiGraph) (line : List Char) : Except IoError PpiGraph :=
  if line = [] ∨ line.head? = some '#' then .ok graph
  else
    match getline delimiter line with
    | none => .error .malformed_line
    | some (u_str, r1) =>
      match getline delimiter r1 with
      | none => .error .malformed_line
      | some (v_str, r2) =>
        let weight : Except IoError ℚ :=
          if weighted then
            match getline delimiter r2 with
            | none => .error .missing_weight
            | some (weight_str, _) =>
              match stod weight_str with
              | none => .error .invalid_weight
              | some w => .ok w
          else .ok 1
        match weight with
        | .error e => .error e
        | .ok w =>
          let u := get_or_add_node graph (String.mk u_str) none
          let v := get_or_add_node u.2 (String.mk v_str) none
          match add_edge v.2 u.1 v.1 w with
          | (.ok _, g3) => .ok g3
          | (.error e, _) => .error (.graph e)

/-- The function `load_edgelist` on the content of the opened file. The lines are
read first and then processed in order, the first failing line ending the run with
its error, which gives the result of the source loop that reads and processes line by
line. The result `none` cannot occur, the bound on the number of lines being the
number of characters plus one. -/
def load_edgelist (stod : List Char → Option ℚ) (text : List Char) (weighted : Bool)
    (delimiter : Char) : Option (Except IoError PpiGraph) :=
  match read_lines (text.length + 1) text with
  | none => none
  | some lines =>
    some (lines.foldlM (load_edgelist_line stod weighted delimiter) PpiGraph.empty)

/-- The text that `save_edgelist` writes for one edge (lines 59-64). -/
def save_edgelist_line (fmt : ℚ → List Char) (graph : PpiGraph) (weighted : Bool)
    (delimiter : Char) (edge : Edge) : Except GraphError (List Char) :=
  match node graph edge.u with
  | .error x => .error x
  | .ok nu =>
    match node graph edge.v with
    | .error x => .error x
    | .ok nv =>
      .ok (nu.protein_id.data ++ [delimiter] ++ nv.protein_id.data ++
        (if weighted then delimiter :: fmt edge.weight else []) ++ ['\n'])

/-- One iteration of the loop of `save_edgelist`: the line of the edge is appended to
the text written so far. -/
def save_edgelist_step (fmt : ℚ → List Char) (graph : PpiGraph) (weighted : Bool)
    (delimiter : Char) (text : List Char) (edge : Edge) : Except GraphError (List Char) :=
  match save_edgelist_line fmt graph weighted delimiter edge with
  | .error x => .error x
  | .ok l => .ok (text ++ l)

/-- The function `save_edgelist`: the content of the file it writes. -/
def save_edgelist (fmt : ℚ → List Char) (graph : PpiGraph) (weighted : Bool)
    (delimiter : Char) : Except GraphError (List Char) :=
  graph.edges_.foldlM (save_edgelist_step fmt graph weighted delimiter) []

/-- The protein id of node `i`, as characters (empty for an id out of range). -/
def pid_chars (g : PpiGraph) (i : Nat) : List Char :=
  match g.nodes_[i]? with
  | some nd => nd.protein_id.data
  | none => []

/-- The graph with the two nodes A, B and no edge at all. -/
def two_isolated : PpiGraph :=
  (get_or_add_node (get_or_add_node PpiGraph.empty "A" none).2 "B" none).2

/-- Node `i` is an endpoint of at least one edge. -/
def has_edge (g : PpiGraph) (i : Nat) : Bool :=
  g.edges_.any (fun e => decide (e.u = i) || decide (e.v = i))

/-! ## Community detection: the node visit in binary64 arithmetic

The gain of line 111 is a binary64 value: the sums of degrees, the product, the
quotient and the difference are each rounded. Two gains that are equal as rationals
can differ after rounding, so which community a visit picks is determined here with
the rounded operations. The count `k_i_in` is exact (below `2^53`), and so are the
comparisons. -/

/-- The map `community_degrees_map` of lines 86-89, filled by binary64 additions. -/
def community_degrees_binary64 (communities : List Nat) (node_degrees : List ℚ) :
    List (Nat × ℚ) :=
  (communities.zip node_degrees).foldl
    (fun mp cd => omap_update (0 : ℚ) (fun x => fadd x cd.2) mp cd.1) []

/-- The value of `gain` that line 111 computes for a target community:
`k_i_in - (sigma_tot * k_i) / (2.0 * m)`, every operation in binary64. -/
def gain_binary64 (labels : List Nat) (cdm : List (Nat × ℚ)) (k_i m : ℚ) (target : Nat) : ℚ :=
  fsub (k_i_in labels target) (fdiv (fmul (omap_get 0 cdm target) k_i) (fmul 2 m))

/-- One iteration of the loop over the candidate communities (lines 97-117), the gain
of line 111 being `gain_of target`; the state is `(best_community, max_gain)`. -/
def consider_target_by (gain_of : Nat → ℚ) (original : Nat) (best : Nat × ℚ)
    (target : Nat) : Nat × ℚ :=
  if target = original then best
  else if gain_of target > best.2 then (target, gain_of target)
  else best

/-- The body of the loop over `node_order` (lines 80-125) for the node `u`, with the
binary64 gain; the state is `(communities, improvement)`. -/
def visit_node_binary64 (g : PpiGraph) (node_degrees : List ℚ) (m : ℚ)
    (st : List Nat × Bool) (u : Nat) : Except GraphError (List Nat × Bool) :=
  match st.1[u]? with
  | none => .error .index_out_of_bounds
  | some original =>
    let cdm := community_degrees_binary64 st.1 node_degrees
    match neighbors g u with
    | .error e => .error e
    | .ok row =>
      match neighbor_labels st.1 row with
      | .error e => .error e
      | .ok labels =>
        let neighbor_communities := labels.foldl oset_insert []
        match node_degrees[u]? with
        | none => .error .index_out_of_bounds
        | some k_i =>
          let best := neighbor_communities.foldl
            (consider_target_by (gain_binary64 labels cdm k_i m) original) (original, 0)
          if best.1 ≠ original then .ok (st.1.set u best.1, true) else .ok st

/-- Seven nodes and nine unit edges: node 3 is joined to 0, 1 and 2; the other edges
are 0-1, 1-4, 2-5, 4-5, 5-6 and 4-6. -/
def tie_graph : PpiGraph :=
  let g0 := (["N0", "N1", "N2", "N3", "N4", "N5", "N6"]).foldl
    (fun g pid => (get_or_add_node g pid none).2) PpiGraph.empty
  ([(3, 0), (3, 1), (3, 2), (0, 1), (1, 4), (2, 5), (4, 5), (5, 6), (4, 6)] :
    List (Nat × Nat)).foldl (fun g e => (add_edge g e.1 e.2 1).2) g0

end tangle

namespace tangle

/-! ## Lemmas on the protein index -/

theorem index_find_assign (m : List (String × Nat)) (pid : String) (id : Nat) :
    index_find (index_assign m pid id) pid = some id := by
  induction m with
  | nil => simp [index_assign, index_find]
  | cons kv rest ih =>
    obtain ⟨k, v⟩ := kv
    by_cases h : k = pid
    · simp [index_assign, index_find, h]
    · simp [index_assign, index_find, h, ih]

theorem index_find_none_iff (m : List (String × Nat)) (pid : String) :
    index_find m pid = none ↔ pid ∉ m.map Prod.fst := by
  induction m with
  | nil => simp [index_find]
  | cons kv rest ih =>
    obtain ⟨k, v⟩ := kv
    by_cases h : k = pid
    · simp [index_find, h]
    · have h2 : ¬ pid = k := fun e => h e.symm
      simp [index_find, h, h2, ih]

theorem index_assign_of_not_mem (m : List (String × Nat)) (pid : String) (id : Nat)
    (h : pid ∉ m.map Prod.fst) : index_assign m pid id = m ++ [(pid, id)] := by
  induction m with
  | nil => simp [index_assign]
  | cons kv rest ih =>
    obtain ⟨k, v⟩ := kv
    simp only [List.map_cons, List.mem_cons, not_or] at h
    have h1 : ¬ k = pid := fun e => h.1 e.symm
    simp [index_assign, h1, ih h.2]

theorem index_find_some_iff_mem (m : List (String × Nat))
    (hk : (m.map Prod.fst).Nodup) (pid : String) (v : Nat) :
    index_find m pid = some v ↔ (pid, v) ∈ m := by
  induction m with
  | nil => simp [index_find]
  | cons kv rest ih =>
    obtain ⟨k, w⟩ := kv
    simp only [List.map_cons, List.nodup_cons] at hk
    by_cases h : k = pid
    · subst h
      have hno : ∀ x, (k, x) ∉ rest := fun x hx => hk.1 (List.mem_map.2 ⟨(k, x), hx, rfl⟩)
      simp only [index_find, if_true, Option.some.injEq, List.mem_cons, Prod.mk.injEq,
        true_and]
      constructor
      · intro e; exact Or.inl e.symm
      · rintro (e | e)
        · exact e.symm
        · exact absurd e (hno v)
    · have h2 : ¬ pid = k := fun e => h e.symm
      simp [index_find, h, h2, ih hk.2]

theorem getElem?_of_ids (nodes : List Node)
    (hids : nodes.map Node.id = List.range nodes.length) (i : Nat) (nd : Node) :
    nodes[i]? = some nd ↔ nd ∈ nodes ∧ nd.id = i := by
  have hid : ∀ (j : Nat) (x : Node), nodes[j]? = some x → x.id = j := by
    intro j x hx
    have h1 : (nodes.map Node.id)[j]? = some x.id := by simp [hx]
    rw [hids] at h1
    have hj : j < nodes.length := by
      by_contra hc
      have : nodes[j]? = none := by simp; omega
      rw [this] at hx; cases hx
    rw [List.getElem?_range hj] at h1
    exact (Option.some.inj h1).symm
  constructor
  · intro h
    exact ⟨List.getElem?_mem h, hid i nd h⟩
  · rintro ⟨hmem, hi⟩
    obtain ⟨j, hj⟩ := List.mem_iff_getElem?.1 hmem
    have := hid j nd hj
    rw [← hi, this]; exact hj

theorem index_find_some_iff (nodes : List Node)
    (hids : nodes.map Node.id = List.range nodes.length)
    (huniq : (nodes.map Node.protein_id).Nodup) (pid : String) (i : Nat) :
    index_find (nodes.map (fun nd => (nd.protein_id, nd.id))) pid = some i ↔
      ∃ nd, nodes[i]? = some nd ∧ nd.protein_id = pid := by
  have hk : ((nodes.map (fun nd => (nd.protein_id, nd.id))).map Prod.fst).Nodup := by
    simpa [List.map_map, Function.comp_def] using huniq
  rw [index_find_some_iff_mem _ hk]
  constructor
  · intro h
    obtain ⟨nd, hnd, he⟩ := List.mem_map.1 h
    simp only [Prod.mk.injEq] at he
    exact ⟨nd, (getElem?_of_ids nodes hids i nd).2 ⟨hnd, he.2⟩, he.1⟩
  · rintro ⟨nd, hnd, hp⟩
    obtain ⟨hmem, hi⟩ := (getElem?_of_ids nodes hids i nd).1 hnd
    exact List.mem_map.2 ⟨nd, hmem, by simp [hp, hi]⟩

/-! ## The class invariant holds in every reachable graph -/

theorem incident_opposites_append (es : List Edge) (e : Edge) (i : Nat) :
    incident_opposites (es ++ [e]) i =
      incident_opposites es i ++
        ((if e.u = i then [e.v] else []) ++ (if e.v = i then [e.u] else [])) := by
  induction es with
  | nil => simp [incident_opposites]
  | cons a rest ih => simp [incident_opposites, ih, List.append_assoc]

theorem incident_opposites_eq_nil (es : List Edge) (i : Nat)
    (h : ∀ e ∈ es, e.u ≠ i ∧ e.v ≠ i) : incident_opposites es i = [] := by
  induction es with
  | nil => rfl
  | cons a rest ih =>
    have ha := h a (List.mem_cons_self _ _)
    have hr := ih (fun e he => h e (List.mem_cons_of_mem _ he))
    simp [incident_opposites, ha.1, ha.2, hr]

theorem wellFormed_empty : WellFormed PpiGraph.empty := by
  constructor <;> simp [PpiGraph.empty]

theorem add_node_internal_eq (g : PpiGraph) (hg : WellFormed g) (pid : String)
    (symbol : Option String) (hnew : index_find g.protein_index_ pid = none) :
    add_node_internal g pid symbol =
      (g.nodes_.length,
        { nodes_ := g.nodes_ ++ [Node.mk g.nodes_.length pid symbol]
          edges_ := g.edges_
          adj_ := g.adj_ ++ [[]]
          protein_index_ := g.protein_index_ ++ [(pid, g.nodes_.length)] }) := by
  have hmem := (index_find_none_iff _ _).1 hnew
  have hlen := hg.adj_length
  simp only [add_node_internal, ensure_adj_size, index_assign_of_not_mem _ _ _ hmem,
    List.length_append, List.length_singleton, hlen]
  simp

theorem wellFormed_add_node_internal (g : PpiGraph) (hg : WellFormed g) (pid : String)
    (symbol : Option String) (hnew : index_find g.protein_index_ pid = none) :
    WellFormed (add_node_internal g pid symbol).2 := by
  rw [add_node_internal_eq g hg pid symbol hnew]
  have hmem := (index_find_none_iff _ _).1 hnew
  rw [hg.index] at hmem
  have hmem2 : pid ∉ g.nodes_.map Node.protein_id := by
    simpa [List.map_map, Function.comp_def] using hmem
  constructor
  · simp [hg.adj_length]
  · simp [List.range_succ, hg.ids]
  · simp [hg.index]
  · simp only [List.map_append, List.map_cons, List.map_nil]
    refine List.nodup_append.2 ⟨hg.unique, by simp, ?_⟩
    intro a ha hb
    simp only [List.mem_singleton] at hb
    subst hb
    exact hmem2 ha
  · intro e he
    have := hg.endpoints e he
    simp only [List.length_append, List.length_singleton]
    omega
  · simp only [List.length_append, List.length_singleton, List.range_succ, List.map_append,
      List.map_cons, List.map_nil]
    rw [← hg.adj]
    congr 2
    symm
    apply incident_opposites_eq_nil
    intro e he
    have := hg.endpoints e he
    omega

theorem wellFormed_add_node (g : PpiGraph) (hg : WellFormed g) (pid : String)
    (symbol : Option String) : WellFormed (add_node g pid symbol).2 := by
  unfold add_node
  cases h : index_find g.protein_index_ pid with
  | some id => exact hg
  | none => exact wellFormed_add_node_internal g hg pid symbol h

theorem wellFormed_get_or_add_node (g : PpiGraph) (hg : WellFormed g) (pid : String)
    (symbol : Option String) : WellFormed (get_or_add_node g pid symbol).2 := by
  unfold get_or_add_node
  cases h : index_find g.protein_index_ pid with
  | some id => exact hg
  | none => exact wellFormed_add_node_internal g hg pid symbol h

theorem add_edge_eq (g : PpiGraph) (u v : Nat) (w : ℚ)
    (hlen : g.nodes_.length ≤ g.adj_.length)
    (hu : u < g.nodes_.length) (hv : v < g.nodes_.length) :
    add_edge g u v w =
      (.ok (),
        { nodes_ := g.nodes_
          edges_ := g.edges_ ++ [Edge.mk u v w]
          adj_ := (g.adj_.modify (fun row => row ++ [v]) u).modify (fun row => row ++ [u]) v
          protein_index_ := g.protein_index_ }) := by
  have h1 : ¬ (g.nodes_.length ≤ u ∨ g.nodes_.length ≤ v) := by omega
  have h2 : ¬ g.adj_.length < g.nodes_.length := by omega
  have h3 : u < g.adj_.length := by omega
  have h4 : v < g.adj_.length := by omega
  simp [add_edge, ensure_adj_size, h1, h2, h3, h4]

theorem add_edge_out_of_range (g : PpiGraph) (u v : Nat) (w : ℚ)
    (h : g.nodes_.length ≤ u ∨ g.nodes_.length ≤ v) :
    add_edge g u v w = (.error .out_of_range, g) := by
  simp [add_edge, h]

theorem wellFormed_add_edge (g : PpiGraph) (hg : WellFormed g) (u v : Nat) (w : ℚ) :
    WellFormed (add_edge g u v w).2 := by
  by_cases h : g.nodes_.length ≤ u ∨ g.nodes_.length ≤ v
  · rw [add_edge_out_of_range g u v w h]; exact hg
  · have hu : u < g.nodes_.length := by omega
    have hv : v < g.nodes_.length := by omega
    rw [add_edge_eq g u v w (le_of_eq hg.adj_length.symm) hu hv]
    constructor
    · simp [hg.adj_length]
    · exact hg.ids
    · exact hg.index
    · exact hg.unique
    · intro e he
      simp only [List.mem_append, List.mem_singleton] at he
      rcases he with he | he
      · exact hg.endpoints e he
      · subst he; exact ⟨hu, hv⟩
    · apply List.ext_getElem?
      intro i
      simp only [List.getElem?_modify, List.getElem?_map, hg.adj]
      by_cases hi : i < g.nodes_.length
      · simp only [List.getElem?_range hi, Option.map_some', incident_opposites_append]
        by_cases h1 : u = i <;> by_cases h2 : v = i <;> simp [h1, h2]
      · have : (List.range g.nodes_.length)[i]? = none := by simp; omega
        simp [this]

theorem reachable_wellFormed (g : PpiGraph) (h : Reachable g) : WellFormed g := by
  induction h with
  | empty => exact wellFormed_empty
  | add_node g pid symbol _ ih => exact wellFormed_add_node g ih pid symbol
  | get_or_add_node g pid symbol _ ih => exact wellFormed_get_or_add_node g ih pid symbol
  | add_edge g u v w _ ih => exact wellFormed_add_edge g ih u v w

/-! ## Graph store: idempotence, failure of `add_edge`, invariants -/

theorem node_eq_ok_iff (g : PpiGraph) (i : Nat) (nd : Node) :
    node g i = .ok nd ↔ g.nodes_[i]? = some nd := by
  unfold node
  cases g.nodes_[i]? with
  | none => simp
  | some x => simp

theorem neighbors_eq_ok_iff (g : PpiGraph) (i : Nat) (row : List Nat) :
    neighbors g i = .ok row ↔ g.adj_[i]? = some row := by
  unfold neighbors
  cases g.adj_[i]? with
  | none => simp
  | some x => simp

theorem add_node_internal_find (g : PpiGraph) (pid : String) (symbol : Option String) :
    index_find (add_node_internal g pid symbol).2.protein_index_ pid =
      some (add_node_internal g pid symbol).1 := by
  simp only [add_node_internal, ensure_adj_size]
  split_ifs <;> exact index_find_assign _ _ _

theorem sample_graph_reachable : Reachable sample_graph :=
  Reachable.add_edge _ 0 0 1 (Reachable.add_edge _ 1 0 2 (Reachable.add_edge _ 0 1 (1 / 2)
    (Reachable.get_or_add_node _ "B" (some "geneB")
      (Reachable.add_node _ "A" none Reachable.empty))))

/-- C4: `get_or_add_node` and `add_node` are idempotent on the protein id. On every
graph, a second call with the same protein id (whatever gene symbol is passed, and
through either entry point) returns the id of the first call and the graph of the
first call unchanged: same nodes (with the gene symbol stored first), edges,
adjacency lists and index. -/
theorem get_or_add_node_idempotent (g : PpiGraph) (pid : String)
    (symbol symbol2 : Option String) :
    get_or_add_node (get_or_add_node g pid symbol).2 pid symbol2
        = get_or_add_node g pid symbol ∧
    add_node (add_node g pid symbol).2 pid symbol2 = add_node g pid symbol ∧
    add_node (get_or_add_node g pid symbol).2 pid symbol2 = get_or_add_node g pid symbol ∧
    get_or_add_node (add_node g pid symbol).2 pid symbol2 = add_node g pid symbol := by
  have key : ∀ r : Nat × PpiGraph,
      index_find r.2.protein_index_ pid = some r.1 →
      get_or_add_node r.2 pid symbol2 = r ∧ add_node r.2 pid symbol2 = r := by
    intro r hr
    simp [get_or_add_node, add_node, hr]
  have h1 : index_find (get_or_add_node g pid symbol).2.protein_index_ pid
      = some (get_or_add_node g pid symbol).1 := by
    unfold get_or_add_node
    cases h : index_find g.protein_index_ pid with
    | some id => simpa using h
    | none => exact add_node_internal_find g pid symbol
  have h2 : index_find (add_node g pid symbol).2.protein_index_ pid
      = some (add_node g pid symbol).1 := by
    unfold add_node
    cases h : index_find g.protein_index_ pid with
    | some id => simpa using h
    | none => exact add_node_internal_find g pid symbol
  exact ⟨(key _ h1).1, (key _ h2).2, (key _ h1).2, (key _ h2).1⟩

/-- C5: on every graph, `add_edge u v w` throws `out_of_range` exactly when
`u >= num_nodes` or `v >= num_nodes`, succeeds exactly when both ids are below
`num_nodes` (so the unchecked accesses to `adj_` are never out of bounds), and a
call that does not succeed leaves the graph as it was. -/
theorem add_edge_fails_iff (g : PpiGraph) (u v : Nat) (w : ℚ) :
    ((add_edge g u v w).1 = .error .out_of_range ↔ (g.num_nodes ≤ u ∨ g.num_nodes ≤ v)) ∧
    ((add_edge g u v w).1 = .ok () ↔ (u < g.num_nodes ∧ v < g.num_nodes)) ∧
    ((add_edge g u v w).1 = .ok () ∨ (add_edge g u v w).2 = g) := by
  by_cases h : g.nodes_.length ≤ u ∨ g.nodes_.length ≤ v
  · have hn : ¬ (u < g.nodes_.length ∧ v < g.nodes_.length) := by omega
    simp [add_edge_out_of_range g u v w h, PpiGraph.num_nodes, h, hn]
  · have hu : u < g.nodes_.length := by omega
    have hv : v < g.nodes_.length := by omega
    have hok : (add_edge g u v w).1 = .ok () := by
      simp only [add_edge, h, if_false, ensure_adj_size]
      split_ifs with h1 h2 h3 h4 h5 <;> first
        | rfl
        | (exfalso; simp only [List.length_append, List.length_replicate,
            List.length_modify] at *; omega)
    simp [hok, PpiGraph.num_nodes, h, hu, hv]

/-- C6: in every graph reachable from the empty graph by `add_node`,
`get_or_add_node` and `add_edge` there are exactly `num_nodes` adjacency lists,
`neighbors(i)` is, for every node `i`, the list of opposite endpoints of the edges
incident to `i` in insertion order (a self-loop gives its node twice, parallel edges
one entry each), the adjacency lists hold `2 * num_edges` entries in total, and `j`
occurs in `neighbors(i)` as often as `i` in `neighbors(j)`. -/
theorem adjacency_consistent (g : PpiGraph) (h : Reachable g) :
    g.adj_.length = g.num_nodes ∧
    (∀ i, i < g.num_nodes → neighbors g i = .ok (incident_opposites g.edges_ i)) ∧
    (g.adj_.map List.length).sum = 2 * g.num_edges ∧
    (∀ i j ri rj, neighbors g i = .ok ri → neighbors g j = .ok rj →
      ri.count j = rj.count i) ∧
    (∀ u w, incident_opposites [Edge.mk u u w] u = [u, u]) ∧
    (∀ u v w w2, u ≠ v →
      incident_opposites [Edge.mk u v w, Edge.mk u v w2] u = [v, v]) := by
  have hg := reachable_wellFormed g h
  have hnb : ∀ i, i < g.num_nodes → neighbors g i = .ok (incident_opposites g.edges_ i) := by
    intro i hi
    have hi2 : i < g.nodes_.length := hi
    rw [neighbors_eq_ok_iff, hg.adj, List.getElem?_map, List.getElem?_range hi2]
    rfl
  have hnb2 : ∀ i r, neighbors g i = .ok r → r = incident_opposites g.edges_ i := by
    intro i r hr
    have hi : i < g.num_nodes := by
      by_contra hc
      have : g.adj_[i]? = none := by
        rw [List.getElem?_eq_none_iff, hg.adj_length]
        exact Nat.le_of_not_lt hc
      rw [neighbors_eq_ok_iff, this] at hr
      cases hr
    have := hnb i hi
    rw [hr] at this
    exact Except.ok.inj this
  have hind : ∀ (n u : Nat), u < n →
      ((List.range n).map (fun i => if u = i then 1 else 0)).sum = 1 := by
    intro n u hu
    induction n with
    | zero => omega
    | succ n ih =>
      rw [List.range_succ, List.map_append, List.sum_append]
      by_cases hun : u = n
      · subst hun
        have hz : ((List.range u).map (fun i => if u = i then 1 else 0)).sum = 0 := by
          apply List.sum_eq_zero
          intro x hx
          obtain ⟨i, hi, rfl⟩ := List.mem_map.1 hx
          have := List.mem_range.1 hi
          simp; omega
        simp [hz]
      · have := ih (by omega)
        simp [this, hun]
  have hsum : ∀ (es : List Edge) (n : Nat), (∀ e ∈ es, e.u < n ∧ e.v < n) →
      ((List.range n).map (fun i => (incident_opposites es i).length)).sum
        = 2 * es.length := by
    intro es n hes
    induction es with
    | nil => simp [incident_opposites]
    | cons e rest ih =>
      have he := hes e (List.mem_cons_self _ _)
      have hr := ih (fun x hx => hes x (List.mem_cons_of_mem _ hx))
      have hsplit : (fun i => (incident_opposites (e :: rest) i).length) =
          (fun i => ((if e.u = i then 1 else 0) + (if e.v = i then 1 else 0)) +
            (incident_opposites rest i).length) := by
        funext i
        by_cases h1 : e.u = i <;> by_cases h2 : e.v = i <;>
          simp [incident_opposites, h1, h2] <;> omega
      rw [hsplit, List.sum_map_add, List.sum_map_add, hr, hind n e.u he.1, hind n e.v he.2,
        List.length_cons]
      omega
  have hcount : ∀ (es : List Edge) (i j : Nat),
      (incident_opposites es i).count j = (incident_opposites es j).count i := by
    intro es i j
    induction es with
    | nil => simp [incident_opposites]
    | cons e rest ih =>
      have hopt : ∀ (c : Prop) [Decidable c] (z y : Nat),
          (if c then [z] else []).count y = if c ∧ z = y then 1 else 0 := by
        intro c _ z y
        by_cases hc : c <;> by_cases hz : z = y <;> simp [hc, hz, List.count_cons]
      have h1 : (e.u = i ∧ e.v = j) ↔ (e.v = j ∧ e.u = i) := and_comm
      have h2 : (e.v = i ∧ e.u = j) ↔ (e.u = j ∧ e.v = i) := and_comm
      simp only [incident_opposites, List.count_append, ih, hopt, h1, h2]
      omega
  refine ⟨hg.adj_length, hnb, ?_, ?_, ?_, ?_⟩
  · rw [hg.adj, List.map_map]
    exact hsum g.edges_ g.nodes_.length hg.endpoints
  · intro i j ri rj hi hj
    rw [hnb2 i ri hi, hnb2 j rj hj]
    exact hcount g.edges_ i j
  · intro u w
    simp [incident_opposites]
  · intro u v w w2 huv
    have hvu : ¬ v = u := fun e => huv e.symm
    simp [incident_opposites, hvu]

theorem adjacency_consistent_witness :
    Reachable sample_graph ∧
    sample_graph.adj_.length = sample_graph.num_nodes ∧
    (sample_graph.adj_.map List.length).sum = 2 * sample_graph.num_edges :=
  ⟨sample_graph_reachable,
    (adjacency_consistent sample_graph sample_graph_reachable).1,
    (adjacency_consistent sample_graph sample_graph_reachable).2.2.1⟩

theorem find_none_of_fresh (g : PpiGraph) (hg : WellFormed g) (pid : String)
    (hfresh : ∀ nd ∈ g.nodes_, nd.protein_id ≠ pid) :
    index_find g.protein_index_ pid = none := by
  rw [index_find_none_iff, hg.index]
  intro hmem
  simp only [List.map_map, List.mem_map, Function.comp_apply] at hmem
  obtain ⟨nd, hnd, hp⟩ := hmem
  exact hfresh nd hnd hp

theorem nodes_prefix_add_node_internal (g : PpiGraph) (pid : String)
    (symbol : Option String) :
    (add_node_internal g pid symbol).2.nodes_ = g.nodes_ ++ [Node.mk g.nodes_.length pid symbol]
      ∧ (add_node_internal g pid symbol).1 = g.nodes_.length := by
  simp only [add_node_internal, ensure_adj_size]
  split_ifs <;> simp

theorem nodes_add_edge (g : PpiGraph) (u v : Nat) (w : ℚ) :
    (add_edge g u v w).2.nodes_ = g.nodes_ := by
  simp only [add_edge, ensure_adj_size]
  split_ifs <;> rfl

/-- C7: node ids are dense and stable. In every reachable graph `node(i).id = i` for
all `i < num_nodes`; inserting a protein id that no node carries returns the former
`num_nodes` as id and raises `num_nodes` by one; and `add_node`, `get_or_add_node`
and `add_edge` leave every existing node (id, protein id and symbol) as it was. -/
theorem node_ids_dense_stable (g : PpiGraph) (h : Reachable g) :
    (∀ i, i < g.num_nodes → ∃ nd, node g i = .ok nd ∧ nd.id = i) ∧
    (∀ pid symbol, (∀ nd ∈ g.nodes_, nd.protein_id ≠ pid) →
      (get_or_add_node g pid symbol).1 = g.num_nodes ∧
      (get_or_add_node g pid symbol).2.num_nodes = g.num_nodes + 1 ∧
      (add_node g pid symbol).1 = g.num_nodes ∧
      (add_node g pid symbol).2.num_nodes = g.num_nodes + 1) ∧
    (∀ i nd, node g i = .ok nd →
      (∀ pid symbol, node (add_node g pid symbol).2 i = .ok nd ∧
        node (get_or_add_node g pid symbol).2 i = .ok nd) ∧
      (∀ u v w, node (add_edge g u v w).2 i = .ok nd)) := by
  have hg := reachable_wellFormed g h
  refine ⟨?_, ?_, ?_⟩
  · intro i hi
    have hi2 : i < g.nodes_.length := hi
    refine ⟨g.nodes_[i], ?_, ?_⟩
    · rw [node_eq_ok_iff]; exact List.getElem?_eq_getElem hi2
    · exact ((getElem?_of_ids g.nodes_ hg.ids i _).1 (List.getElem?_eq_getElem hi2)).2
  · intro pid symbol hfresh
    have hnone := find_none_of_fresh g hg pid hfresh
    have hp := nodes_prefix_add_node_internal g pid symbol
    simp only [get_or_add_node, add_node, hnone, PpiGraph.num_nodes, hp.1, hp.2,
      List.length_append, List.length_singleton, and_self]
  · intro i nd hnd
    rw [node_eq_ok_iff] at hnd
    have hi : i < g.nodes_.length := by
      by_contra hc
      have : g.nodes_[i]? = none := by
        rw [List.getElem?_eq_none_iff]; exact Nat.le_of_not_lt hc
      rw [this] at hnd; cases hnd
    have hint : ∀ pid symbol, node (add_node_internal g pid symbol).2 i = .ok nd := by
      intro pid symbol
      rw [node_eq_ok_iff, (nodes_prefix_add_node_internal g pid symbol).1,
        List.getElem?_append_left hi]
      exact hnd
    refine ⟨fun pid symbol => ⟨?_, ?_⟩, fun u v w => ?_⟩
    · unfold add_node
      cases index_find g.protein_index_ pid with
      | some id => exact (node_eq_ok_iff g i nd).2 hnd
      | none => exact hint pid symbol
    · unfold get_or_add_node
      cases index_find g.protein_index_ pid with
      | some id => exact (node_eq_ok_iff g i nd).2 hnd
      | none => exact hint pid symbol
    · rw [node_eq_ok_iff, nodes_add_edge]; exact hnd

theorem node_ids_dense_stable_witness :
    Reachable sample_graph ∧ ∃ nd, node sample_graph 1 = .ok nd ∧ nd.id = 1 :=
  ⟨sample_graph_reachable,
    (node_ids_dense_stable sample_graph sample_graph_reachable).1 1 (by decide)⟩

/-- C8: protein ids are unique and `find_node` is their exact inverse. In every
reachable graph two nodes with the same protein id are the same node, `find_node p`
returns `i` exactly when node `i` exists and has protein id `p`, and it returns
"not found" when no node has protein id `p` (it has no failure path). -/
theorem find_node_inverse (g : PpiGraph) (h : Reachable g) :
    (∀ i j ni nj, node g i = .ok ni → node g j = .ok nj →
      ni.protein_id = nj.protein_id → i = j) ∧
    (∀ pid i, find_node g pid = some i ↔ ∃ nd, node g i = .ok nd ∧ nd.protein_id = pid) ∧
    (∀ pid, (∀ nd ∈ g.nodes_, nd.protein_id ≠ pid) → find_node g pid = none) := by
  have hg := reachable_wellFormed g h
  have hfind : ∀ pid i, find_node g pid = some i ↔
      ∃ nd, node g i = .ok nd ∧ nd.protein_id = pid := by
    intro pid i
    unfold find_node
    rw [hg.index, index_find_some_iff g.nodes_ hg.ids hg.unique]
    constructor
    · rintro ⟨nd, h1, h2⟩; exact ⟨nd, (node_eq_ok_iff g i nd).2 h1, h2⟩
    · rintro ⟨nd, h1, h2⟩; exact ⟨nd, (node_eq_ok_iff g i nd).1 h1, h2⟩
  refine ⟨?_, hfind, ?_⟩
  · intro i j ni nj hi hj hp
    have h1 := (hfind ni.protein_id i).2 ⟨ni, hi, rfl⟩
    have h2 := (hfind ni.protein_id j).2 ⟨nj, hj, hp.symm⟩
    rw [h1] at h2
    exact Option.some.inj h2
  · intro pid hfresh
    exact find_none_of_fresh g hg pid hfresh

theorem find_node_inverse_witness :
    Reachable sample_graph ∧
    (find_node sample_graph "B" = some 1 ↔
      ∃ nd, node sample_graph 1 = .ok nd ∧ nd.protein_id = "B") :=
  ⟨sample_graph_reachable,
    (find_node_inverse sample_graph sample_graph_reachable).2.1 "B" 1⟩

/-! ## Degree centrality -/

theorem foldlM_set_neighbor_count (g : PpiGraph) (hlen : g.adj_.length = g.nodes_.length)
    (k : Nat) (hk : k ≤ g.nodes_.length) :
    (List.range k).foldlM (set_neighbor_count g) (List.replicate g.nodes_.length (0 : ℚ))
      = .ok ((List.range g.nodes_.length).map
          (fun i => if i < k then (((g.adj_.getD i []).length : Nat) : ℚ) else 0)) := by
  induction k with
  | zero =>
    simp only [List.range_zero, List.foldlM_nil, Nat.not_lt_zero, if_false]
    congr 1
    apply List.ext_getElem?
    intro i
    by_cases hi : i < g.nodes_.length
    · simp [List.getElem?_replicate, hi, List.getElem?_range hi]
    · simp [List.getElem?_replicate, hi]
  | succ k ih =>
    have hk2 : k < g.adj_.length := by omega
    rw [List.range_succ, List.foldlM_append, ih (by omega)]
    have hnb : neighbors g k = .ok (g.adj_.getD k []) := by
      rw [neighbors_eq_ok_iff, List.getD_eq_getElem?_getD, List.getElem?_eq_getElem hk2]
      rfl
    have hk3 : k < g.nodes_.length := by omega
    simp only [List.foldlM_cons, List.foldlM_nil, set_neighbor_count, hnb, List.length_map,
      List.length_range, hk3, if_true, bind, Except.bind, pure, Except.pure]
    congr 1
    apply List.ext_getElem?
    intro i
    rw [List.getElem?_set]
    by_cases hi : i < g.nodes_.length
    · by_cases hik : k = i
      · subst hik
        simp [List.getElem?_range hi, hi]
      · have : i < k + 1 ↔ i < k := by omega
        simp [hik, List.getElem?_range hi, this]
    · have hki : ¬ k = i := by omega
      have hnone : (List.range g.nodes_.length)[i]? = none := by
        rw [List.getElem?_eq_none_iff, List.length_range]; omega
      simp [hki, hnone]

/-- Values of the rounding `rn`: one tenth and two tenths round to the binary64
values `0x1.999999999999ap-4` and `0x1.999999999999ap-3`; binary64 values are left as
they are; a tie goes to the even neighbour; below `2^-1022` the grid spacing stays
`2^-1074`. -/
theorem rn_values :
    rn (1 / 10) = 3602879701896397 / 2 ^ 55 ∧
    rn (2 / 10) = 3602879701896397 / 2 ^ 54 ∧
    rn (5 / 2) = 5 / 2 ∧ rn 13 = 13 ∧ rn (-3 / 4) = -3 / 4 ∧ rn 0 = 0 ∧
    rn (rn (1 / 10)) = rn (1 / 10) ∧
    rn (2 ^ 53 + 1) = 2 ^ 53 ∧ rn (2 ^ 53 + 3) = 2 ^ 53 + 4 ∧
    rn (-(2 ^ 53 + 1)) = -(2 ^ 53) ∧
    rn (3 / 2 ^ 1075) = 1 / 2 ^ 1073 ∧ rn (1 / 2 ^ 1075) = 0 ∧
    fadd (rn (1 / 10)) (rn (2 / 10)) = 5404319552844596 / 2 ^ 54 ∧
    fdiv 15 9 = 7505999378950827 / 2 ^ 52 ∧ fdiv 6 9 = 6004799503160661 / 2 ^ 53 := by
  decide!

theorem foldlM_add_edge_weight (n : Nat) (es : List Edge)
    (hes : ∀ e ∈ es, e.u < n ∧ e.v < n) (d : List ℚ) (hd : d.length = n) :
    es.foldlM add_edge_weight d
      = .ok ((List.range n).map
          (fun i => (incident_weights es i).foldl fadd (d.getD i 0))) := by
  induction es generalizing d with
  | nil =>
    simp only [List.foldlM_nil, incident_weights, List.foldl_nil, pure, Except.pure]
    congr 1
    apply List.ext_getElem?
    intro i
    by_cases hi : i < n
    · have hi2 : i < d.length := by omega
      simp [List.getElem?_range hi, List.getD_eq_getElem?_getD, List.getElem?_eq_getElem hi2]
    · have hi2 : d.length ≤ i := by omega
      have hnone : (List.range n)[i]? = none := by
        rw [List.getElem?_eq_none_iff, List.length_range]; omega
      simp [hnone, List.getElem?_eq_none hi2]
  | cons e rest ih =>
    have he := hes e (List.mem_cons_self _ _)
    have hu : e.u < d.length := by omega
    have hv : e.v < d.length := by omega
    have hstep : add_edge_weight d e =
        .ok ((d.modify (fun x => fadd x e.weight) e.u).modify
          (fun x => fadd x e.weight) e.v) := by
      simp [add_edge_weight, hu, hv]
    simp only [List.foldlM_cons, hstep, bind, Except.bind]
    rw [ih (fun x hx => hes x (List.mem_cons_of_mem _ hx)) _ (by simp [hd])]
    congr 1
    apply List.map_congr_left
    intro i hi
    have hi2 : i < d.length := by have := List.mem_range.1 hi; omega
    simp only [List.getD_eq_getElem?_getD, List.getElem?_modify, List.getElem?_eq_getElem hi2,
      incident_weights, List.foldl_append]
    by_cases h1 : e.u = i <;> by_cases h2 : e.v = i <;> simp [h1, h2]

/-- C9: for every reachable graph `degree_centrality(g, false)` returns (so no
`neighbors()` call inside it throws) a vector of length `num_nodes` whose `i`-th
entry is the length of `neighbors(i)`; for the unit-weight chain A-B-C-D the result
is A:1, B:2, C:2, D:1. -/
theorem degree_centrality_unweighted :
    (∀ g, Reachable g →
      ∃ degrees, degree_centrality g false = .ok degrees ∧
        degrees.length = g.num_nodes ∧
        ∀ i, i < g.num_nodes →
          ∃ row, neighbors g i = .ok row ∧ degrees[i]? = some ((row.length : Nat) : ℚ)) ∧
    degree_centrality chain_graph false = .ok [1, 2, 2, 1] := by
  refine ⟨?_, by rfl⟩
  intro g h
  have hg := reachable_wellFormed g h
  refine ⟨(List.range g.nodes_.length).map
    (fun i => if i < g.nodes_.length then (((g.adj_.getD i []).length : Nat) : ℚ) else 0),
    ?_, ?_, ?_⟩
  · simp only [degree_centrality, PpiGraph.num_nodes, Bool.false_eq_true, if_false]
    exact foldlM_set_neighbor_count g hg.adj_length g.nodes_.length (le_refl _)
  · simp [PpiGraph.num_nodes]
  · intro i hi
    have hi2 : i < g.nodes_.length := hi
    have hi3 : i < g.adj_.length := by rw [hg.adj_length]; exact hi2
    refine ⟨g.adj_[i], ?_, ?_⟩
    · rw [neighbors_eq_ok_iff]; exact List.getElem?_eq_getElem hi3
    · simp [List.getElem?_range hi2, hi2, List.getD_eq_getElem?_getD,
        List.getElem?_eq_getElem hi3]

theorem degree_centrality_unweighted_witness :
    Reachable sample_graph ∧
    ∃ degrees, degree_centrality sample_graph false = .ok degrees ∧
      degrees.length = sample_graph.num_nodes ∧
      ∀ i, i < sample_graph.num_nodes →
        ∃ row, neighbors sample_graph i = .ok row ∧
          degrees[i]? = some ((row.length : Nat) : ℚ) :=
  ⟨sample_graph_reachable,
    degree_centrality_unweighted.1 sample_graph sample_graph_reachable⟩

theorem sum_incident_weights (es : List Edge) (i : Nat) :
    (incident_weights es i).sum = incident_weight es i := by
  induction es with
  | nil => simp [incident_weights, incident_weight]
  | cons e rest ih =>
    simp only [incident_weight, List.map_cons, List.sum_cons] at ih ⊢
    simp only [incident_weights, List.sum_append, ih]
    by_cases h1 : e.u = i <;> by_cases h2 : e.v = i <;> simp [h1, h2]

theorem foldl_fadd_exact (ws : List ℚ)
    (h : ∀ k, k ≤ ws.length → rn ((ws.take k).sum) = (ws.take k).sum) :
    ws.foldl fadd 0 = ws.sum := by
  induction ws using List.reverseRecOn with
  | nil => rfl
  | append_singleton l w ih =>
    have hl : l.foldl fadd 0 = l.sum := by
      apply ih
      intro k hk
      have := h k (by rw [List.length_append]; omega)
      rwa [List.take_append_of_le_length hk] at this
    have hall := h (l ++ [w]).length (le_refl _)
    rw [List.take_length] at hall
    rw [List.foldl_append, hl]
    simp only [List.foldl_cons, List.foldl_nil, fadd]
    rw [List.sum_append, List.sum_singleton] at hall ⊢
    exact hall

/-- C10 (amended): for every reachable graph `degree_centrality(g, true)` returns (so
every access by an edge endpoint is in range) a vector of length `num_nodes` whose
`i`-th entry is the binary64 running sum, started at `0` and taken in edge order with
every addition rounded to nearest, of the edge weight counted once per endpoint equal
to `i` (an edge adds its weight to both ends, a self-loop adds it twice). These
weights add up to the exact sum of the claim, and the entry is that exact sum whenever
every partial sum is a binary64 value; for the edges A-B 0.5, B-C 1.5, C-A 2.0 the
result is A:2.5, B:2.0, C:3.5. -/
theorem degree_centrality_weighted :
    (∀ g, Reachable g →
      degree_centrality g true
        = .ok ((List.range g.num_nodes).map
            (fun i => (incident_weights g.edges_ i).foldl fadd 0))) ∧
    (∀ u v w i, incident_weights [Edge.mk u v w] i =
      (if u = i then [w] else []) ++ (if v = i then [w] else [])) ∧
    (∀ u w, incident_weights [Edge.mk u u w] u = [w, w]) ∧
    (∀ es i, (incident_weights es i).sum = incident_weight es i) ∧
    (∀ ws : List ℚ, (∀ k, k ≤ ws.length → rn ((ws.take k).sum) = (ws.take k).sum) →
      ws.foldl fadd 0 = ws.sum) ∧
    degree_centrality weighted_triangle true = .ok [5 / 2, 2, 7 / 2] := by
  refine ⟨?_, ?_, ?_, sum_incident_weights, foldl_fadd_exact, by decide!⟩
  · intro g h
    have hg := reachable_wellFormed g h
    simp only [degree_centrality, PpiGraph.num_nodes, if_true]
    rw [foldlM_add_edge_weight g.nodes_.length g.edges_ hg.endpoints _ (by simp)]
    congr 1
    apply List.map_congr_left
    intro i hi
    have hi2 := List.mem_range.1 hi
    simp [List.getD_eq_getElem?_getD, List.getElem?_replicate, hi2]
  · intro u v w i
    simp [incident_weights]
  · intro u w
    simp [incident_weights]

theorem degree_centrality_weighted_witness :
    Reachable sample_graph ∧
    degree_centrality sample_graph true
      = .ok ((List.range sample_graph.num_nodes).map
          (fun i => (incident_weights sample_graph.edges_ i).foldl fadd 0)) ∧
    degree_centrality sample_graph true = .ok [9 / 2, 5 / 2] :=
  ⟨sample_graph_reachable,
    degree_centrality_weighted.1 sample_graph sample_graph_reachable, by decide!⟩

/-- C10 as stated fails: with the edges A-B of weight `0.1` and A-C of weight `0.2`
(the binary64 values nearest to those decimals) the entry of A is the rounded sum
`0x1.3333333333334p-2`, while the sum of the two weights is
`10808639105689191 / 2^55`, which is not a binary64 value. -/
theorem degree_centrality_weighted_counterexample :
    degree_centrality tenths_graph true
      = .ok [5404319552844596 / 2 ^ 54, 3602879701896397 / 2 ^ 55,
          3602879701896397 / 2 ^ 54] ∧
    (List.range tenths_graph.num_nodes).map (incident_weight tenths_graph.edges_)
      = [10808639105689191 / 2 ^ 55, 3602879701896397 / 2 ^ 55,
          3602879701896397 / 2 ^ 54] ∧
    degree_centrality tenths_graph true
      ≠ .ok ((List.range tenths_graph.num_nodes).map
          (incident_weight tenths_graph.edges_)) := by
  decide!

/-! ## Community detection: the result is a partition -/

theorem foldlM_invariant {α β : Type} (f : β → α → Except GraphError β) (P : β → Prop)
    (l : List α) (hstep : ∀ b a b2, a ∈ l → P b → f b a = .ok b2 → P b2) (b b2 : β)
    (hb : P b) (h : l.foldlM f b = .ok b2) : P b2 := by
  induction l generalizing b with
  | nil =>
    simp only [List.foldlM_nil, pure, Except.pure] at h
    cases h; exact hb
  | cons a rest ih =>
    simp only [List.foldlM_cons, bind, Except.bind] at h
    cases hf : f b a with
    | error e => rw [hf] at h; cases h
    | ok b1 =>
      rw [hf] at h
      exact ih (fun x y z hy => hstep x y z (List.mem_cons_of_mem _ hy)) b1
        (hstep b a b1 (List.mem_cons_self _ _) hb hf) h

theorem omap_push_flatten (mp : List (Nat × List Nat)) (k i : Nat) :
    ((omap_update ([] : List Nat) (fun grp => grp ++ [i]) mp k).map Prod.snd).flatten.Perm
      ((mp.map Prod.snd).flatten ++ [i]) := by
  induction mp with
  | nil => simp [omap_update]
  | cons kb rest ih =>
    obtain ⟨k1, b⟩ := kb
    simp only [omap_update]
    split_ifs with h1 h2
    · simp only [List.map_cons, List.flatten_cons, List.nil_append]
      exact @List.perm_append_comm _ [i] _
    · simp only [List.map_cons, List.flatten_cons, List.append_assoc]
      exact List.Perm.append_left b (@List.perm_append_comm _ [i] _)
    · simp only [List.map_cons, List.flatten_cons, List.append_assoc]
      exact List.Perm.append_left b ih

theorem omap_push_nonempty (mp : List (Nat × List Nat)) (k i : Nat)
    (h : ∀ grp ∈ mp.map Prod.snd, grp ≠ []) :
    ∀ grp ∈ (omap_update ([] : List Nat) (fun grp => grp ++ [i]) mp k).map Prod.snd,
      grp ≠ [] := by
  induction mp with
  | nil => simp [omap_update]
  | cons kb rest ih =>
    obtain ⟨k1, b⟩ := kb
    have hb : b ≠ [] := h b (by simp)
    have hrest : ∀ grp ∈ rest.map Prod.snd, grp ≠ [] :=
      fun grp hgrp => h grp (by simp only [List.map_cons, List.mem_cons]; exact Or.inr hgrp)
    simp only [omap_update]
    split_ifs with h1 h2
    · intro grp hgrp
      simp only [List.map_cons, List.mem_cons] at hgrp
      rcases hgrp with e | e | e
      · simp [e]
      · rw [e]; exact hb
      · exact hrest grp e
    · intro grp hgrp
      simp only [List.map_cons, List.mem_cons] at hgrp
      rcases hgrp with e | e
      · simp [e]
      · exact hrest grp e
    · intro grp hgrp
      simp only [List.map_cons, List.mem_cons] at hgrp
      rcases hgrp with e | e
      · rw [e]; exact hb
      · exact ih hrest grp e

theorem group_fold_partition (cis : List (Nat × Nat)) (mp : List (Nat × List Nat))
    (h : ∀ grp ∈ mp.map Prod.snd, grp ≠ []) :
    ((cis.foldl (fun mp ci => omap_update ([] : List Nat) (fun grp => grp ++ [ci.2]) mp ci.1)
        mp).map Prod.snd).flatten.Perm ((mp.map Prod.snd).flatten ++ cis.map Prod.snd) ∧
    ∀ grp ∈ (cis.foldl
        (fun mp ci => omap_update ([] : List Nat) (fun grp => grp ++ [ci.2]) mp ci.1)
        mp).map Prod.snd, grp ≠ [] := by
  induction cis generalizing mp with
  | nil => simpa using h
  | cons ci rest ih =>
    simp only [List.foldl_cons, List.map_cons]
    have h1 := ih (omap_update ([] : List Nat) (fun grp => grp ++ [ci.2]) mp ci.1)
      (omap_push_nonempty mp ci.1 ci.2 h)
    refine ⟨h1.1.trans ?_, h1.2⟩
    have h2 := (omap_push_flatten mp ci.1 ci.2).append_right (rest.map Prod.snd)
    simpa [List.append_assoc] using h2

theorem group_by_community_partition (communities : List Nat) :
    (group_by_community communities).flatten.Perm (List.range communities.length) ∧
    ∀ grp ∈ group_by_community communities, grp ≠ [] := by
  have h := group_fold_partition (communities.zip (List.range communities.length)) []
    (by simp)
  rw [List.map_snd_zip _ _ (by simp)] at h
  simpa [group_by_community] using h

theorem visit_node_length (g : PpiGraph) (node_degrees : List ℚ) (m : ℚ)
    (st st2 : List Nat × Bool) (u : Nat)
    (h : visit_node g node_degrees m st u = .ok st2) : st2.1.length = st.1.length := by
  unfold visit_node at h
  split at h
  · cases h
  · split at h
    · cases h
    · split at h
      · cases h
      · split at h
        · cases h
        · simp only at h
          split_ifs at h
          · cases h; simp
          · cases h; rfl

theorem louvain_loop_length (g : PpiGraph) (node_degrees : List ℚ) (m : ℚ)
    (orders : Nat → List Nat) (fuel pass : Nat) (communities result : List Nat)
    (h : louvain_loop g node_degrees m orders fuel pass communities = some (.ok result)) :
    result.length = communities.length := by
  induction fuel generalizing pass communities with
  | zero => simp [louvain_loop] at h
  | succ fuel ih =>
    simp only [louvain_loop] at h
    cases hp : run_pass g node_degrees m (orders pass) communities with
    | error e => rw [hp] at h; simp at h
    | ok st =>
      obtain ⟨c1, imp⟩ := st
      rw [hp] at h
      have hlen : c1.length = communities.length :=
        foldlM_invariant (visit_node g node_degrees m)
          (fun st => st.1.length = communities.length) (orders pass)
          (fun b a b2 _ hb hf => (visit_node_length g node_degrees m b b2 a hf).trans hb)
          (communities, false) (c1, imp) rfl hp
      simp only at h
      split_ifs at h
      · exact (ih _ _ h).trans hlen
      · simp only [Option.some.injEq, Except.ok.injEq] at h
        rw [← h]; exact hlen

theorem count_range (n i : Nat) : (List.range n).count i = if i < n then 1 else 0 := by
  split_ifs with h
  · exact List.count_eq_one_of_mem (List.nodup_range n) (List.mem_range.2 h)
  · exact List.count_eq_zero_of_not_mem (fun hm => h (List.mem_range.1 hm))

/-- C1: whenever `louvain_community` returns (on any graph, in either mode, for any
sequence of per-pass visitation orders), the result is a partition of the node ids:
every group is non-empty, the concatenation of the groups is a rearrangement of
`0 .. num_nodes-1` (each node id occurs exactly once over all groups, hence in
exactly one group, and no other id occurs), and the empty graph yields the empty
list. -/
theorem louvain_partition (g : PpiGraph) (use_weights : Bool) (orders : Nat → List Nat)
    (fuel : Nat) (result : List (List Nat))
    (h : louvain_community g use_weights orders fuel = some (.ok result)) :
    (∀ grp ∈ result, grp ≠ []) ∧
    result.flatten.Perm (List.range g.num_nodes) ∧
    (∀ i, result.flatten.count i = if i < g.num_nodes then 1 else 0) ∧
    (g.num_nodes = 0 → result = []) := by
  have main : (∀ grp ∈ result, grp ≠ []) ∧ result.flatten.Perm (List.range g.num_nodes) ∧
      (g.num_nodes = 0 → result = []) := by
    unfold louvain_community at h
    split_ifs at h with h0
    · simp only [Option.some.injEq, Except.ok.injEq] at h
      subst h
      simp [h0]
    · refine ⟨?_, ?_, fun hn => absurd hn h0⟩ <;>
      · split at h
        · simp at h
        · simp only at h
          split_ifs at h with hm
          · simp only [Option.some.injEq, Except.ok.injEq] at h
            subst h
            first
              | (intro grp hgrp
                 obtain ⟨i, _, rfl⟩ := List.mem_map.1 hgrp
                 simp)
              | (have hsingle : ∀ l : List Nat, (l.map (fun i => [i])).flatten = l := by
                   intro l
                   induction l with
                   | nil => rfl
                   | cons a t iht => simp [iht]
                 rw [hsingle])
          · split at h
            · simp at h
            · simp at h
            · rename_i communities hloop
              simp only [Option.some.injEq, Except.ok.injEq] at h
              subst h
              have hlen := louvain_loop_length _ _ _ _ _ _ _ _ hloop
              rw [List.length_range] at hlen
              have hp := group_by_community_partition communities
              rw [hlen] at hp
              first
                | exact hp.2
                | exact hp.1
  refine ⟨main.1, main.2.1, ?_, main.2.2⟩
  intro i
  rw [main.2.1.count_eq, count_range]

theorem louvain_partition_witness :
    louvain_community chain_graph false (fun _ => [0, 1, 2, 3]) 3
      = some (.ok [[0, 1], [2, 3]]) ∧
    ([[0, 1], [2, 3]] : List (List Nat)).flatten.Perm (List.range chain_graph.num_nodes) :=
  ⟨by decide!,
    (louvain_partition chain_graph false (fun _ => [0, 1, 2, 3]) 3 [[0, 1], [2, 3]]
      (by decide!)).2.1⟩

/-! ## Community detection: what one node visit computes -/

theorem mem_oset_insert (s : List Nat) (k x : Nat) :
    x ∈ oset_insert s k ↔ x = k ∨ x ∈ s := by
  induction s with
  | nil => simp [oset_insert]
  | cons a rest ih =>
    simp only [oset_insert]
    split_ifs with h1 h2
    · simp
    · subst h2; simp
    · simp only [List.mem_cons, ih]
      tauto

theorem mem_oset_fold (labels acc : List Nat) (x : Nat) :
    x ∈ labels.foldl oset_insert acc ↔ x ∈ acc ∨ x ∈ labels := by
  induction labels generalizing acc with
  | nil => simp
  | cons a rest ih =>
    simp only [List.foldl_cons, ih, mem_oset_insert, List.mem_cons]
    tauto

theorem k_i_in_eq_count (labels : List Nat) (t : Nat) :
    k_i_in labels t = (labels.count t : ℚ) := by
  have key : ∀ (acc : ℚ), labels.foldl (fun acc c => if c = t then acc + 1 else acc) acc
      = acc + (labels.count t : ℚ) := by
    induction labels with
    | nil => intro acc; simp
    | cons a rest ih =>
      intro acc
      simp only [List.foldl_cons, ih, List.count_cons]
      by_cases h : a = t
      · simp [h]; ring
      · simp [h]
  simpa [k_i_in] using key 0

theorem omap_get_of_lt {β : Type} (dflt : β) (mp : List (Nat × β)) (k : Nat)
    (h : ∀ x ∈ mp.map Prod.fst, k < x) : omap_get dflt mp k = dflt := by
  induction mp with
  | nil => rfl
  | cons kb rest ih =>
    obtain ⟨k1, b⟩ := kb
    have h1 : k < k1 := h k1 (by simp)
    have h2 : ¬ k = k1 := by omega
    simp only [omap_get, h2, if_false]
    exact ih (fun x hx => h x (by simp only [List.map_cons, List.mem_cons]; exact Or.inr hx))

theorem omap_update_keys {β : Type} (dflt : β) (f : β → β) (mp : List (Nat × β)) (k x : Nat) :
    x ∈ (omap_update dflt f mp k).map Prod.fst ↔ x = k ∨ x ∈ mp.map Prod.fst := by
  induction mp with
  | nil => simp [omap_update]
  | cons kb rest ih =>
    obtain ⟨k1, b⟩ := kb
    simp only [omap_update]
    split_ifs with h1 h2
    · simp
    · subst h2; simp
    · simp only [List.map_cons, List.mem_cons, ih]
      tauto

theorem omap_update_sorted {β : Type} (dflt : β) (f : β → β) (mp : List (Nat × β)) (k : Nat)
    (h : KeysSorted mp) : KeysSorted (omap_update dflt f mp k) := by
  induction mp with
  | nil => simp [omap_update, KeysSorted]
  | cons kb rest ih =>
    obtain ⟨k1, b⟩ := kb
    unfold KeysSorted at h ih ⊢
    simp only [List.map_cons, List.pairwise_cons] at h
    simp only [omap_update]
    split_ifs with h1 h2
    · simp only [List.map_cons, List.pairwise_cons, List.mem_cons]
      refine ⟨?_, h.1, h.2⟩
      rintro x (e | e)
      · omega
      · have := h.1 x e; omega
    · simp only [List.map_cons, List.pairwise_cons]
      exact ⟨h.1, h.2⟩
    · simp only [List.map_cons, List.pairwise_cons]
      refine ⟨?_, ih h.2⟩
      intro x hx
      rcases (omap_update_keys dflt f rest k x).1 hx with e | e
      · omega
      · exact h.1 x e

theorem omap_get_update {β : Type} (dflt : β) (f : β → β) (mp : List (Nat × β)) (k t : Nat)
    (h : KeysSorted mp) :
    omap_get dflt (omap_update dflt f mp k) t =
      if t = k then f (omap_get dflt mp k) else omap_get dflt mp t := by
  induction mp with
  | nil =>
    by_cases e : t = k <;> simp [omap_update, omap_get, e]
  | cons kb rest ih =>
    obtain ⟨k1, b⟩ := kb
    unfold KeysSorted at h ih
    simp only [List.map_cons, List.pairwise_cons] at h
    simp only [omap_update]
    split_ifs with h1 h2 h3 h4 h5
    · subst h2
      have hk : omap_get dflt ((k1, b) :: rest) t = dflt := by
        apply omap_get_of_lt
        intro x hx
        simp only [List.map_cons, List.mem_cons] at hx
        rcases hx with e | e
        · omega
        · have := h.1 x e; omega
      rw [hk]
      simp [omap_get]
    · simp [omap_get, h2]
    · subst h4; subst h3
      simp [omap_get]
    · subst h3
      have : ¬ t = k := h4
      simp [omap_get, this]
    · subst h5
      have : ¬ t = k1 := h3
      simp only [omap_get, this, if_false]
      rw [ih h.2]; simp
    · by_cases e : t = k1
      · simp [omap_get, e]
      · simp only [omap_get, e, if_false]
        rw [ih h.2]; simp [h5]

theorem community_degrees_fold (cds : List (Nat × ℚ)) (mp : List (Nat × ℚ))
    (h : KeysSorted mp) (t : Nat) :
    omap_get 0 (cds.foldl (fun mp cd => omap_update (0 : ℚ) (fun x => x + cd.2) mp cd.1) mp) t
      = omap_get 0 mp t + (cds.map (fun cd => if cd.1 = t then cd.2 else 0)).sum := by
  induction cds generalizing mp with
  | nil => simp
  | cons cd rest ih =>
    simp only [List.foldl_cons, List.map_cons, List.sum_cons]
    rw [ih _ (omap_update_sorted _ _ _ _ h), omap_get_update _ _ _ _ _ h]
    by_cases e : t = cd.1
    · have e2 : cd.1 = t := e.symm
      simp only [e2, if_true]; ring
    · have e2 : ¬ cd.1 = t := fun x => e x.symm
      simp only [e, e2, if_false]; ring

theorem community_degrees_get (communities : List Nat) (node_degrees : List ℚ) (t : Nat) :
    omap_get 0 (community_degrees communities node_degrees) t
      = sigma_tot communities node_degrees t := by
  unfold community_degrees sigma_tot
  rw [community_degrees_fold _ [] (by simp [KeysSorted])]
  simp [omap_get]

theorem gain_eq (labels communities : List Nat) (node_degrees : List ℚ) (k_i m : ℚ)
    (t : Nat) :
    gain labels (community_degrees communities node_degrees) k_i m t
      = (labels.count t : ℚ) - (sigma_tot communities node_degrees t * k_i) / (2 * m) := by
  simp [gain, k_i_in_eq_count, community_degrees_get]

theorem consider_fold_spec (labels : List Nat) (cdm : List (Nat × ℚ)) (k_i m : ℚ)
    (original : Nat) (cands : List Nat) (best : Nat × ℚ) :
    (cands.foldl (consider_target labels cdm k_i m original) best = best ∨
      ((cands.foldl (consider_target labels cdm k_i m original) best).1 ∈ cands ∧
        (cands.foldl (consider_target labels cdm k_i m original) best).1 ≠ original ∧
        (cands.foldl (consider_target labels cdm k_i m original) best).2 =
          gain labels cdm k_i m
            (cands.foldl (consider_target labels cdm k_i m original) best).1 ∧
        best.2 < (cands.foldl (consider_target labels cdm k_i m original) best).2)) ∧
    best.2 ≤ (cands.foldl (consider_target labels cdm k_i m original) best).2 ∧
    ∀ t ∈ cands, t ≠ original →
      gain labels cdm k_i m t ≤
        (cands.foldl (consider_target labels cdm k_i m original) best).2 := by
  induction cands generalizing best with
  | nil => simp
  | cons a rest ih =>
    simp only [List.foldl_cons]
    obtain ⟨ih1, ih2, ih3⟩ := ih (consider_target labels cdm k_i m original best a)
    have hstep : (consider_target labels cdm k_i m original best a = best ∧
          (a ≠ original → gain labels cdm k_i m a ≤ best.2)) ∨
        (a ≠ original ∧ best.2 < gain labels cdm k_i m a ∧
          consider_target labels cdm k_i m original best a
            = (a, gain labels cdm k_i m a)) := by
      unfold consider_target
      split_ifs with h1 h2
      · exact Or.inl ⟨rfl, fun hne => absurd h1 hne⟩
      · exact Or.inr ⟨h1, h2, rfl⟩
      · exact Or.inl ⟨rfl, fun _ => not_lt.1 h2⟩
    rcases hstep with ⟨he, hle⟩ | ⟨hne, hlt, he⟩
    · rw [he] at ih1 ih2 ih3 ⊢
      refine ⟨?_, ih2, ?_⟩
      · rcases ih1 with h | ⟨h1, h2, h3, h4⟩
        · exact Or.inl h
        · exact Or.inr ⟨List.mem_cons_of_mem _ h1, h2, h3, h4⟩
      · intro t ht hto
        simp only [List.mem_cons] at ht
        rcases ht with e | e
        · subst e; exact le_trans (hle hto) ih2
        · exact ih3 t e hto
    · rw [he] at ih1 ih2 ih3 ⊢
      simp only at ih1 ih2
      refine ⟨Or.inr ?_, le_of_lt (lt_of_lt_of_le hlt ih2), ?_⟩
      · rcases ih1 with h | ⟨h1, h2, h3, h4⟩
        · rw [h]
          exact ⟨List.mem_cons_self _ _, hne, rfl, hlt⟩
        · exact ⟨List.mem_cons_of_mem _ h1, h2, h3, lt_trans hlt h4⟩
      · intro t ht hto
        simp only [List.mem_cons] at ht
        rcases ht with e | e
        · subst e; exact ih2
        · exact ih3 t e hto

/-- What one node visit does: either no neighbouring community other than the own
one has a positive gain and the state is unchanged, or the node moves to a
neighbouring community whose gain is positive and the pass is marked as improving. -/
theorem visit_node_spec (g : PpiGraph) (node_degrees : List ℚ) (m : ℚ)
    (cs : List Nat) (b : Bool) (u original : Nat) (row labels : List Nat) (k_i : ℚ)
    (hc : cs[u]? = some original) (hrow : neighbors g u = .ok row)
    (hl : neighbor_labels cs row = .ok labels) (hk : node_degrees[u]? = some k_i) :
    (visit_node g node_degrees m (cs, b) u = .ok (cs, b) ∧
      ∀ t ∈ labels, t ≠ original →
        (labels.count t : ℚ) - (sigma_tot cs node_degrees t * k_i) / (2 * m) ≤ 0) ∨
    (∃ t ∈ labels, t ≠ original ∧
      0 < (labels.count t : ℚ) - (sigma_tot cs node_degrees t * k_i) / (2 * m) ∧
      visit_node g node_degrees m (cs, b) u = .ok (cs.set u t, true)) := by
  obtain ⟨h1, h2, h3⟩ := consider_fold_spec labels (community_degrees cs node_degrees) k_i m
    original (labels.foldl oset_insert []) (original, 0)
  simp only [visit_node, hc, hrow, hl, hk]
  rcases h1 with h | ⟨ha, hb, hc2, hd⟩
  · left
    rw [h]
    refine ⟨by simp, ?_⟩
    intro t ht hto
    have := h3 t ((mem_oset_fold labels [] t).2 (Or.inr ht)) hto
    rw [h, gain_eq] at this
    exact this
  · right
    refine ⟨_, ?_, hb, ?_, ?_⟩
    · rcases (mem_oset_fold labels [] _).1 ha with h | h
      · simp at h
      · exact h
    · rw [← gain_eq, ← hc2]; exact hd
    · simp [hb]

/-! ## Community detection: passes without a move -/

theorem visit_node_flag (g : PpiGraph) (node_degrees : List ℚ) (m : ℚ)
    (st st2 : List Nat × Bool) (u : Nat)
    (h : visit_node g node_degrees m st u = .ok st2) : st2 = st ∨ st2.2 = true := by
  unfold visit_node at h
  split at h
  · cases h
  · split at h
    · cases h
    · split at h
      · cases h
      · split at h
        · cases h
        · simp only at h
          split_ifs at h
          · cases h; exact Or.inr rfl
          · cases h; exact Or.inl rfl

theorem run_pass_flag_true (g : PpiGraph) (node_degrees : List ℚ) (m : ℚ)
    (order : List Nat) (st st2 : List Nat × Bool) (hst : st.2 = true)
    (h : order.foldlM (visit_node g node_degrees m) st = .ok st2) : st2.2 = true :=
  foldlM_invariant (visit_node g node_degrees m) (fun x => x.2 = true) order
    (fun x a y _ hx hf => by
      rcases visit_node_flag g node_degrees m x y a hf with e | e
      · rw [e]; exact hx
      · exact e) st st2 hst h

/-- A pass that ends with `improvement == false` has left the labels as they were,
and every visit of the pass was a visit of that unchanged state without a move. -/
theorem run_pass_no_improvement (g : PpiGraph) (node_degrees : List ℚ) (m : ℚ)
    (order : List Nat) (cs cs1 : List Nat)
    (h : run_pass g node_degrees m order cs = .ok (cs1, false)) :
    cs1 = cs ∧ ∀ u ∈ order, visit_node g node_degrees m (cs, false) u = .ok (cs, false) := by
  unfold run_pass at h
  induction order with
  | nil =>
    simp only [List.foldlM_nil, pure, Except.pure, Except.ok.injEq, Prod.mk.injEq,
      and_true] at h
    exact ⟨h.symm, by simp⟩
  | cons a rest ih =>
    simp only [List.foldlM_cons, bind, Except.bind] at h
    cases hf : visit_node g node_degrees m (cs, false) a with
    | error e => rw [hf] at h; cases h
    | ok st1 =>
      rw [hf] at h
      simp only at h
      rcases visit_node_flag g node_degrees m _ _ a hf with e | e
      · rw [e] at h
        obtain ⟨h1, h2⟩ := ih h
        refine ⟨h1, ?_⟩
        intro u hu
        simp only [List.mem_cons] at hu
        rcases hu with hu | hu
        · rw [hu, hf, e]
        · exact h2 u hu
      · have := run_pass_flag_true g node_degrees m rest st1 (cs1, false) e h
        simp at this

/-! ## Community detection on the two-clique graph -/

theorem two_cliques_adj : two_cliques.adj_ =
    [[1, 2, 3, 4], [0, 2, 3], [0, 1, 3], [0, 1, 2], [5, 6, 7, 0], [4, 6, 7], [4, 5, 7],
      [4, 5, 6]] := by decide

theorem two_cliques_neighbors (u : Nat) (row : List Nat)
    (h : ([[1, 2, 3, 4], [0, 2, 3], [0, 1, 3], [0, 1, 2], [5, 6, 7, 0], [4, 6, 7],
      [4, 5, 7], [4, 5, 6]] : List (List Nat))[u]? = some row) :
    neighbors two_cliques u = .ok row := by
  rw [neighbors_eq_ok_iff, two_cliques_adj]; exact h

theorem two_cliques_visit (cs : List Nat) (h : CliqueLabels cs) (b : Bool) (u : Nat)
    (hu : u < 8) :
    ∃ st2, visit_node two_cliques [4, 3, 3, 3, 4, 3, 3, 3] (13 / 2) (cs, b) u = .ok st2 ∧
      CliqueLabels st2.1 := by
  obtain ⟨c0, c1, c2, c3, c4, c5, c6, c7, rfl, h0, h1, h2, h3, h4, h5, h6, h7⟩ := h
  have e04 : ¬ c0 = c4 := by omega
  have e14 : ¬ c1 = c4 := by omega
  have e24 : ¬ c2 = c4 := by omega
  have e34 : ¬ c3 = c4 := by omega
  have e40 : ¬ c4 = c0 := by omega
  have e50 : ¬ c5 = c0 := by omega
  have e60 : ¬ c6 = c0 := by omega
  have e70 : ¬ c7 = c0 := by omega
  interval_cases u
  · rcases visit_node_spec two_cliques [4, 3, 3, 3, 4, 3, 3, 3] (13 / 2)
      [c0, c1, c2, c3, c4, c5, c6, c7] b 0 c0 [1, 2, 3, 4] [c1, c2, c3, c4] 4 rfl
      (two_cliques_neighbors _ _ rfl) rfl rfl with ⟨hv, _⟩ | ⟨t, ht, hne, hpos, hv⟩
    · exact ⟨_, hv, c0, c1, c2, c3, c4, c5, c6, c7, rfl, h0, h1, h2, h3, h4, h5, h6, h7⟩
    · refine ⟨_, hv, ?_⟩
      simp only [List.mem_cons, List.mem_singleton, List.not_mem_nil, or_false] at ht
      rcases ht with e | e | e | e <;> subst e <;>
      first
        | exact ⟨_, _, _, _, _, _, _, _, rfl, by omega, by omega, by omega, by omega,
            by omega, by omega, by omega, by omega⟩
        | (exfalso
           simp [sigma_tot, List.count_cons, e04, e14, e24, e34, e40, e50, e60, e70] at hpos
           split_ifs at hpos <;> norm_num at hpos)
  · rcases visit_node_spec two_cliques [4, 3, 3, 3, 4, 3, 3, 3] (13 / 2)
      [c0, c1, c2, c3, c4, c5, c6, c7] b 1 c1 [0, 2, 3] [c0, c2, c3] 3 rfl
      (two_cliques_neighbors _ _ rfl) rfl rfl with ⟨hv, _⟩ | ⟨t, ht, hne, hpos, hv⟩
    · exact ⟨_, hv, c0, c1, c2, c3, c4, c5, c6, c7, rfl, h0, h1, h2, h3, h4, h5, h6, h7⟩
    · refine ⟨_, hv, ?_⟩
      simp only [List.mem_cons, List.mem_singleton, List.not_mem_nil, or_false] at ht
      rcases ht with e | e | e <;> subst e <;>
        exact ⟨_, _, _, _, _, _, _, _, rfl, by omega, by omega, by omega, by omega,
          by omega, by omega, by omega, by omega⟩
  · rcases visit_node_spec two_cliques [4, 3, 3, 3, 4, 3, 3, 3] (13 / 2)
      [c0, c1, c2, c3, c4, c5, c6, c7] b 2 c2 [0, 1, 3] [c0, c1, c3] 3 rfl
      (two_cliques_neighbors _ _ rfl) rfl rfl with ⟨hv, _⟩ | ⟨t, ht, hne, hpos, hv⟩
    · exact ⟨_, hv, c0, c1, c2, c3, c4, c5, c6, c7, rfl, h0, h1, h2, h3, h4, h5, h6, h7⟩
    · refine ⟨_, hv, ?_⟩
      simp only [List.mem_cons, List.mem_singleton, List.not_mem_nil, or_false] at ht
      rcases ht with e | e | e <;> subst e <;>
        exact ⟨_, _, _, _, _, _, _, _, rfl, by omega, by omega, by omega, by omega,
          by omega, by omega, by omega, by omega⟩
  · rcases visit_node_spec two_cliques [4, 3, 3, 3, 4, 3, 3, 3] (13 / 2)
      [c0, c1, c2, c3, c4, c5, c6, c7] b 3 c3 [0, 1, 2] [c0, c1, c2] 3 rfl
      (two_cliques_neighbors _ _ rfl) rfl rfl with ⟨hv, _⟩ | ⟨t, ht, hne, hpos, hv⟩
    · exact ⟨_, hv, c0, c1, c2, c3, c4, c5, c6, c7, rfl, h0, h1, h2, h3, h4, h5, h6, h7⟩
    · refine ⟨_, hv, ?_⟩
      simp only [List.mem_cons, List.mem_singleton, List.not_mem_nil, or_false] at ht
      rcases ht with e | e | e <;> subst e <;>
        exact ⟨_, _, _, _, _, _, _, _, rfl, by omega, by omega, by omega, by omega,
          by omega, by omega, by omega, by omega⟩
  · rcases visit_node_spec two_cliques [4, 3, 3, 3, 4, 3, 3, 3] (13 / 2)
      [c0, c1, c2, c3, c4, c5, c6, c7] b 4 c4 [5, 6, 7, 0] [c5, c6, c7, c0] 4 rfl
      (two_cliques_neighbors _ _ rfl) rfl rfl with ⟨hv, _⟩ | ⟨t, ht, hne, hpos, hv⟩
    · exact ⟨_, hv, c0, c1, c2, c3, c4, c5, c6, c7, rfl, h0, h1, h2, h3, h4, h5, h6, h7⟩
    · refine ⟨_, hv, ?_⟩
      simp only [List.mem_cons, List.mem_singleton, List.not_mem_nil, or_false] at ht
      rcases ht with e | e | e | e <;> subst e <;>
      first
        | exact ⟨_, _, _, _, _, _, _, _, rfl, by omega, by omega, by omega, by omega,
            by omega, by omega, by omega, by omega⟩
        | (exfalso
           simp [sigma_tot, List.count_cons, e04, e14, e24, e34, e40, e50, e60, e70] at hpos
           split_ifs at hpos <;> norm_num at hpos)
  · rcases visit_node_spec two_cliques [4, 3, 3, 3, 4, 3, 3, 3] (13 / 2)
      [c0, c1, c2, c3, c4, c5, c6, c7] b 5 c5 [4, 6, 7] [c4, c6, c7] 3 rfl
      (two_cliques_neighbors _ _ rfl) rfl rfl with ⟨hv, _⟩ | ⟨t, ht, hne, hpos, hv⟩
    · exact ⟨_, hv, c0, c1, c2, c3, c4, c5, c6, c7, rfl, h0, h1, h2, h3, h4, h5, h6, h7⟩
    · refine ⟨_, hv, ?_⟩
      simp only [List.mem_cons, List.mem_singleton, List.not_mem_nil, or_false] at ht
      rcases ht with e | e | e <;> subst e <;>
        exact ⟨_, _, _, _, _, _, _, _, rfl, by omega, by omega, by omega, by omega,
          by omega, by omega, by omega, by omega⟩
  · rcases visit_node_spec two_cliques [4, 3, 3, 3, 4, 3, 3, 3] (13 / 2)
      [c0, c1, c2, c3, c4, c5, c6, c7] b 6 c6 [4, 5, 7] [c4, c5, c7] 3 rfl
      (two_cliques_neighbors _ _ rfl) rfl rfl with ⟨hv, _⟩ | ⟨t, ht, hne, hpos, hv⟩
    · exact ⟨_, hv, c0, c1, c2, c3, c4, c5, c6, c7, rfl, h0, h1, h2, h3, h4, h5, h6, h7⟩
    · refine ⟨_, hv, ?_⟩
      simp only [List.mem_cons, List.mem_singleton, List.not_mem_nil, or_false] at ht
      rcases ht with e | e | e <;> subst e <;>
        exact ⟨_, _, _, _, _, _, _, _, rfl, by omega, by omega, by omega, by omega,
          by omega, by omega, by omega, by omega⟩
  · rcases visit_node_spec two_cliques [4, 3, 3, 3, 4, 3, 3, 3] (13 / 2)
      [c0, c1, c2, c3, c4, c5, c6, c7] b 7 c7 [4, 5, 6] [c4, c5, c6] 3 rfl
      (two_cliques_neighbors _ _ rfl) rfl rfl with ⟨hv, _⟩ | ⟨t, ht, hne, hpos, hv⟩
    · exact ⟨_, hv, c0, c1, c2, c3, c4, c5, c6, c7, rfl, h0, h1, h2, h3, h4, h5, h6, h7⟩
    · refine ⟨_, hv, ?_⟩
      simp only [List.mem_cons, List.mem_singleton, List.not_mem_nil, or_false] at ht
      rcases ht with e | e | e <;> subst e <;>
        exact ⟨_, _, _, _, _, _, _, _, rfl, by omega, by omega, by omega, by omega,
          by omega, by omega, by omega, by omega⟩

theorem two_cliques_stable (cs : List Nat) (h : CliqueLabels cs)
    (hst : ∀ u, u < 8 →
      visit_node two_cliques [4, 3, 3, 3, 4, 3, 3, 3] (13 / 2) (cs, false) u = .ok (cs, false)) :
    group_by_community cs = [[0, 1, 2, 3], [4, 5, 6, 7]] := by
  obtain ⟨c0, c1, c2, c3, c4, c5, c6, c7, rfl, h0, h1, h2, h3, h4, h5, h6, h7⟩ := h
  have e40 : ¬ c4 = c0 := by omega
  have e50 : ¬ c5 = c0 := by omega
  have e60 : ¬ c6 = c0 := by omega
  have e70 : ¬ c7 = c0 := by omega
  have e42 : ¬ c4 = c2 := by omega
  have e52 : ¬ c5 = c2 := by omega
  have e62 : ¬ c6 = c2 := by omega
  have e72 : ¬ c7 = c2 := by omega
  have e43 : ¬ c4 = c3 := by omega
  have e53 : ¬ c5 = c3 := by omega
  have e63 : ¬ c6 = c3 := by omega
  have e73 : ¬ c7 = c3 := by omega
  have e04 : ¬ c0 = c4 := by omega
  have e14 : ¬ c1 = c4 := by omega
  have e24 : ¬ c2 = c4 := by omega
  have e34 : ¬ c3 = c4 := by omega
  have e06 : ¬ c0 = c6 := by omega
  have e16 : ¬ c1 = c6 := by omega
  have e26 : ¬ c2 = c6 := by omega
  have e36 : ¬ c3 = c6 := by omega
  have e07 : ¬ c0 = c7 := by omega
  have e17 : ¬ c1 = c7 := by omega
  have e27 : ¬ c2 = c7 := by omega
  have e37 : ¬ c3 = c7 := by omega
  have hA : c0 = c1 ∧ c2 = c1 ∧ c3 = c1 := by
    rcases visit_node_spec two_cliques [4, 3, 3, 3, 4, 3, 3, 3] (13 / 2)
      [c0, c1, c2, c3, c4, c5, c6, c7] false 1 c1 [0, 2, 3] [c0, c2, c3] 3 rfl
      (two_cliques_neighbors _ _ rfl) rfl rfl with ⟨_, hle⟩ | ⟨t, _, _, _, hv⟩
    · refine ⟨?_, ?_, ?_⟩
      · by_contra hc
        have := hle c0 (by simp) hc
        have hc2 : ¬ c1 = c0 := fun e => hc e.symm
        simp [sigma_tot, List.count_cons, e40, e50, e60, e70, hc2] at this
        split_ifs at this <;> norm_num at this
      · by_contra hc
        have := hle c2 (by simp) hc
        have hc2 : ¬ c1 = c2 := fun e => hc e.symm
        simp [sigma_tot, List.count_cons, e42, e52, e62, e72, hc2] at this
        split_ifs at this <;> norm_num at this
      · by_contra hc
        have := hle c3 (by simp) hc
        have hc2 : ¬ c1 = c3 := fun e => hc e.symm
        simp [sigma_tot, List.count_cons, e43, e53, e63, e73, hc2] at this
        split_ifs at this <;> norm_num at this
    · rw [hst 1 (by omega)] at hv
      simp at hv
  have hB : c4 = c5 ∧ c6 = c5 ∧ c7 = c5 := by
    rcases visit_node_spec two_cliques [4, 3, 3, 3, 4, 3, 3, 3] (13 / 2)
      [c0, c1, c2, c3, c4, c5, c6, c7] false 5 c5 [4, 6, 7] [c4, c6, c7] 3 rfl
      (two_cliques_neighbors _ _ rfl) rfl rfl with ⟨_, hle⟩ | ⟨t, _, _, _, hv⟩
    · refine ⟨?_, ?_, ?_⟩
      · by_contra hc
        have := hle c4 (by simp) hc
        have hc2 : ¬ c5 = c4 := fun e => hc e.symm
        simp [sigma_tot, List.count_cons, e04, e14, e24, e34, hc2] at this
        split_ifs at this <;> norm_num at this
      · by_contra hc
        have := hle c6 (by simp) hc
        have hc2 : ¬ c5 = c6 := fun e => hc e.symm
        simp [sigma_tot, List.count_cons, e06, e16, e26, e36, hc2] at this
        split_ifs at this <;> norm_num at this
      · by_contra hc
        have := hle c7 (by simp) hc
        have hc2 : ¬ c5 = c7 := fun e => hc e.symm
        simp [sigma_tot, List.count_cons, e07, e17, e27, e37, hc2] at this
        split_ifs at this <;> norm_num at this
    · rw [hst 5 (by omega)] at hv
      simp at hv
  rw [hA.1, hA.2.1, hA.2.2, hB.1, hB.2.1, hB.2.2]
  obtain ⟨h5a, h5b⟩ := h5
  interval_cases c1 <;> interval_cases c5 <;> decide

theorem two_cliques_loop (orders : Nat → List Nat)
    (horders : ∀ p, (orders p).Perm (List.range 8)) (fuel pass : Nat)
    (cs result : List Nat) (hcs : CliqueLabels cs)
    (h : louvain_loop two_cliques [4, 3, 3, 3, 4, 3, 3, 3] (13 / 2) orders fuel pass cs
      = some (.ok result)) :
    group_by_community result = [[0, 1, 2, 3], [4, 5, 6, 7]] := by
  induction fuel generalizing pass cs with
  | zero => simp [louvain_loop] at h
  | succ fuel ih =>
    simp only [louvain_loop] at h
    cases hp : run_pass two_cliques [4, 3, 3, 3, 4, 3, 3, 3] (13 / 2) (orders pass) cs with
    | error e => rw [hp] at h; simp at h
    | ok st =>
      obtain ⟨c1, imp⟩ := st
      rw [hp] at h
      have hmem : ∀ u ∈ orders pass, u < 8 :=
        fun u hu => List.mem_range.1 ((horders pass).mem_iff.1 hu)
      have hinv : CliqueLabels c1 :=
        foldlM_invariant (visit_node two_cliques [4, 3, 3, 3, 4, 3, 3, 3] (13 / 2))
          (fun st => CliqueLabels st.1) (orders pass)
          (fun x a y ha hx hf => by
            obtain ⟨st2, h1, h2⟩ := two_cliques_visit x.1 hx x.2 a (hmem a ha)
            rw [hf] at h1
            cases h1; exact h2)
          (cs, false) (c1, imp) hcs hp
      simp only at h
      cases imp with
      | true => exact ih (pass + 1) c1 hinv (by simpa using h)
      | false =>
        simp only [Bool.false_eq_true, if_false, Option.some.injEq, Except.ok.injEq] at h
        subst h
        obtain ⟨he, hv⟩ := run_pass_no_improvement _ _ _ _ _ _ hp
        subst he
        apply two_cliques_stable _ hcs
        intro u hu
        exact hv u ((horders pass).mem_iff.2 (List.mem_range.2 hu))

/-- With the nodes visited in the order 0, 1, .., 7 in every pass, the labels of the
two-clique graph alternate between two states and no pass is free of moves. -/
theorem two_cliques_identity_order_no_return (fuel : Nat) :
    louvain_community two_cliques false (fun _ => List.range 8) fuel = none := by
  have hn : two_cliques.num_nodes = 8 := by decide
  have hinit : two_cliques.edges_.foldlM (louvain_init_step false)
      (List.replicate 8 (0 : ℚ), (0 : ℚ)) = .ok ([4, 3, 3, 3, 4, 3, 3, 3], 13) := by
    decide!
  have hm : ¬ ((13 : ℚ) / 2 = 0) := by norm_num
  have h80 : ¬ ((8 : Nat) = 0) := by decide
  have p0 : run_pass two_cliques [4, 3, 3, 3, 4, 3, 3, 3] (13 / 2) (List.range 8)
      (List.range 8) = .ok ([1, 2, 3, 2, 5, 6, 7, 6], true) := by decide!
  have p1 : run_pass two_cliques [4, 3, 3, 3, 4, 3, 3, 3] (13 / 2) (List.range 8)
      [1, 2, 3, 2, 5, 6, 7, 6] = .ok ([2, 3, 2, 3, 6, 7, 6, 7], true) := by decide!
  have p2 : run_pass two_cliques [4, 3, 3, 3, 4, 3, 3, 3] (13 / 2) (List.range 8)
      [2, 3, 2, 3, 6, 7, 6, 7] = .ok ([3, 2, 3, 2, 7, 6, 7, 6], true) := by decide!
  have p3 : run_pass two_cliques [4, 3, 3, 3, 4, 3, 3, 3] (13 / 2) (List.range 8)
      [3, 2, 3, 2, 7, 6, 7, 6] = .ok ([2, 3, 2, 3, 6, 7, 6, 7], true) := by decide!
  have hcycle : ∀ (f pass : Nat),
      louvain_loop two_cliques [4, 3, 3, 3, 4, 3, 3, 3] (13 / 2) (fun _ => List.range 8) f
        pass [2, 3, 2, 3, 6, 7, 6, 7] = none ∧
      louvain_loop two_cliques [4, 3, 3, 3, 4, 3, 3, 3] (13 / 2) (fun _ => List.range 8) f
        pass [3, 2, 3, 2, 7, 6, 7, 6] = none := by
    intro f
    induction f with
    | zero => intro pass; exact ⟨rfl, rfl⟩
    | succ f ih =>
      intro pass
      constructor
      · simp only [louvain_loop, p2, if_true]
        exact (ih (pass + 1)).2
      · simp only [louvain_loop, p3, if_true]
        exact (ih (pass + 1)).1
  have hloop : louvain_loop two_cliques [4, 3, 3, 3, 4, 3, 3, 3] (13 / 2)
      (fun _ => List.range 8) fuel 0 (List.range 8) = none := by
    cases fuel with
    | zero => rfl
    | succ f1 =>
      simp only [louvain_loop, p0, if_true]
      cases f1 with
      | zero => rfl
      | succ f2 =>
        simp only [louvain_loop, p1, if_true]
        exact (hcycle f2 _).1
  simp only [louvain_community, hn, hinit, hm, h80, if_false, hloop]

/-- C2: on the graph of two 4-cliques `{0,1,2,3}`, `{4,5,6,7}` joined by the bridge
0-4 (unweighted mode), every run of `louvain_community` that returns, whatever
permutation of the nodes the shuffle produces in each pass, returns exactly the two
communities `{0,1,2,3}` and `{4,5,6,7}`. -/
theorem louvain_two_cliques (orders : Nat → List Nat) (fuel : Nat)
    (result : List (List Nat))
    (horders : ∀ p, (orders p).Perm (List.range 8))
    (h : louvain_community two_cliques false orders fuel = some (.ok result)) :
    result = [[0, 1, 2, 3], [4, 5, 6, 7]] := by
  have hn : two_cliques.num_nodes = 8 := by decide
  have hinit : two_cliques.edges_.foldlM (louvain_init_step false)
      (List.replicate 8 (0 : ℚ), (0 : ℚ)) = .ok ([4, 3, 3, 3, 4, 3, 3, 3], 13) := by
    decide!
  have hm : ¬ ((13 : ℚ) / 2 = 0) := by norm_num
  have h80 : ¬ ((8 : Nat) = 0) := by decide
  simp only [louvain_community, hn, hinit, hm, h80, if_false] at h
  split at h
  · simp at h
  · simp at h
  · rename_i communities hloop
    simp only [Option.some.injEq, Except.ok.injEq] at h
    subst h
    exact two_cliques_loop orders horders fuel 0 _ communities
      ⟨0, 1, 2, 3, 4, 5, 6, 7, by decide, by omega, by omega, by omega, by omega, by omega,
        by omega, by omega, by omega⟩ hloop

theorem louvain_two_cliques_witness :
    (∀ p : Nat, ((fun _ => [0, 5, 7, 4, 3, 2, 1, 6]) p : List Nat).Perm (List.range 8)) ∧
    ∃ result, louvain_community two_cliques false (fun _ => [0, 5, 7, 4, 3, 2, 1, 6]) 6
        = some (.ok result) ∧ result = [[0, 1, 2, 3], [4, 5, 6, 7]] :=
  ⟨fun _ => (by decide : ([0, 5, 7, 4, 3, 2, 1, 6] : List Nat).Perm (List.range 8)),
    [[0, 1, 2, 3], [4, 5, 6, 7]], by decide!,
    louvain_two_cliques (fun _ => [0, 5, 7, 4, 3, 2, 1, 6]) 6 [[0, 1, 2, 3], [4, 5, 6, 7]]
      (fun _ => (by decide : ([0, 5, 7, 4, 3, 2, 1, 6] : List Nat).Perm (List.range 8)))
      (by decide!)⟩

/-! ## Enrichment engine: the p-value is the upper-tail hypergeometric sum -/

theorem combinations_loop_eq (n J : Nat) (hJ : J ≤ n) :
    (List.range J).foldl
      (fun (res : ℚ) (j : Nat) =>
        res * (((n - ((j : Int) + 1) + 1 : Int)) : ℚ) / ((((j : Int) + 1 : Int)) : ℚ))
      (1 : ℚ) = ((n.choose J : Nat) : ℚ) := by
  induction J with
  | zero => simp
  | succ J ih =>
    rw [List.range_succ, List.foldl_append, ih (by omega)]
    simp only [List.foldl_cons, List.foldl_nil]
    have h := Nat.choose_succ_right_eq n J
    have h2 : ((n.choose (J + 1) : Nat) : ℚ) * ((J : ℚ) + 1)
        = ((n.choose J : Nat) : ℚ) * ((n : ℚ) - (J : ℚ)) := by
      have h3 := congrArg (Nat.cast : Nat → ℚ) h
      rw [Nat.cast_mul, Nat.cast_mul, Nat.cast_sub (by omega : J ≤ n)] at h3
      push_cast at h3
      exact h3
    have hpos : ((J : ℚ) + 1) ≠ 0 := by positivity
    push_cast
    rw [div_eq_iff hpos, h2]
    ring

theorem combinations_eq_binomial (a b : Int) : combinations a b = binomial a b := by
  unfold combinations binomial
  by_cases h1 : b < 0 ∨ b > a
  · have h2 : ¬ (0 ≤ b ∧ b ≤ a) := by omega
    simp only [h1, h2, if_true, if_false]
  · have h2 : 0 ≤ b ∧ b ≤ a := by omega
    obtain ⟨n, rfl⟩ := Int.eq_ofNat_of_zero_le (by omega : 0 ≤ a)
    obtain ⟨k, rfl⟩ := Int.eq_ofNat_of_zero_le h2.1
    have hkn : k ≤ n := by omega
    simp only [h1, h2, if_false, if_true, and_self, Int.toNat_ofNat]
    by_cases h3 : (k : Int) = 0 ∨ (k : Int) = n
    · simp only [h3, if_true]
      rcases h3 with h | h
      · have : k = 0 := by omega
        subst this; simp
      · have : k = n := by omega
        subst this; simp
    · simp only [h3, if_false]
      by_cases h4 : (k : Int) > Int.tdiv n 2
      · simp only [h4, if_true]
        have h5 : ((n : Int) - (k : Int)).toNat = n - k := by omega
        rw [h5, combinations_loop_eq n (n - k) (by omega), Nat.choose_symm hkn]
      · simp only [h4, if_false, Int.toNat_ofNat]
        rw [combinations_loop_eq n k hkn]

theorem binomial_natCast (n k : Nat) : binomial (n : Int) (k : Int) = ((n.choose k : Nat) : ℚ) := by
  unfold binomial
  by_cases h : k ≤ n
  · have h2 : (0 : Int) ≤ (k : Int) ∧ (k : Int) ≤ (n : Int) := by omega
    simp only [h2, and_self, if_true, Int.toNat_ofNat]
  · have h2 : ¬ ((0 : Int) ≤ (k : Int) ∧ (k : Int) ≤ (n : Int)) := by omega
    simp only [h2, if_false]
    rw [Nat.choose_eq_zero_of_lt (by omega)]
    simp

theorem cdf_fold_none (f : Nat → Option ℚ) (hf : ∀ j, f j = none) (L : Nat) (hL : 0 < L) :
    (List.range L).foldl (fun p j => add_value p (f j)) (some 0) = none := by
  induction L with
  | zero => omega
  | succ L _ =>
    rw [List.range_succ, List.foldl_append]
    simp only [List.foldl_cons, List.foldl_nil, hf]
    cases (List.range L).foldl (fun p _ => add_value p none) (some (0 : ℚ)) <;> rfl

theorem cdf_fold_some (f : Nat → Option ℚ) (t : Nat → ℚ) (hf : ∀ j, f j = some (t j))
    (L : Nat) :
    (List.range L).foldl (fun p j => add_value p (f j)) (some 0)
      = some (∑ j in Finset.range L, t j) := by
  induction L with
  | zero => simp
  | succ L ih =>
    rw [List.range_succ, List.foldl_append, ih]
    simp [hf, add_value, Finset.sum_range_succ]

theorem hypergeometric_cdf_upper_eq (k n K N : Nat) :
    hypergeometric_cdf_upper (k : Int) (n : Int) (K : Int) (N : Int) = upper_tail_sum k n K N := by
  unfold hypergeometric_cdf_upper upper_tail_sum
  have hL : (min (n : Int) (K : Int) + 1 - (k : Int)).toNat = min n K + 1 - k := by omega
  rw [hL]
  have hpmf : ∀ j : Nat, hypergeometric_pmf ((k : Int) + (j : Int)) n K N =
      checked_div (((K.choose (k + j) : Nat) : ℚ) *
        binomial ((N : Int) - (K : Int)) ((n : Int) - ((k + j : Nat) : Int)))
        ((N.choose n : Nat) : ℚ) := by
    intro j
    unfold hypergeometric_pmf
    rw [combinations_eq_binomial, combinations_eq_binomial, combinations_eq_binomial,
      binomial_natCast N n]
    have e : (k : Int) + (j : Int) = ((k + j : Nat) : Int) := by push_cast; ring
    rw [e, binomial_natCast K (k + j)]
  by_cases hc : N.choose n = 0
  · by_cases hk : k ≤ min n K
    · simp only [hc, hk, and_self, if_true]
      apply cdf_fold_none
      · intro j
        rw [hpmf j, hc]
        simp [checked_div]
      · omega
    · have hz : min n K + 1 - k = 0 := by omega
      have he : Finset.Icc k (min n K) = ∅ := Finset.Icc_eq_empty (by omega)
      simp [hk, hz, he]
  · have hc2 : ((N.choose n : Nat) : ℚ) ≠ 0 := by exact_mod_cast hc
    simp only [hc, false_and, if_false]
    rw [cdf_fold_some _ (fun j => ((K.choose (k + j) : Nat) : ℚ) *
        binomial ((N : Int) - (K : Int)) ((n : Int) - ((k + j : Nat) : Int))
          / ((N.choose n : Nat) : ℚ))
      (fun j => by rw [hpmf j]; simp [checked_div, hc2])]
    congr 1
    have hIcc : Finset.Icc k (min n K) = Finset.Ico k (min n K + 1) := by
      ext x; simp [Finset.mem_Icc, Finset.mem_Ico]; omega
    rw [hIcc, Finset.sum_Ico_eq_sum_range]

theorem upper_tail_sum_regular (k n K N : Nat) (hK : K ≤ N) (hn : n ≤ N) :
    upper_tail_sum k n K N = some (∑ i in Finset.Icc k (min n K),
      ((K.choose i : Nat) : ℚ) * (((N - K).choose (n - i) : Nat) : ℚ)
        / ((N.choose n : Nat) : ℚ)) := by
  unfold upper_tail_sum
  have hc : ¬ N.choose n = 0 := Nat.pos_iff_ne_zero.1 (Nat.choose_pos hn)
  simp only [hc, false_and, if_false]
  congr 1
  apply Finset.sum_congr rfl
  intro i hi
  have hi2 := (Finset.mem_Icc.1 hi).2
  have hin : i ≤ n := le_trans hi2 (min_le_left _ _)
  have e1 : (N : Int) - (K : Int) = ((N - K : Nat) : Int) := by omega
  have e2 : (n : Int) - (i : Int) = ((n - i : Nat) : Int) := by omega
  rw [e1, e2, binomial_natCast]

theorem raw_results_p_value (terms : List (String × Nat)) (n N : Nat) (db : AnnotationDb)
    (res : GoEnrichmentResult) (h : res ∈ raw_results terms n N db) :
    res.p_value = upper_tail_sum res.count_in_set res.total_in_set res.count_in_background
      res.total_in_background := by
  unfold raw_results at h
  obtain ⟨pair, _, hp⟩ := List.mem_filterMap.1 h
  simp only at hp
  split_ifs at hp
  simp only [Option.some.injEq] at hp
  subst hp
  exact hypergeometric_cdf_upper_eq _ _ _ _

/-- C3: under exact arithmetic, the `p_value` of every result of `go_enrichment` is
the upper-tail hypergeometric sum `Σ_{i=k}^{min(n,K)} C(K,i)·C(N−K,n−i)/C(N,n)` of
its own fields `k = count_in_set`, `n = total_in_set`, `K = count_in_background`,
`N = total_in_background` (both without value when a term divides by `C(N,n) = 0`;
for `K ≤ N` and `n ≤ N` the sum is the one over `Nat.choose`); for `N = 5`, `K = 3`,
`n = 2`, `k = 2` the code computes exactly `3/10`. -/
theorem go_enrichment_p_value :
    (∀ (protein_set : List String) (db : AnnotationDb) (correction_method : String)
      (res : GoEnrichmentResult),
      res ∈ go_enrichment protein_set db correction_method →
      res.p_value = upper_tail_sum res.count_in_set res.total_in_set
        res.count_in_background res.total_in_background) ∧
    (∀ k n K N : Nat, K ≤ N → n ≤ N →
      upper_tail_sum k n K N = some (∑ i in Finset.Icc k (min n K),
        ((K.choose i : Nat) : ℚ) * (((N - K).choose (n - i) : Nat) : ℚ)
          / ((N.choose n : Nat) : ℚ))) ∧
    hypergeometric_cdf_upper 2 2 3 5 = some (3 / 10) := by
  refine ⟨?_, upper_tail_sum_regular, by decide!⟩
  intro protein_set db correction_method res h
  unfold go_enrichment at h
  simp only at h
  split_ifs at h with h1 h2 h3 h4
  · simp at h
  · simp at h
  · exact raw_results_p_value _ _ _ _ _ h
  · obtain ⟨r0, hr0, rfl⟩ := List.mem_map.1 h
    exact raw_results_p_value _ _ _ _ r0 hr0
  · obtain ⟨r0, hr0, rfl⟩ := List.mem_map.1 h
    exact raw_results_p_value _ _ _ _ r0 hr0

theorem go_enrichment_p_value_witness :
    (GoEnrichmentResult.mk "GO:0005575" (some (3 / 10)) (some (3 / 5)) 2 2 3 5
      ∈ go_enrichment ["P12345", "Q99999"] sample_db "bonferroni") ∧
    (some (3 / 10) : Option ℚ) = upper_tail_sum 2 2 3 5 :=
  ⟨by decide!,
    go_enrichment_p_value.1 ["P12345", "Q99999"] sample_db "bonferroni"
      (GoEnrichmentResult.mk "GO:0005575" (some (3 / 10)) (some (3 / 5)) 2 2 3 5)
      (by decide!)⟩

/-! ## Annotation index: what the loader builds -/

theorem terms_of_push (m : List (String × List String)) (k t p : String) :
    terms_of (multimap_push m k t) p =
      if p = k then terms_of m k ++ [t] else terms_of m p := by
  induction m with
  | nil =>
    by_cases h : p = k
    · subst h; simp [multimap_push, terms_of]
    · have h2 : ¬ k = p := fun e => h e.symm
      simp [multimap_push, terms_of, h, h2]
  | cons kv rest ih =>
    obtain ⟨k1, ts⟩ := kv
    by_cases h1 : k1 = k
    · subst h1
      by_cases h : p = k1
      · subst h; simp [multimap_push, terms_of]
      · have h2 : ¬ k1 = p := fun e => h e.symm
        simp [multimap_push, terms_of, h, h2]
    · by_cases h : p = k
      · subst h
        have ih2 : terms_of (multimap_push rest p t) p = terms_of rest p ++ [t] := by
          simpa using ih
        simp only [multimap_push, h1, if_false, if_true]
        unfold terms_of at ih2 ⊢
        simp only [List.find?_cons, h1, decide_False]
        exact ih2
      · have ih2 : terms_of (multimap_push rest k t) p = terms_of rest p := by
          simpa [h] using ih
        simp only [multimap_push, h1, h, if_false]
        unfold terms_of at ih2 ⊢
        by_cases h3 : k1 = p
        · simp [List.find?_cons, h3]
        · simp only [List.find?_cons, h3, decide_False]
          exact ih2

theorem keys_push (m : List (String × List String)) (k t : String) :
    (multimap_push m k t).map Prod.fst =
      if k ∈ m.map Prod.fst then m.map Prod.fst else m.map Prod.fst ++ [k] := by
  induction m with
  | nil => simp [multimap_push]
  | cons kv rest ih =>
    obtain ⟨k1, ts⟩ := kv
    by_cases h1 : k1 = k
    · subst h1; simp [multimap_push]
    · have h2 : ¬ k = k1 := fun e => h1 e.symm
      simp only [multimap_push, h1, if_false, List.map_cons, ih, List.mem_cons, h2, false_or]
      split_ifs <;> simp

theorem keys_push_nodup (m : List (String × List String)) (k t : String)
    (h : (m.map Prod.fst).Nodup) : ((multimap_push m k t).map Prod.fst).Nodup := by
  rw [keys_push]
  split_ifs with hk
  · exact h
  · exact List.nodup_append.2 ⟨h, by simp, by
      intro a ha hb
      simp only [List.mem_singleton] at hb
      subst hb; exact hk ha⟩

theorem mem_keys_push (m : List (String × List String)) (k t p : String) :
    p ∈ (multimap_push m k t).map Prod.fst ↔ p = k ∨ p ∈ m.map Prod.fst := by
  rw [keys_push]
  split_ifs with hk
  · constructor
    · exact Or.inr
    · rintro (e | e)
      · rw [e]; exact hk
      · exact e
  · simp only [List.mem_append, List.mem_singleton]
    tauto

theorem mem_terms_push (m : List (String × List String)) (k t p x : String) :
    x ∈ terms_of (multimap_push m k t) p ↔ x ∈ terms_of m p ∨ (p = k ∧ x = t) := by
  rw [terms_of_push]
  by_cases h : p = k
  · subst h; simp
  · simp [h]

theorem terms_push_ne_nil (m : List (String × List String)) (k t p : String) :
    terms_of (multimap_push m k t) p ≠ [] ↔ terms_of m p ≠ [] ∨ p = k := by
  rw [terms_of_push]
  by_cases h : p = k
  · subst h; simp
  · simp [h]

theorem exists_mem_snoc (rs : List GafRecord) (r : GafRecord) (P : GafRecord → Prop) :
    (∃ x ∈ rs ++ [r], P x) ↔ ((∃ x ∈ rs, P x) ∨ P r) := by
  constructor
  · rintro ⟨x, hx, h⟩
    simp only [List.mem_append, List.mem_singleton] at hx
    rcases hx with hx | hx
    · exact Or.inl ⟨x, hx, h⟩
    · subst hx; exact Or.inr h
  · rintro (⟨x, hx, h⟩ | h)
    · exact ⟨x, List.mem_append_left _ hx, h⟩
    · exact ⟨r, by simp, h⟩

/-- What the line loop of the loader has stored after the records read so far. -/
theorem load_fold_spec (records : List GafRecord) :
    ((records.foldl load_step ([], [])).1.map Prod.fst).Nodup ∧
    (∀ p t, t ∈ terms_of (records.foldl load_step ([], [])).1 p ↔
      ∃ r ∈ records, r.go_id ≠ "" ∧ r.go_id = t ∧ record_names r p) ∧
    (∀ p, p ∈ (records.foldl load_step ([], [])).1.map Prod.fst ↔
      terms_of (records.foldl load_step ([], [])).1 p ≠ []) ∧
    (∀ t, t ∈ (records.foldl load_step ([], [])).2 ↔
      ∃ r ∈ records, r.go_id ≠ "" ∧ r.go_id = t) := by
  induction records using List.reverseRecOn with
  | nil => simp [terms_of]
  | append_singleton rs r ih =>
    obtain ⟨ih1, ih2, ih3, ih4⟩ := ih
    rw [List.foldl_append]
    simp only [List.foldl_cons, List.foldl_nil]
    generalize rs.foldl load_step ([], []) = st at ih1 ih2 ih3 ih4 ⊢
    by_cases hgo : r.go_id = ""
    · have hstep : load_step st r = st := by simp [load_step, hgo]
      rw [hstep]
      refine ⟨ih1, ?_, ih3, ?_⟩
      · intro p t
        rw [ih2, exists_mem_snoc]
        constructor
        · exact Or.inl
        · rintro (h | h)
          · exact h
          · exact absurd hgo h.1
      · intro t
        rw [ih4, exists_mem_snoc]
        constructor
        · exact Or.inl
        · rintro (h | h)
          · exact h
          · exact absurd hgo h.1
    · have hall : ∀ t, t ∈ st.2 ++ [r.go_id] ↔
          ∃ x ∈ rs ++ [r], x.go_id ≠ "" ∧ x.go_id = t := by
        intro t
        rw [exists_mem_snoc, ← ih4]
        simp only [List.mem_append, List.mem_singleton]
        constructor
        · rintro (h | h)
          · exact Or.inl h
          · exact Or.inr ⟨hgo, h.symm⟩
        · rintro (h | h)
          · exact Or.inl h
          · exact Or.inr h.2.symm
      by_cases hsym : r.protein_symbol = ""
      · have hstep : load_step st r =
            (multimap_push st.1 r.protein_id r.go_id, st.2 ++ [r.go_id]) := by
          simp [load_step, hgo, hsym]
        rw [hstep]
        refine ⟨keys_push_nodup _ _ _ ih1, ?_, ?_, hall⟩
        · intro p t
          rw [exists_mem_snoc, ← ih2, mem_terms_push]
          unfold record_names
          constructor
          · rintro (h | ⟨h1, h2⟩)
            · exact Or.inl h
            · exact Or.inr ⟨hgo, h2.symm, Or.inl h1.symm⟩
          · rintro (h | ⟨_, h2, h3 | h3⟩)
            · exact Or.inl h
            · exact Or.inr ⟨h3.symm, h2.symm⟩
            · exact absurd hsym h3.1
        · intro p
          rw [mem_keys_push, terms_push_ne_nil, ih3]
          tauto
      · have hstep : load_step st r =
            (multimap_push (multimap_push st.1 r.protein_id r.go_id) r.protein_symbol
              r.go_id, st.2 ++ [r.go_id]) := by
          simp [load_step, hgo, hsym]
        rw [hstep]
        refine ⟨keys_push_nodup _ _ _ (keys_push_nodup _ _ _ ih1), ?_, ?_, hall⟩
        · intro p t
          rw [exists_mem_snoc, ← ih2, mem_terms_push, mem_terms_push]
          unfold record_names
          constructor
          · rintro ((h | ⟨h1, h2⟩) | ⟨h1, h2⟩)
            · exact Or.inl h
            · exact Or.inr ⟨hgo, h2.symm, Or.inl h1.symm⟩
            · exact Or.inr ⟨hgo, h2.symm, Or.inr ⟨hsym, h1.symm⟩⟩
          · rintro (h | ⟨_, h2, h3 | h3⟩)
            · exact Or.inl (Or.inl h)
            · exact Or.inl (Or.inr ⟨h3.symm, h2.symm⟩)
            · exact Or.inr ⟨h3.2.symm, h2.symm⟩
        · intro p
          rw [mem_keys_push, mem_keys_push, terms_push_ne_nil, terms_push_ne_nil, ih3]
          tauto

theorem mem_std_unique (l : List String) (x : String) : x ∈ std_unique l ↔ x ∈ l := by
  induction l using std_unique.induct with
  | case1 => simp [std_unique]
  | case2 a => simp [std_unique]
  | case3 b rest ih =>
    rw [std_unique, if_pos rfl, ih]
    simp
  | case4 a b rest hab ih =>
    rw [std_unique, if_neg hab, List.mem_cons, ih]
    simp

theorem std_unique_sorted (l : List String) (h : l.Pairwise (fun a b => a ≤ b)) :
    (std_unique l).Pairwise (fun a b => a < b) := by
  induction l using std_unique.induct with
  | case1 => simp [std_unique]
  | case2 a => simp [std_unique]
  | case3 b rest ih =>
    rw [std_unique, if_pos rfl]
    exact ih (List.pairwise_cons.1 h).2
  | case4 a b rest hab ih =>
    rw [std_unique, if_neg hab]
    obtain ⟨h1, h2⟩ := List.pairwise_cons.1 h
    refine List.pairwise_cons.2 ⟨?_, ih h2⟩
    intro x hx
    rw [mem_std_unique] at hx
    have hlt : a < b := lt_of_le_of_ne (h1 b (List.mem_cons_self _ _)) hab
    rcases List.mem_cons.1 hx with e | e
    · rw [e]; exact hlt
    · exact lt_of_lt_of_le hlt ((List.pairwise_cons.1 h2).1 x e)

theorem mem_std_sort (l : List String) (x : String) : x ∈ std_sort l ↔ x ∈ l :=
  (List.perm_insertionSort _ l).mem_iff

theorem std_sort_sorted (l : List String) : (std_sort l).Pairwise (fun a b => a ≤ b) :=
  List.sorted_insertionSort (fun (a b : String) => a ≤ b) l

theorem sort_unique_spec (l : List String) :
    (std_unique (std_sort l)).Pairwise (fun a b => a < b) ∧
    (∀ x, x ∈ std_unique (std_sort l) ↔ x ∈ l) ∧
    (std_unique (std_sort l)).Nodup ∧
    (std_unique (std_sort l) = [] ↔ l = []) := by
  have hs := std_unique_sorted _ (std_sort_sorted l)
  have hm : ∀ x, x ∈ std_unique (std_sort l) ↔ x ∈ l := by
    intro x; rw [mem_std_unique, mem_std_sort]
  refine ⟨hs, hm, hs.imp (fun h => ne_of_lt h), ?_⟩
  constructor
  · intro h
    cases l with
    | nil => rfl
    | cons a t =>
      have := (hm a).2 (List.mem_cons_self _ _)
      rw [h] at this; cases this
  · intro h; subst h; rfl

theorem terms_of_map (m : List (String × List String)) (f : List String → List String)
    (hf : f [] = []) (p : String) :
    terms_of (m.map (fun kv => (kv.1, f kv.2))) p = f (terms_of m p) := by
  induction m with
  | nil => simp [terms_of, hf]
  | cons kv rest ih =>
    unfold terms_of at ih ⊢
    by_cases h : kv.1 = p
    · simp [List.find?_cons, h]
    · simp only [List.map_cons, List.find?_cons, h, decide_False]
      exact ih

theorem terms_of_key (m : List (String × List String)) (h : (m.map Prod.fst).Nodup)
    (kv : String × List String) (hkv : kv ∈ m) : terms_of m kv.1 = kv.2 := by
  induction m with
  | nil => cases hkv
  | cons a rest ih =>
    simp only [List.map_cons, List.nodup_cons] at h
    rcases List.mem_cons.1 hkv with e | e
    · subst e; simp [terms_of]
    · have hne : ¬ a.1 = kv.1 := by
        intro e2
        exact h.1 (e2 ▸ List.mem_map.2 ⟨kv, e, rfl⟩)
      have := ih h.2 e
      unfold terms_of at this ⊢
      simp only [List.find?_cons, hne, decide_False]
      exact this

theorem mem_keys_iff_find (m : List (String × List String)) (p : String) :
    (m.find? (fun kv => kv.1 = p)).isSome = true ↔ p ∈ m.map Prod.fst := by
  induction m with
  | nil => simp
  | cons a rest ih =>
    by_cases h : a.1 = p
    · simp [List.find?_cons, h]
    · have h2 : ¬ p = a.1 := fun e => h e.symm
      simp only [List.find?_cons, h, decide_False, List.map_cons, List.mem_cons, h2, false_or]
      exact ih

theorem count_of_incr (counts : List (String × Nat)) (t x : String) :
    count_of (count_incr counts t) x = count_of counts x + (if x = t then 1 else 0) := by
  induction counts with
  | nil =>
    by_cases h : x = t
    · subst h; simp [count_incr, count_of]
    · have h2 : ¬ t = x := fun e => h e.symm
      simp [count_incr, count_of, h, h2]
  | cons a rest ih =>
    obtain ⟨t1, n⟩ := a
    unfold count_of at ih ⊢
    by_cases h1 : t1 = t
    · subst h1
      by_cases h : x = t1
      · subst h; simp [count_incr, List.find?_cons]
      · have h2 : ¬ t1 = x := fun e => h e.symm
        simp [count_incr, List.find?_cons, h, h2]
    · by_cases h3 : t1 = x
      · subst h3
        have h4 : ¬ t1 = t := h1
        simp [count_incr, List.find?_cons, h1]
      · simp only [count_incr, h1, if_false, List.find?_cons, h3, decide_False]
        exact ih

theorem count_of_fold (l : List String) (counts : List (String × Nat)) (x : String) :
    count_of (l.foldl count_incr counts) x = count_of counts x + l.count x := by
  induction l generalizing counts with
  | nil => simp
  | cons a rest ih =>
    rw [List.foldl_cons, ih, count_of_incr, List.count_cons]
    by_cases h : x = a
    · subst h; simp; ring
    · have h2 : ¬ a = x := fun e => h e.symm
      simp [h, h2]

theorem count_of_fold_lists (m : List (String × List String)) (counts : List (String × Nat))
    (x : String) :
    count_of (m.foldl (fun counts kv => kv.2.foldl count_incr counts) counts) x
      = count_of counts x + (m.map (fun kv => kv.2.count x)).sum := by
  induction m generalizing counts with
  | nil => simp
  | cons a rest ih =>
    rw [List.foldl_cons, ih, count_of_fold]
    simp only [List.map_cons, List.sum_cons]
    ring

theorem sum_count_eq_filter (m : List (String × List String))
    (h : ∀ kv ∈ m, kv.2.Nodup) (x : String) :
    (m.map (fun kv => kv.2.count x)).sum = (m.filter (fun kv => decide (x ∈ kv.2))).length := by
  induction m with
  | nil => rfl
  | cons a rest ih =>
    have ha := h a (List.mem_cons_self _ _)
    have hr := ih (fun kv hkv => h kv (List.mem_cons_of_mem _ hkv))
    simp only [List.map_cons, List.sum_cons, hr, List.filter_cons]
    by_cases hx : x ∈ a.2
    · simp [hx, List.count_eq_one_of_mem ha hx]; ring
    · simp [hx, List.count_eq_zero_of_not_mem hx]

theorem get_annotations_load (records : List GafRecord) (p : String) :
    get_annotations (load_records records) p =
      std_unique (std_sort (terms_of (records.foldl load_step ([], [])).1 p)) := by
  show terms_of ((records.foldl load_step ([], [])).1.map
    (fun kv => (kv.1, std_unique (std_sort kv.2)))) p = _
  exact terms_of_map _ (fun ts => std_unique (std_sort ts)) rfl p

theorem mem_annotations_load (records : List GafRecord) (p t : String) :
    t ∈ get_annotations (load_records records) p ↔
      ∃ r ∈ records, r.go_id ≠ "" ∧ r.go_id = t ∧ record_names r p := by
  rw [get_annotations_load, (sort_unique_spec _).2.1, (load_fold_spec records).2.1]

theorem keys_load (records : List GafRecord) :
    get_all_annotated_proteins (load_records records) =
      (records.foldl load_step ([], [])).1.map Prod.fst := by
  show ((records.foldl load_step ([], [])).1.map
    (fun kv => (kv.1, std_unique (std_sort kv.2)))).map Prod.fst = _
  rw [List.map_map]
  rfl

theorem term_frequency_load (records : List GafRecord) (t : String) :
    get_term_frequency (load_records records) t =
      ((get_all_annotated_proteins (load_records records)).filter
        (fun p => decide (t ∈ get_annotations (load_records records) p))).length := by
  have hkeys : ((load_records records).protein_to_go_.map Prod.fst).Nodup := by
    have := keys_load records
    unfold get_all_annotated_proteins at this
    rw [this]; exact (load_fold_spec records).1
  have hnodup : ∀ kv ∈ (load_records records).protein_to_go_, kv.2.Nodup := by
    intro kv hkv
    have hkv2 : kv ∈ (records.foldl load_step ([], [])).1.map
        (fun kv => (kv.1, std_unique (std_sort kv.2))) := hkv
    obtain ⟨a, _, rfl⟩ := List.mem_map.1 hkv2
    exact (sort_unique_spec a.2).2.2.1
  have h1 : get_term_frequency (load_records records) t =
      count_of ((load_records records).protein_to_go_.foldl
        (fun counts kv => kv.2.foldl count_incr counts) []) t := rfl
  rw [h1, count_of_fold_lists, sum_count_eq_filter _ hnodup]
  simp only [count_of, List.find?_nil, zero_add]
  unfold get_all_annotated_proteins
  rw [List.filter_map, List.length_map]
  congr 1
  apply List.filter_congr
  intro kv hkv
  simp only [Function.comp_apply]
  have : get_annotations (load_records records) kv.1 = kv.2 := terms_of_key _ hkeys kv hkv
  rw [this]

/-- C15: annotation-index count invariant. For the index built from any sequence of
records and every GO term `t`, `get_term_frequency(t)` is the number of keys of the
protein-to-terms map (the keys are pairwise distinct) whose de-duplicated term list
contains `t`; it is `0` exactly when `t` occurs in no term list, which is exactly
when `t` is not in `get_all_go_terms()`. -/
theorem term_frequency_counts_keys (records : List GafRecord) (t : String) :
    (get_all_annotated_proteins (load_records records)).Nodup ∧
    get_term_frequency (load_records records) t =
      ((get_all_annotated_proteins (load_records records)).filter
        (fun p => decide (t ∈ get_annotations (load_records records) p))).length ∧
    (get_term_frequency (load_records records) t = 0 ↔
      ∀ p, t ∉ get_annotations (load_records records) p) ∧
    ((∀ p, t ∉ get_annotations (load_records records) p) ↔
      t ∉ get_all_go_terms (load_records records)) := by
  have hkeys : (get_all_annotated_proteins (load_records records)).Nodup := by
    rw [keys_load]; exact (load_fold_spec records).1
  refine ⟨hkeys, term_frequency_load records t, ?_, ?_⟩
  · rw [term_frequency_load, List.length_eq_zero, List.filter_eq_nil_iff]
    constructor
    · intro h p hp
      have hkey : p ∈ get_all_annotated_proteins (load_records records) := by
        rw [keys_load, (load_fold_spec records).2.2.1]
        intro hnil
        rw [get_annotations_load, hnil] at hp
        cases hp
      have := h p hkey
      simp only [decide_eq_true_eq] at this
      exact this hp
    · intro h p _
      simp only [decide_eq_true_eq]
      exact h p
  · have hall : ∀ x, x ∈ get_all_go_terms (load_records records) ↔
        ∃ r ∈ records, r.go_id ≠ "" ∧ r.go_id = x := by
      intro x
      show x ∈ std_unique (std_sort (records.foldl load_step ([], [])).2) ↔ _
      rw [(sort_unique_spec _).2.1, (load_fold_spec records).2.2.2]
    rw [hall]
    constructor
    · rintro h ⟨r, hr, h1, h2⟩
      exact h r.protein_id ((mem_annotations_load records _ t).2 ⟨r, hr, h1, h2, Or.inl rfl⟩)
    · intro h p hp
      obtain ⟨r, hr, h1, h2, _⟩ := (mem_annotations_load records p t).1 hp
      exact h ⟨r, hr, h1, h2⟩

/-- C17: for the index built from any sequence of records and every identifier `p`,
`get_annotations(p)` is strictly ascending (sorted and duplicate-free) and holds
exactly the terms `t` for which an accepted record (one with a non-empty GO id) names
`p`, as protein id or as non-empty gene symbol, with `t`; it is empty when no record
names `p`, and `has_annotations(p)` holds exactly when it is non-empty. -/
theorem annotations_sorted_exact (records : List GafRecord) (p : String) :
    (get_annotations (load_records records) p).Pairwise (fun a b => a < b) ∧
    (∀ t, t ∈ get_annotations (load_records records) p ↔
      ∃ r ∈ records, r.go_id ≠ "" ∧ r.go_id = t ∧ record_names r p) ∧
    ((∀ r ∈ records, r.go_id ≠ "" → ¬ record_names r p) →
      get_annotations (load_records records) p = []) ∧
    (has_annotations (load_records records) p = true ↔
      get_annotations (load_records records) p ≠ []) := by
  refine ⟨?_, mem_annotations_load records p, ?_, ?_⟩
  · rw [get_annotations_load]; exact (sort_unique_spec _).1
  · intro h
    apply List.eq_nil_iff_forall_not_mem.2
    intro t ht
    obtain ⟨r, hr, h1, _, h3⟩ := (mem_annotations_load records p t).1 ht
    exact h r hr h1 h3
  · have h1 : has_annotations (load_records records) p = true ↔
        p ∈ get_all_annotated_proteins (load_records records) :=
      mem_keys_iff_find _ p
    rw [h1, keys_load, (load_fold_spec records).2.2.1, get_annotations_load,
      Ne, Ne, (sort_unique_spec _).2.2.2]

theorem annotations_sorted_exact_witness :
    (∀ r ∈ [GafRecord.mk "P1" "GENE1" "GO:0000001"], r.go_id ≠ "" → ¬ record_names r "X9") ∧
    get_annotations (load_records [GafRecord.mk "P1" "GENE1" "GO:0000001"]) "X9" = [] :=
  ⟨by
      intro r hr _
      simp only [List.mem_singleton] at hr
      subst hr
      unfold record_names
      decide,
    (annotations_sorted_exact [GafRecord.mk "P1" "GENE1" "GO:0000001"] "X9").2.2.1 (by
      intro r hr _
      simp only [List.mem_singleton] at hr
      subst hr
      unfold record_names
      decide)⟩

/-- C16 at the failing input: in the index built from the single record
`(P1, GENE1, GO:0000001)` the gene symbol is a second key, so the term frequency and
the background size are both `2`, although one protein is annotated. -/
theorem alias_counted_as_protein :
    alias_gaf_lines.filterMap parse_gaf_line = [GafRecord.mk "P1" "GENE1" "GO:0000001"] ∧
    get_term_frequency (load_from_gaf alias_gaf_lines) "GO:0000001" = 2 ∧
    (get_all_annotated_proteins (load_from_gaf alias_gaf_lines)).length = 2 ∧
    get_all_annotated_proteins (load_from_gaf alias_gaf_lines) = ["P1", "GENE1"] := by
  decide!

/-! ## Enrichment engine: which results are returned -/

theorem tci_keys (m : List (String × Nat)) (t x : String) :
    x ∈ (term_count_incr m t).map Prod.fst ↔ x = t ∨ x ∈ m.map Prod.fst := by
  induction m with
  | nil => simp [term_count_incr]
  | cons a rest ih =>
    obtain ⟨t1, n⟩ := a
    simp only [term_count_incr]
    split_ifs with h1 h2
    · simp
    · subst h2; simp
    · simp only [List.map_cons, List.mem_cons, ih]
      tauto

theorem tci_sorted (m : List (String × Nat)) (t : String)
    (h : (m.map Prod.fst).Pairwise (fun a b => a < b)) :
    ((term_count_incr m t).map Prod.fst).Pairwise (fun a b => a < b) := by
  induction m with
  | nil => simp [term_count_incr]
  | cons a rest ih =>
    obtain ⟨t1, n⟩ := a
    simp only [List.map_cons, List.pairwise_cons] at h
    simp only [term_count_incr]
    split_ifs with h1 h2
    · simp only [List.map_cons, List.pairwise_cons, List.mem_cons]
      refine ⟨?_, h.1, h.2⟩
      rintro x (e | e)
      · rw [e]; exact h1
      · exact lt_trans h1 (h.1 x e)
    · simp only [List.map_cons, List.pairwise_cons]
      exact ⟨h.1, h.2⟩
    · simp only [List.map_cons, List.pairwise_cons]
      refine ⟨?_, ih h.2⟩
      intro x hx
      rcases (tci_keys rest t x).1 hx with e | e
      · rw [e]
        exact lt_of_le_of_ne (not_lt.1 h1) (fun e2 => h2 e2.symm)
      · exact h.1 x e

theorem count_of_absent (m : List (String × Nat)) (x : String)
    (h : x ∉ m.map Prod.fst) : count_of m x = 0 := by
  induction m with
  | nil => rfl
  | cons a rest ih =>
    simp only [List.map_cons, List.mem_cons, not_or] at h
    have h1 : ¬ a.1 = x := fun e => h.1 e.symm
    have := ih h.2
    unfold count_of at this ⊢
    simp only [List.find?_cons, h1, decide_False]
    exact this

theorem tci_count (m : List (String × Nat)) (t x : String)
    (h : (m.map Prod.fst).Pairwise (fun a b => a < b)) :
    count_of (term_count_incr m t) x = count_of m x + (if x = t then 1 else 0) := by
  induction m with
  | nil =>
    by_cases e : x = t
    · subst e; simp [term_count_incr, count_of]
    · have e2 : ¬ t = x := fun e3 => e e3.symm
      simp [term_count_incr, count_of, e, e2]
  | cons a rest ih =>
    obtain ⟨t1, n⟩ := a
    simp only [List.map_cons, List.pairwise_cons] at h
    simp only [term_count_incr]
    split_ifs with h1 h2 h3 h4 h5
    · -- t < t1, x = t
      subst h2
      have hab : x ∉ ((t1, n) :: rest).map Prod.fst := by
        simp only [List.map_cons, List.mem_cons, not_or]
        refine ⟨ne_of_lt h1, ?_⟩
        intro hx
        exact lt_asymm h1 (h.1 x hx)
      rw [count_of_absent _ x hab]
      simp [count_of]
    · have e2 : ¬ t = x := fun e3 => h2 e3.symm
      simp [count_of, List.find?_cons, e2]
    · subst h4; subst h3
      simp [count_of]
    · subst h3
      have e2 : ¬ t = x := fun e3 => h4 e3.symm
      simp [count_of, List.find?_cons, e2]
    · subst h5
      have e2 : ¬ t1 = x := fun e3 => h3 e3.symm
      have := ih h.2
      simp only [if_true] at this
      unfold count_of at this ⊢
      simp only [List.find?_cons, e2, decide_False]
      exact this
    · have := ih h.2
      simp only [h5, if_false, add_zero] at this
      unfold count_of at this ⊢
      by_cases e : t1 = x
      · simp [List.find?_cons, e]
      · simp only [List.find?_cons, e, decide_False, add_zero]
        exact this

/-- After counting the terms of the list `l` into an empty `std::map`: the keys are
strictly ascending, they are the terms of `l`, and each count is the number of
occurrences of its term in `l`. -/
theorem tci_fold_spec (l : List String) :
    ((l.foldl term_count_incr []).map Prod.fst).Pairwise (fun a b => a < b) ∧
    (∀ x, x ∈ (l.foldl term_count_incr []).map Prod.fst ↔ x ∈ l) ∧
    (∀ x, count_of (l.foldl term_count_incr []) x = l.count x) := by
  induction l using List.reverseRecOn with
  | nil => simp [count_of]
  | append_singleton l a ih =>
    obtain ⟨ih1, ih2, ih3⟩ := ih
    rw [List.foldl_append]
    simp only [List.foldl_cons, List.foldl_nil]
    refine ⟨tci_sorted _ _ ih1, ?_, ?_⟩
    · intro x
      rw [tci_keys, ih2]
      simp only [List.mem_append, List.mem_singleton]
      tauto
    · intro x
      rw [tci_count _ _ _ ih1, ih3, List.count_append]
      by_cases e : x = a
      · subst e; simp
      · have e2 : ¬ a = x := fun e3 => e e3.symm
        simp [e, e2, List.count_cons]

theorem count_of_entry (m : List (String × Nat)) (h : (m.map Prod.fst).Nodup)
    (kv : String × Nat) (hkv : kv ∈ m) : count_of m kv.1 = kv.2 := by
  induction m with
  | nil => cases hkv
  | cons a rest ih =>
    simp only [List.map_cons, List.nodup_cons] at h
    rcases List.mem_cons.1 hkv with e | e
    · subst e; simp [count_of]
    · have hne : ¬ a.1 = kv.1 := by
        intro e2
        exact h.1 (e2 ▸ List.mem_map.2 ⟨kv, e, rfl⟩)
      have := ih h.2 e
      unfold count_of at this ⊢
      simp only [List.find?_cons, hne, decide_False]
      exact this

theorem unique_terms_eq (protein_set : List String) (db : AnnotationDb) :
    unique_terms_in_set protein_set db =
      (protein_set.flatMap (get_annotations db)).foldl term_count_incr [] := by
  unfold unique_terms_in_set
  generalize ([] : List (String × Nat)) = acc
  induction protein_set generalizing acc with
  | nil => rfl
  | cons a rest ih =>
    rw [List.foldl_cons, ih, List.flatMap_cons, List.foldl_append]

/-- The entries of the term counter of a query: strictly ascending distinct terms,
exactly the terms of the annotation lists of the query entries, each with its number
of occurrences there, which is positive. -/
theorem unique_terms_spec (protein_set : List String) (db : AnnotationDb) :
    ((unique_terms_in_set protein_set db).map Prod.fst).Pairwise (fun a b => a < b) ∧
    (∀ x, x ∈ (unique_terms_in_set protein_set db).map Prod.fst ↔
      ∃ p ∈ protein_set, x ∈ get_annotations db p) ∧
    (∀ kv ∈ unique_terms_in_set protein_set db,
      kv.2 = (protein_set.flatMap (get_annotations db)).count kv.1 ∧ 0 < kv.2) := by
  rw [unique_terms_eq]
  obtain ⟨h1, h2, h3⟩ := tci_fold_spec (protein_set.flatMap (get_annotations db))
  refine ⟨h1, ?_, ?_⟩
  · intro x
    rw [h2, List.mem_flatMap]
  · intro kv hkv
    have hnd : (((protein_set.flatMap (get_annotations db)).foldl term_count_incr []).map
        Prod.fst).Nodup := h1.imp (fun h => ne_of_lt h)
    have hc := count_of_entry _ hnd kv hkv
    rw [h3] at hc
    refine ⟨hc.symm, ?_⟩
    rw [← hc]
    exact List.count_pos_iff.2 ((h2 kv.1).1 (List.mem_map.2 ⟨kv, hkv, rfl⟩))

theorem raw_results_eq_map (terms : List (String × Nat)) (n N : Nat) (db : AnnotationDb)
    (h : ∀ kv ∈ terms, 0 < kv.2) :
    raw_results terms n N db = terms.map (fun pair =>
      { go_term := pair.1
        p_value := hypergeometric_cdf_upper (pair.2 : Int) (n : Int)
          (get_term_frequency db pair.1 : Int) (N : Int)
        adjusted_p_value := some 0
        count_in_set := pair.2
        total_in_set := n
        count_in_background := get_term_frequency db pair.1
        total_in_background := N }) := by
  unfold raw_results
  induction terms with
  | nil => rfl
  | cons a rest ih =>
    have ha := h a (List.mem_cons_self _ _)
    rw [List.filterMap_cons, List.map_cons, ih (fun kv hkv => h kv (List.mem_cons_of_mem _ hkv))]
    simp [ha]

theorem no_annotations_of_empty_index (db : AnnotationDb)
    (h : (get_all_annotated_proteins db).length = 0) (p : String) :
    get_annotations db p = [] := by
  unfold get_all_annotated_proteins at h
  have : db.protein_to_go_ = [] := by
    cases hm : db.protein_to_go_ with
    | nil => rfl
    | cons a t => rw [hm] at h; simp at h
  simp [get_annotations, this]

theorem unique_terms_nil (protein_set : List String) (db : AnnotationDb)
    (h : ∀ p ∈ protein_set, get_annotations db p = []) :
    unique_terms_in_set protein_set db = [] := by
  have hk := (unique_terms_spec protein_set db).2.1
  cases hm : unique_terms_in_set protein_set db with
  | nil => rfl
  | cons a t =>
    have : a.1 ∈ (unique_terms_in_set protein_set db).map Prod.fst := by rw [hm]; simp
    obtain ⟨p, hp, hx⟩ := (hk a.1).1 this
    rw [h p hp] at hx; cases hx

/-- The function `go_enrichment` in one expression: the results of step 2 with the
adjusted p-value filled in; the two early returns give the same empty list. -/
theorem go_enrichment_eq (protein_set : List String) (db : AnnotationDb)
    (correction_method : String) :
    go_enrichment protein_set db correction_method =
      (raw_results (unique_terms_in_set protein_set db) protein_set.length
        (get_all_annotated_proteins db).length db).map (fun res =>
          { res with adjusted_p_value :=
              (if correction_method = "bonferroni" then
                (bonferroni res.p_value
                  (raw_results (unique_terms_in_set protein_set db) protein_set.length
                    (get_all_annotated_proteins db).length db).length)
              else res.p_value) }) := by
  unfold go_enrichment
  simp only
  by_cases h1 : (get_all_annotated_proteins db).length = 0
  · rw [if_pos h1, unique_terms_nil protein_set db
      (fun p _ => no_annotations_of_empty_index db h1 p)]
    rfl
  · rw [if_neg h1]
    by_cases h2 : protein_set.length = 0
    · rw [if_pos h2]
      have : protein_set = [] := List.length_eq_zero.1 h2
      subst this
      rfl
    · rw [if_neg h2]
      by_cases h3 : (raw_results (unique_terms_in_set protein_set db) protein_set.length
          (get_all_annotated_proteins db).length db).isEmpty = true
      · rw [if_pos h3]
        rw [List.isEmpty_iff] at h3
        rw [h3]; rfl
      · rw [if_neg h3]
        by_cases h4 : correction_method = "bonferroni"
        · simp only [h4, if_true]
        · simp only [h4, if_false]

theorem go_enrichment_mem (protein_set : List String) (db : AnnotationDb)
    (correction_method : String) (res : GoEnrichmentResult)
    (h : res ∈ go_enrichment protein_set db correction_method) :
    ∃ kv ∈ unique_terms_in_set protein_set db,
      res.go_term = kv.1 ∧ res.count_in_set = kv.2 ∧
      res.total_in_set = protein_set.length ∧
      res.count_in_background = get_term_frequency db kv.1 ∧
      res.total_in_background = (get_all_annotated_proteins db).length ∧
      res.adjusted_p_value =
        (if correction_method = "bonferroni" then
          bonferroni res.p_value (go_enrichment protein_set db correction_method).length
        else res.p_value) := by
  have hlen : (go_enrichment protein_set db correction_method).length =
      (raw_results (unique_terms_in_set protein_set db) protein_set.length
        (get_all_annotated_proteins db).length db).length := by
    rw [go_enrichment_eq, List.length_map]
  rw [hlen]
  rw [go_enrichment_eq] at h
  obtain ⟨r0, hr0, rfl⟩ := List.mem_map.1 h
  rw [raw_results_eq_map _ _ _ _ (fun kv hkv => ((unique_terms_spec protein_set db).2.2 kv hkv).2)]
    at hr0
  obtain ⟨kv, hkv, rfl⟩ := List.mem_map.1 hr0
  exact ⟨kv, hkv, rfl, rfl, rfl, rfl, rfl, rfl⟩

theorem go_enrichment_terms (protein_set : List String) (db : AnnotationDb)
    (correction_method : String) :
    (go_enrichment protein_set db correction_method).map (fun res => res.go_term)
      = (unique_terms_in_set protein_set db).map Prod.fst := by
  rw [go_enrichment_eq, raw_results_eq_map _ _ _ _
    (fun kv hkv => ((unique_terms_spec protein_set db).2.2 kv hkv).2)]
  simp only [List.map_map]
  rfl

theorem count_flatMap_nodup (protein_set : List String) (f : String → List String)
    (hf : ∀ p, (f p).Nodup) (t : String) :
    (protein_set.flatMap f).count t = protein_set.countP (fun p => decide (t ∈ f p)) := by
  induction protein_set with
  | nil => rfl
  | cons a rest ih =>
    rw [List.flatMap_cons, List.count_append, ih, List.countP_cons]
    by_cases h : t ∈ f a
    · simp [h, List.count_eq_one_of_mem (hf a) h]; ring
    · simp [h, List.count_eq_zero_of_not_mem h]

theorem annotations_nodup_load (records : List GafRecord) (p : String) :
    (get_annotations (load_records records) p).Nodup := by
  rw [get_annotations_load]; exact (sort_unique_spec _).2.2.1

/-- C12: with a method other than the exact string `"bonferroni"` (`"none"` or any
unknown string) every result has `adjusted_p_value` equal to its `p_value`; and for
any two methods the results agree, in the same order, in every field other than
`adjusted_p_value`. On the test index the query `{P12345, Q99999}` returns two
results: with `"none"` and with the unknown method `"fdr"` their adjusted values are
the p-values `3/10` and `7/10`, with `"bonferroni"` they are `3/5` and `1`, and the
other fields are the same. -/
theorem no_correction_copies (protein_set : List String) (db : AnnotationDb)
    (correction_method : String) (h : correction_method ≠ "bonferroni") :
    (∀ res ∈ go_enrichment protein_set db correction_method,
      res.adjusted_p_value = res.p_value) ∧
    (∀ other : String,
      (go_enrichment protein_set db correction_method).map
          (fun res => { res with adjusted_p_value := none })
        = (go_enrichment protein_set db other).map
          (fun res => { res with adjusted_p_value := none })) ∧
    go_enrichment ["P12345", "Q99999"] test_db "none"
      = [GoEnrichmentResult.mk "GO:0005575" (some (3 / 10)) (some (3 / 10)) 2 2 3 5,
         GoEnrichmentResult.mk "GO:0008150" (some (7 / 10)) (some (7 / 10)) 1 2 2 5] ∧
    go_enrichment ["P12345", "Q99999"] test_db "fdr"
      = [GoEnrichmentResult.mk "GO:0005575" (some (3 / 10)) (some (3 / 10)) 2 2 3 5,
         GoEnrichmentResult.mk "GO:0008150" (some (7 / 10)) (some (7 / 10)) 1 2 2 5] ∧
    go_enrichment ["P12345", "Q99999"] test_db "bonferroni"
      = [GoEnrichmentResult.mk "GO:0005575" (some (3 / 10)) (some (3 / 5)) 2 2 3 5,
         GoEnrichmentResult.mk "GO:0008150" (some (7 / 10)) (some 1) 1 2 2 5] := by
  refine ⟨?_, ?_, by decide!, by decide!, by decide!⟩
  · intro res hres
    obtain ⟨kv, _, _, _, _, _, _, hadj⟩ := go_enrichment_mem _ _ _ res hres
    rw [hadj, if_neg h]
  · intro other
    rw [go_enrichment_eq, go_enrichment_eq]
    simp only [List.map_map]
    rfl

theorem no_correction_copies_witness :
    ("none" ≠ "bonferroni") ∧
    ∃ res ∈ go_enrichment ["P12345", "Q99999"] test_db "none",
      res.go_term = "GO:0005575" ∧ res.p_value = some (3 / 10) ∧
        res.adjusted_p_value = res.p_value :=
  ⟨by decide,
    GoEnrichmentResult.mk "GO:0005575" (some (3 / 10)) (some (3 / 10)) 2 2 3 5,
    by decide!, rfl, rfl,
    (no_correction_copies ["P12345", "Q99999"] test_db "none" (by decide)).1
      (GoEnrichmentResult.mk "GO:0005575" (some (3 / 10)) (some (3 / 10)) 2 2 3 5)
      (by decide!)⟩

/-- C13: for the index built from any records, `go_enrichment` returns exactly one
result per distinct GO term occurring in the annotation list of at least one query
entry, and the result of term `t` has `count_in_set` = number of query entries whose
annotation list contains `t`, `total_in_set` = length of the query and
`count_in_background` = `get_term_frequency(t)`; in the test index the query
`{P12345, Q99999}` gives `GO:0005575` the values `k=2, n=2, K=3, N=5`. But
`total_in_background` is the number of keys of the protein map and not the number of
annotated proteins: a gene symbol is stored as a further key (the defect of C16). The
file with the records `(P1, GENE1, GO:0000001)` and `(P2, GO:0000002)` annotates two
proteins, yet the query `{P1}` gets `N = 3` and `K = 2`, and the p-value `2/3` where
`N = 2`, `K = 1` give `1/2`. -/
theorem go_enrichment_results (records : List GafRecord) (protein_set : List String)
    (correction_method : String) :
    ((go_enrichment protein_set (load_records records) correction_method).map
      (fun res => res.go_term)).Nodup ∧
    (∀ t, t ∈ (go_enrichment protein_set (load_records records) correction_method).map
        (fun res => res.go_term) ↔
      ∃ p ∈ protein_set, t ∈ get_annotations (load_records records) p) ∧
    (∀ res ∈ go_enrichment protein_set (load_records records) correction_method,
      res.count_in_set = protein_set.countP
        (fun p => decide (res.go_term ∈ get_annotations (load_records records) p)) ∧
      res.total_in_set = protein_set.length ∧
      res.count_in_background = get_term_frequency (load_records records) res.go_term ∧
      res.total_in_background = (get_all_annotated_proteins (load_records records)).length) ∧
    ((go_enrichment ["P12345", "Q99999"] test_db "bonferroni").map
        (fun res => (res.go_term, res.count_in_set, res.total_in_set,
          res.count_in_background, res.total_in_background))
      = [("GO:0005575", 2, 2, 3, 5), ("GO:0008150", 1, 2, 2, 5)]) ∧
    alias_pair_gaf_lines.filterMap parse_gaf_line
      = [GafRecord.mk "P1" "GENE1" "GO:0000001", GafRecord.mk "P2" "" "GO:0000002"] ∧
    get_all_annotated_proteins (load_from_gaf alias_pair_gaf_lines) = ["P1", "GENE1", "P2"] ∧
    go_enrichment ["P1"] (load_from_gaf alias_pair_gaf_lines) "none"
      = [GoEnrichmentResult.mk "GO:0000001" (some (2 / 3)) (some (2 / 3)) 1 1 2 3] ∧
    upper_tail_sum 1 1 1 2 = some (1 / 2) := by
  refine ⟨?_, ?_, ?_, by decide!, by decide!, by decide!, by decide!, by decide!⟩
  · rw [go_enrichment_terms]
    exact (unique_terms_spec _ _).1.imp (fun h => ne_of_lt h)
  · intro t
    rw [go_enrichment_terms]
    exact (unique_terms_spec _ _).2.1 t
  · intro res hres
    obtain ⟨kv, hkv, h1, h2, h3, h4, h5, _⟩ := go_enrichment_mem _ _ _ res hres
    refine ⟨?_, h3, ?_, h5⟩
    · rw [h2, ((unique_terms_spec _ _).2.2 kv hkv).1, h1]
      exact count_flatMap_nodup _ _ (annotations_nodup_load records) _
    · rw [h4, h1]

/-- C14: `go_enrichment` is a total function (it has no error result), and it returns
the empty list exactly when no query entry has an annotation in the index; this
covers the index without annotated proteins and the empty query. -/
theorem go_enrichment_empty_iff (protein_set : List String) (db : AnnotationDb)
    (correction_method : String) :
    (go_enrichment protein_set db correction_method = [] ↔
      ∀ p ∈ protein_set, get_annotations db p = []) ∧
    ((get_all_annotated_proteins db).length = 0 →
      go_enrichment protein_set db correction_method = []) ∧
    go_enrichment [] db correction_method = [] := by
  have main : ∀ ps : List String, go_enrichment ps db correction_method = [] ↔
      ∀ p ∈ ps, get_annotations db p = [] := by
    intro ps
    constructor
    · intro h p hp
      apply List.eq_nil_iff_forall_not_mem.2
      intro t ht
      have hmem : t ∈ (go_enrichment ps db correction_method).map (fun res => res.go_term) := by
        rw [go_enrichment_terms]
        exact ((unique_terms_spec ps db).2.1 t).2 ⟨p, hp, ht⟩
      rw [h] at hmem
      cases hmem
    · intro h
      rw [go_enrichment_eq, unique_terms_nil ps db h]
      rfl
  refine ⟨main protein_set, ?_, ?_⟩
  · intro hN
    exact (main protein_set).2 (fun p _ => no_annotations_of_empty_index db hN p)
  · exact (main []).2 (fun p hp => by cases hp)

theorem go_enrichment_empty_iff_witness :
    (get_all_annotated_proteins (load_records [])).length = 0 ∧
    go_enrichment ["P12345"] (load_records []) "bonferroni" = [] :=
  ⟨rfl, (go_enrichment_empty_iff ["P12345"] (load_records []) "bonferroni").2.1 rfl⟩

/-! ## Community detection: the output grouping -/

theorem omap_values_eq {β : Type} (dflt : β) (mp : List (Nat × β)) (h : KeysSorted mp) :
    mp.map Prod.snd = (mp.map Prod.fst).map (omap_get dflt mp) := by
  induction mp with
  | nil => rfl
  | cons a rest ih =>
    obtain ⟨k, b⟩ := a
    unfold KeysSorted at h ih
    simp only [List.map_cons, List.pairwise_cons] at h
    simp only [List.map_cons, omap_get, if_true, List.cons.injEq, true_and]
    rw [ih h.2]
    apply List.map_congr_left
    intro x hx
    have : ¬ x = k := by have := h.1 x hx; omega
    simp [omap_get, this]

/-- The map built by the output loop for the labels `cs`: its keys are ascending,
they are the labels that occur, and under a label are the nodes carrying it, in
ascending order. -/
theorem group_fold_spec (cs : List Nat) :
    KeysSorted ((cs.zip (List.range cs.length)).foldl
      (fun mp ci => omap_update ([] : List Nat) (fun grp => grp ++ [ci.2]) mp ci.1) []) ∧
    (∀ k, k ∈ ((cs.zip (List.range cs.length)).foldl
      (fun mp ci => omap_update ([] : List Nat) (fun grp => grp ++ [ci.2]) mp ci.1) []).map
        Prod.fst ↔ k ∈ cs) ∧
    (∀ k, omap_get [] ((cs.zip (List.range cs.length)).foldl
      (fun mp ci => omap_update ([] : List Nat) (fun grp => grp ++ [ci.2]) mp ci.1) []) k
        = (List.range cs.length).filter (fun i => decide (cs[i]? = some k))) := by
  induction cs using List.reverseRecOn with
  | nil => simp [KeysSorted, omap_get]
  | append_singleton cs x ih =>
    obtain ⟨ih1, ih2, ih3⟩ := ih
    have hzip : (cs ++ [x]).zip (List.range (cs ++ [x]).length) =
        cs.zip (List.range cs.length) ++ [(x, cs.length)] := by
      rw [List.length_append, List.length_singleton, List.range_succ,
        List.zip_append (by simp)]
      rfl
    rw [hzip, List.foldl_append]
    simp only [List.foldl_cons, List.foldl_nil]
    refine ⟨omap_update_sorted _ _ _ _ ih1, ?_, ?_⟩
    · intro k
      rw [omap_update_keys, ih2]
      simp only [List.mem_append, List.mem_singleton]
      tauto
    · intro k
      rw [omap_get_update _ _ _ _ _ ih1, ih3, ih3]
      rw [List.length_append, List.length_singleton, List.range_succ, List.filter_append]
      have hpre : (List.range cs.length).filter (fun i => decide ((cs ++ [x])[i]? = some k))
          = (List.range cs.length).filter (fun i => decide (cs[i]? = some k)) := by
        apply List.filter_congr
        intro i hi
        rw [List.getElem?_append_left (List.mem_range.1 hi)]
      rw [hpre]
      by_cases hk : k = x
      · subst hk
        simp
      · have hk2 : ¬ x = k := fun e => hk e.symm
        simp [hk, hk2]

/-- The output grouping: one group per label that occurs, the groups listed by
ascending label, each group holding the nodes with that label in ascending order. -/
theorem group_by_community_eq (cs : List Nat) :
    ∃ ks : List Nat, ks.Pairwise (fun a b => a < b) ∧ (∀ k, k ∈ ks ↔ k ∈ cs) ∧
      group_by_community cs =
        ks.map (fun k => (List.range cs.length).filter (fun i => decide (cs[i]? = some k))) := by
  obtain ⟨h1, h2, h3⟩ := group_fold_spec cs
  refine ⟨_, h1, h2, ?_⟩
  unfold group_by_community
  rw [omap_values_eq [] _ h1]
  apply List.map_congr_left
  intro k _
  exact h3 k

theorem filter_range_eq (n k : Nat) :
    (List.range n).filter (fun i => decide (i = k)) = if k < n then [k] else [] := by
  induction n with
  | zero => simp
  | succ n ih =>
    rw [List.range_succ, List.filter_append, ih]
    by_cases h1 : k < n
    · have h2 : ¬ n = k := by omega
      have h3 : k < n + 1 := by omega
      simp [h1, h2, h3]
    · by_cases h2 : n = k
      · subst h2; simp
      · have h3 : ¬ k < n + 1 := by omega
        simp [h1, h2, h3]

theorem group_by_community_range (n : Nat) :
    group_by_community (List.range n) = (List.range n).map (fun i => [i]) := by
  obtain ⟨ks, h1, h2, h3⟩ := group_by_community_eq (List.range n)
  have hks : ks = List.range n := by
    apply List.eq_of_perm_of_sorted (r := fun a b => a < b) _ h1 (List.pairwise_lt_range n)
    exact (List.perm_ext_iff_of_nodup (h1.imp (fun h => Nat.ne_of_lt h))
      (List.nodup_range n)).2 h2
  rw [h3, hks, List.length_range]
  apply List.map_congr_left
  intro k hk
  have hk2 := List.mem_range.1 hk
  have hcongr : (List.range n).filter (fun i => decide ((List.range n)[i]? = some k))
      = (List.range n).filter (fun i => decide (i = k)) := by
    apply List.filter_congr
    intro i hi
    rw [List.getElem?_range (List.mem_range.1 hi)]
    simp
  rw [hcongr, filter_range_eq, if_pos hk2]

/-- A property of the label vector that every successful node visit preserves holds
for the labels with which the `while` loop exits. -/
theorem louvain_loop_invariant (g : PpiGraph) (node_degrees : List ℚ) (m : ℚ)
    (orders : Nat → List Nat) (P : List Nat → Prop)
    (hstep : ∀ st u st2, P st.1 → visit_node g node_degrees m st u = .ok st2 → P st2.1)
    (fuel pass : Nat) (communities result : List Nat) (h0 : P communities)
    (h : louvain_loop g node_degrees m orders fuel pass communities = some (.ok result)) :
    P result := by
  induction fuel generalizing pass communities with
  | zero => simp [louvain_loop] at h
  | succ fuel ih =>
    simp only [louvain_loop] at h
    cases hp : run_pass g node_degrees m (orders pass) communities with
    | error e => rw [hp] at h; simp at h
    | ok st =>
      obtain ⟨c1, imp⟩ := st
      rw [hp] at h
      have hinv : P c1 :=
        foldlM_invariant (visit_node g node_degrees m) (fun st => P st.1) (orders pass)
          (fun x a y _ hx hf => hstep x a y hx hf) (communities, false) (c1, imp) h0 hp
      simp only at h
      split_ifs at h
      · exact ih _ _ hinv h
      · simp only [Option.some.injEq, Except.ok.injEq] at h
        rw [← h]; exact hinv

/-- The shape of every returned result: it is the output grouping of a label vector
of length `num_nodes`, which is either the initial one (no pass was run: the graph is
empty or `m == 0`) or the one with which the loop exits. -/
theorem louvain_result_shape (g : PpiGraph) (use_weights : Bool) (orders : Nat → List Nat)
    (fuel : Nat) (result : List (List Nat))
    (h : louvain_community g use_weights orders fuel = some (.ok result)) :
    ∃ cs : List Nat, cs.length = g.num_nodes ∧ result = group_by_community cs ∧
      (cs = List.range g.num_nodes ∨
        ∃ node_degrees total,
          g.edges_.foldlM (louvain_init_step use_weights)
            (List.replicate g.num_nodes (0 : ℚ), (0 : ℚ)) = .ok (node_degrees, total) ∧
          total / 2 ≠ 0 ∧
          louvain_loop g node_degrees (total / 2) orders fuel 0 (List.range g.num_nodes)
            = some (.ok cs)) := by
  unfold louvain_community at h
  split_ifs at h with h0
  · simp only [Option.some.injEq, Except.ok.injEq] at h
    refine ⟨List.range g.num_nodes, by simp, ?_, Or.inl rfl⟩
    rw [← h, h0]; rfl
  · split at h
    · simp at h
    · rename_i node_degrees total hinit
      simp only at h
      split_ifs at h with hm
      · simp only [Option.some.injEq, Except.ok.injEq] at h
        refine ⟨List.range g.num_nodes, by simp, ?_, Or.inl rfl⟩
        rw [← h, group_by_community_range]
      · split at h
        · simp at h
        · simp at h
        · rename_i communities hloop
          simp only [Option.some.injEq, Except.ok.injEq] at h
          refine ⟨communities, ?_, h.symm, Or.inr ⟨node_degrees, total, hinit, hm, hloop⟩⟩
          have := louvain_loop_length _ _ _ _ _ _ _ _ hloop
          rw [List.length_range] at this
          exact this

/-- C20 (as amended): the groups returned by `louvain_community` are listed in
ascending order of the community id that their nodes carry when the loop exits (the
initial ids when no pass is run), one group per community id that still occurs, and
each group lists its nodes in ascending order. -/
theorem louvain_groups_by_label (g : PpiGraph) (use_weights : Bool)
    (orders : Nat → List Nat) (fuel : Nat) (result : List (List Nat))
    (h : louvain_community g use_weights orders fuel = some (.ok result)) :
    ∃ cs ks : List Nat, cs.length = g.num_nodes ∧
      (cs = List.range g.num_nodes ∨
        ∃ node_degrees total,
          g.edges_.foldlM (louvain_init_step use_weights)
            (List.replicate g.num_nodes (0 : ℚ), (0 : ℚ)) = .ok (node_degrees, total) ∧
          total / 2 ≠ 0 ∧
          louvain_loop g node_degrees (total / 2) orders fuel 0 (List.range g.num_nodes)
            = some (.ok cs)) ∧
      ks.Pairwise (fun a b => a < b) ∧ (∀ k, k ∈ ks ↔ k ∈ cs) ∧
      result = ks.map (fun k =>
        (List.range g.num_nodes).filter (fun i => decide (cs[i]? = some k))) := by
  obtain ⟨cs, hlen, hres, hcs⟩ := louvain_result_shape g use_weights orders fuel result h
  obtain ⟨ks, h1, h2, h3⟩ := group_by_community_eq cs
  refine ⟨cs, ks, hlen, hcs, h1, h2, ?_⟩
  rw [hres, h3, hlen]

theorem louvain_groups_by_label_witness :
    louvain_community crossed_pairs false (fun _ => [0, 3, 1, 2]) 2
      = some (.ok [[1, 2], [0, 3]]) ∧
    ∃ cs ks : List Nat, cs.length = crossed_pairs.num_nodes ∧
      (cs = List.range crossed_pairs.num_nodes ∨
        ∃ node_degrees total,
          crossed_pairs.edges_.foldlM (louvain_init_step false)
            (List.replicate crossed_pairs.num_nodes (0 : ℚ), (0 : ℚ))
              = .ok (node_degrees, total) ∧
          total / 2 ≠ 0 ∧
          louvain_loop crossed_pairs node_degrees (total / 2) (fun _ => [0, 3, 1, 2]) 2 0
            (List.range crossed_pairs.num_nodes) = some (.ok cs)) ∧
      ks.Pairwise (fun a b => a < b) ∧ (∀ k, k ∈ ks ↔ k ∈ cs) ∧
      ([[1, 2], [0, 3]] : List (List Nat)) = ks.map (fun k =>
        (List.range crossed_pairs.num_nodes).filter (fun i => decide (cs[i]? = some k))) :=
  ⟨by decide!,
    louvain_groups_by_label crossed_pairs false (fun _ => [0, 3, 1, 2]) 2 [[1, 2], [0, 3]]
      (by decide!)⟩

/-- C20 as stated fails: on the graph with the edges 0-3 and 1-2, visiting the nodes
in the order 0, 3, 1, 2, the code returns the group `{1,2}` (community id 2) before
the group `{0,3}` (community id 3), although `0` is the smallest node id. -/
theorem louvain_order_counterexample :
    louvain_community crossed_pairs false (fun _ => [0, 3, 1, 2]) 2
      = some (.ok [[1, 2], [0, 3]]) ∧
    ¬ ascending_by_smallest [[1, 2], [0, 3]] := by
  refine ⟨by decide!, ?_⟩
  unfold ascending_by_smallest
  decide

/-- C19: when the graph has no edge, and more generally whenever the initialisation
succeeds with total weight `m == 0`, `louvain_community` returns the singleton groups
`[{0}, {1}, .., {k-1}]` in this order for every shuffle and every bound on the number
of passes, the bound `0` included (no pass of the loop is run); for an empty graph it
returns the empty list. -/
theorem louvain_no_edges (g : PpiGraph) (use_weights : Bool) (orders : Nat → List Nat)
    (fuel : Nat) :
    (g.edges_ = [] →
      louvain_community g use_weights orders fuel
        = some (.ok ((List.range g.num_nodes).map (fun i => [i]))) ∧
      louvain_community g use_weights orders 0
        = some (.ok ((List.range g.num_nodes).map (fun i => [i])))) ∧
    (∀ node_degrees total,
      g.edges_.foldlM (louvain_init_step use_weights)
        (List.replicate g.num_nodes (0 : ℚ), (0 : ℚ)) = .ok (node_degrees, total) →
      total / 2 = 0 →
      louvain_community g use_weights orders fuel
        = some (.ok ((List.range g.num_nodes).map (fun i => [i]))) ∧
      louvain_community g use_weights orders 0
        = some (.ok ((List.range g.num_nodes).map (fun i => [i])))) ∧
    (g.num_nodes = 0 → louvain_community g use_weights orders fuel = some (.ok [])) := by
  have key : ∀ (f : Nat) (node_degrees : List ℚ) (total : ℚ),
      g.edges_.foldlM (louvain_init_step use_weights)
        (List.replicate g.num_nodes (0 : ℚ), (0 : ℚ)) = .ok (node_degrees, total) →
      total / 2 = 0 →
      louvain_community g use_weights orders f
        = some (.ok ((List.range g.num_nodes).map (fun i => [i]))) := by
    intro f node_degrees total hinit hm
    unfold louvain_community
    by_cases h0 : g.num_nodes = 0
    · simp [h0]
    · simp only [h0, if_false, hinit, hm, if_true]
  refine ⟨?_, fun nd total hinit hm => ⟨key fuel nd total hinit hm, key 0 nd total hinit hm⟩,
    ?_⟩
  · intro he
    have hinit : g.edges_.foldlM (louvain_init_step use_weights)
        (List.replicate g.num_nodes (0 : ℚ), (0 : ℚ))
          = .ok (List.replicate g.num_nodes (0 : ℚ), (0 : ℚ)) := by
      rw [he]; rfl
    exact ⟨key fuel _ _ hinit (by norm_num), key 0 _ _ hinit (by norm_num)⟩
  · intro h0
    unfold louvain_community
    simp [h0]

theorem louvain_no_edges_witness :
    isolated_nodes.edges_ = [] ∧
    louvain_community isolated_nodes false (fun _ => [2, 0, 1]) 0
      = some (.ok [[0], [1], [2]]) :=
  ⟨by decide,
    ((louvain_no_edges isolated_nodes false (fun _ => [2, 0, 1]) 0).1 (by decide)).1⟩
/-! ## Community detection: groups stay within connected components -/

theorem neighbor_labels_mem (cs : List Nat) (row labels : List Nat)
    (h : neighbor_labels cs row = .ok labels) :
    ∀ t ∈ labels, ∃ v ∈ row, cs[v]? = some t := by
  induction row generalizing labels with
  | nil =>
    simp only [neighbor_labels, Except.ok.injEq] at h
    subst h
    intro t ht; cases ht
  | cons nb rest ih =>
    simp only [neighbor_labels] at h
    split at h
    · cases h
    · rename_i x hx
      split at h
      · cases h
      · rename_i ls hls
        simp only [Except.ok.injEq] at h
        subst h
        intro t ht
        rcases List.mem_cons.1 ht with e | e
        · subst e; exact ⟨nb, List.mem_cons_self _ _, hx⟩
        · obtain ⟨v, hv, hv2⟩ := ih ls hls t e
          exact ⟨v, List.mem_cons_of_mem _ hv, hv2⟩

/-- A successful visit either leaves the state as it was or gives the visited node
the current label of one of its neighbours. -/
theorem visit_node_moves (g : PpiGraph) (node_degrees : List ℚ) (m : ℚ)
    (st st2 : List Nat × Bool) (u : Nat)
    (h : visit_node g node_degrees m st u = .ok st2) :
    st2 = st ∨ ∃ row v t, neighbors g u = .ok row ∧ v ∈ row ∧ st.1[v]? = some t ∧
      st2 = (st.1.set u t, true) := by
  unfold visit_node at h
  split at h
  · cases h
  · rename_i original _
    split at h
    · cases h
    · rename_i row hrow
      split at h
      · cases h
      · rename_i labels hl
        split at h
        · cases h
        · rename_i k_i _
          simp only at h
          split_ifs at h with hb
          · right
            obtain ⟨h1, _, _⟩ := consider_fold_spec labels
              (community_degrees st.1 node_degrees) k_i m original
              (labels.foldl oset_insert []) (original, 0)
            rcases h1 with e | ⟨hmem, _, _, _⟩
            · rw [e] at hb; exact absurd rfl hb
            · rcases (mem_oset_fold labels [] _).1 hmem with e | e
              · cases e
              · obtain ⟨v, hv, hv2⟩ := neighbor_labels_mem st.1 row labels hl _ e
                cases h
                exact ⟨row, v, _, hrow, hv, hv2, rfl⟩
          · cases h; exact Or.inl rfl

theorem adjacent_symm (g : PpiGraph) (a b : Nat) (h : adjacent g a b) : adjacent g b a := by
  obtain ⟨e, he, h1 | h1⟩ := h
  · exact ⟨e, he, Or.inr h1⟩
  · exact ⟨e, he, Or.inl h1⟩

theorem joined_symm (g : PpiGraph) (a b : Nat) (h : joined g a b) : joined g b a := by
  unfold joined at h ⊢
  induction h with
  | refl => exact Relation.ReflTransGen.refl
  | tail _ hbc ih => exact Relation.ReflTransGen.head (adjacent_symm g _ _ hbc) ih

theorem mem_incident_opposites (es : List Edge) (u v : Nat)
    (h : v ∈ incident_opposites es u) :
    ∃ e ∈ es, (e.u = u ∧ e.v = v) ∨ (e.u = v ∧ e.v = u) := by
  induction es with
  | nil => simp [incident_opposites] at h
  | cons e rest ih =>
    simp only [incident_opposites, List.mem_append] at h
    rcases h with (h | h) | h
    · split_ifs at h with h1
      · simp only [List.mem_singleton] at h
        exact ⟨e, List.mem_cons_self _ _, Or.inl ⟨h1, h.symm⟩⟩
      · cases h
    · split_ifs at h with h1
      · simp only [List.mem_singleton] at h
        exact ⟨e, List.mem_cons_self _ _, Or.inr ⟨h.symm, h1⟩⟩
      · cases h
    · obtain ⟨x, hx, hx2⟩ := ih h
      exact ⟨x, List.mem_cons_of_mem _ hx, hx2⟩

theorem neighbors_adjacent (g : PpiGraph) (hg : WellFormed g) (u : Nat) (row : List Nat)
    (h : neighbors g u = .ok row) : ∀ v ∈ row, adjacent g u v := by
  rw [neighbors_eq_ok_iff, hg.adj, List.getElem?_map] at h
  cases hr : (List.range g.nodes_.length)[u]? with
  | none => rw [hr] at h; cases h
  | some x =>
    rw [hr] at h
    have hx : x = u := by
      have hu : u < (List.range g.nodes_.length).length := by
        by_contra hc
        rw [List.getElem?_eq_none (Nat.le_of_not_lt hc)] at hr
        cases hr
      rw [List.length_range] at hu
      rw [List.getElem?_range hu] at hr
      exact (Option.some.inj hr).symm
    subst hx
    simp only [Option.map_some', Option.some.injEq] at h
    subst h
    intro v hv
    exact mem_incident_opposites _ _ _ hv

theorem sameLabelJoined_range (g : PpiGraph) (n : Nat) : SameLabelJoined g (List.range n) := by
  intro i j x hi hj
  have hi2 : i < n := by
    by_contra hc
    rw [List.getElem?_eq_none (by simp; omega)] at hi
    cases hi
  have hj2 : j < n := by
    by_contra hc
    rw [List.getElem?_eq_none (by simp; omega)] at hj
    cases hj
  rw [List.getElem?_range hi2] at hi
  rw [List.getElem?_range hj2] at hj
  have : i = j := by
    have h1 := Option.some.inj hi
    have h2 := Option.some.inj hj
    omega
  subst this
  exact Relation.ReflTransGen.refl

theorem sameLabelJoined_visit (g : PpiGraph) (hg : WellFormed g) (node_degrees : List ℚ)
    (m : ℚ) (st st2 : List Nat × Bool) (u : Nat) (hst : SameLabelJoined g st.1)
    (h : visit_node g node_degrees m st u = .ok st2) : SameLabelJoined g st2.1 := by
  rcases visit_node_moves g node_degrees m st st2 u h with e | ⟨row, v, t, hrow, hv, hvt, e⟩
  · rw [e]; exact hst
  · subst e
    have hadj : adjacent g u v := neighbors_adjacent g hg u row hrow v hv
    have huv : joined g u v := Relation.ReflTransGen.single hadj
    intro i j x hi hj
    simp only [List.getElem?_set] at hi hj
    by_cases h1 : u = i <;> by_cases h2 : u = j
    · subst h1; subst h2; exact Relation.ReflTransGen.refl
    · subst h1
      simp only [if_true, h2, if_false] at hi hj
      split_ifs at hi
      · have hx : t = x := Option.some.inj hi
        subst hx
        exact Relation.ReflTransGen.trans huv (hst v j t hvt hj)
    · subst h2
      simp only [if_true, h1, if_false] at hi hj
      split_ifs at hj
      · have hx : t = x := Option.some.inj hj
        subst hx
        exact joined_symm g _ _ (Relation.ReflTransGen.trans huv (hst v i t hvt hi))
    · simp only [h1, h2, if_false] at hi hj
      exact hst i j x hi hj

theorem group_same_label (cs : List Nat) (grp : List Nat) (hgrp : grp ∈ group_by_community cs)
    (a b : Nat) (ha : a ∈ grp) (hb : b ∈ grp) : ∃ x, cs[a]? = some x ∧ cs[b]? = some x := by
  obtain ⟨ks, _, _, h3⟩ := group_by_community_eq cs
  rw [h3] at hgrp
  obtain ⟨k, _, rfl⟩ := List.mem_map.1 hgrp
  simp only [List.mem_filter, decide_eq_true_eq] at ha hb
  exact ⟨k, ha.2, hb.2⟩

/-- Every returned group lies within one connected component of a well-formed graph. -/
theorem louvain_groups_joined (g : PpiGraph) (hg : WellFormed g) (use_weights : Bool)
    (orders : Nat → List Nat) (fuel : Nat) (result : List (List Nat))
    (h : louvain_community g use_weights orders fuel = some (.ok result)) :
    ∀ grp ∈ result, ∀ a ∈ grp, ∀ b ∈ grp, joined g a b := by
  obtain ⟨cs, _, hres, hcs⟩ := louvain_result_shape g use_weights orders fuel result h
  have hinv : SameLabelJoined g cs := by
    rcases hcs with e | ⟨nd, total, _, _, hloop⟩
    · rw [e]; exact sameLabelJoined_range g _
    · exact louvain_loop_invariant g nd (total / 2) orders (SameLabelJoined g)
        (fun st u st2 hst hv => sameLabelJoined_visit g hg nd (total / 2) st st2 u hst hv)
        fuel 0 _ cs (sameLabelJoined_range g _) hloop
  intro grp hgrp a ha b hb
  rw [hres] at hgrp
  obtain ⟨x, h1, h2⟩ := group_same_label cs grp hgrp a b ha hb
  exact hinv a b x h1 h2

/-- Nodes of pairwise different components need as many groups as there are nodes. -/
theorem groups_at_least (g : PpiGraph) (result : List (List Nat))
    (hcover : ∀ a, a < g.num_nodes → ∃ grp ∈ result, a ∈ grp)
    (hjoin : ∀ grp ∈ result, ∀ a ∈ grp, ∀ b ∈ grp, joined g a b)
    (reps : List Nat) (hreps : ∀ a ∈ reps, a < g.num_nodes)
    (hsep : reps.Pairwise (fun a b => ¬ joined g a b)) : reps.length ≤ result.length := by
  have hfind : ∀ a ∈ reps, ∃ grp, result.find? (fun grp => decide (a ∈ grp)) = some grp ∧
      grp ∈ result ∧ a ∈ grp := by
    intro a ha
    obtain ⟨grp, hgrp, hmem⟩ := hcover a (hreps a ha)
    cases hf : result.find? (fun grp => decide (a ∈ grp)) with
    | none =>
      have := List.find?_eq_none.1 hf grp hgrp
      simp only [decide_eq_true_eq] at this
      exact absurd hmem this
    | some x =>
      have h1 := List.find?_some hf
      simp only [decide_eq_true_eq] at h1
      exact ⟨x, rfl, List.mem_of_find?_eq_some hf, h1⟩
  have hnd : reps.Nodup :=
    hsep.imp (fun hab e => hab (by rw [e]; exact Relation.ReflTransGen.refl))
  have hsymm : Symmetric (fun a b => ¬ joined g a b) :=
    fun a b hab hba => hab (joined_symm g b a hba)
  have hmap : (reps.map (fun a => (result.find? (fun grp => decide (a ∈ grp))).getD [])).Nodup := by
    apply List.Nodup.map_on _ hnd
    intro a ha b hb hab
    by_contra hne
    obtain ⟨ga, hfa, _, hmema⟩ := hfind a ha
    obtain ⟨gb, hfb, hgb, hmemb⟩ := hfind b hb
    simp only [hfa, hfb, Option.getD_some] at hab
    subst hab
    exact hsep.forall hsymm ha hb hne (hjoin ga hgb a hmema b hmemb)
  have hsub : reps.map (fun a => (result.find? (fun grp => decide (a ∈ grp))).getD []) ⊆ result := by
    intro x hx
    obtain ⟨a, ha, rfl⟩ := List.mem_map.1 hx
    obtain ⟨ga, hfa, hga, _⟩ := hfind a ha
    rw [hfa]; exact hga
  have := (List.subperm_of_subset hmap hsub).length_le
  rw [List.length_map] at this
  exact this

theorem louvain_covers (g : PpiGraph) (use_weights : Bool) (orders : Nat → List Nat)
    (fuel : Nat) (result : List (List Nat))
    (h : louvain_community g use_weights orders fuel = some (.ok result)) :
    ∀ a, a < g.num_nodes → ∃ grp ∈ result, a ∈ grp := by
  obtain ⟨cs, hlen, hres, _⟩ := louvain_result_shape g use_weights orders fuel result h
  intro a ha
  have hp := (group_by_community_partition cs).1
  rw [hlen, ← hres] at hp
  have : a ∈ result.flatten := hp.mem_iff.2 (List.mem_range.2 ha)
  obtain ⟨grp, hgrp, hmem⟩ := List.mem_flatten.1 this
  exact ⟨grp, hgrp, hmem⟩

theorem two_pairs_separate : ¬ joined two_pairs 0 2 := by
  have hclosed : ∀ a b, joined two_pairs a b → a < 2 → b < 2 := by
    intro a b hab
    unfold joined at hab
    induction hab with
    | refl => exact id
    | tail _ hbc ih =>
      intro ha
      have hb := ih ha
      obtain ⟨e, he, h1⟩ := hbc
      have hedges : two_pairs.edges_ = [Edge.mk 0 1 1, Edge.mk 2 3 1] := by decide
      rw [hedges] at he
      simp only [List.mem_cons, List.mem_singleton, List.not_mem_nil, or_false] at he
      rcases he with rfl | rfl
      · rcases h1 with h1 | h1 <;> simp only at h1 <;> omega
      · rcases h1 with h1 | h1 <;> simp only at h1 <;> omega
  intro h
  have := hclosed 0 2 h (by omega)
  omega

theorem two_pairs_reachable : Reachable two_pairs :=
  Reachable.add_edge _ _ _ 1 (Reachable.get_or_add_node _ "D" none
    (Reachable.get_or_add_node _ "C" none
      (Reachable.add_edge _ _ _ 1 (Reachable.get_or_add_node _ "B" none
        (Reachable.get_or_add_node _ "A" none Reachable.empty)))))

/-- C18: in every reachable graph and for every visitation order, any two nodes of a
group returned by `louvain_community` are joined by a path of edges, so nodes of
pairwise different connected components lie in different groups and there are at
least as many groups as components; for the graph A-B, C-D every returned result has
at least two groups. -/
theorem louvain_within_components (g : PpiGraph) (use_weights : Bool)
    (orders : Nat → List Nat) (fuel : Nat) (result : List (List Nat))
    (hg : Reachable g)
    (h : louvain_community g use_weights orders fuel = some (.ok result)) :
    (∀ grp ∈ result, ∀ a ∈ grp, ∀ b ∈ grp, joined g a b) ∧
    (∀ reps : List Nat, (∀ a ∈ reps, a < g.num_nodes) →
      reps.Pairwise (fun a b => ¬ joined g a b) → reps.length ≤ result.length) ∧
    (∀ (orders2 : Nat → List Nat) (fuel2 : Nat) (result2 : List (List Nat)),
      louvain_community two_pairs false orders2 fuel2 = some (.ok result2) →
      2 ≤ result2.length) := by
  have hj := louvain_groups_joined g (reachable_wellFormed g hg) use_weights orders fuel
    result h
  refine ⟨hj, ?_, ?_⟩
  · intro reps hreps hsep
    exact groups_at_least g result (louvain_covers g use_weights orders fuel result h) hj
      reps hreps hsep
  · intro orders2 fuel2 result2 h2
    have hj2 := louvain_groups_joined two_pairs (reachable_wellFormed _ two_pairs_reachable)
      false orders2 fuel2 result2 h2
    have := groups_at_least two_pairs result2
      (louvain_covers two_pairs false orders2 fuel2 result2 h2) hj2 [0, 2]
      (by
        intro a ha
        simp only [List.mem_cons, List.mem_singleton, List.not_mem_nil, or_false] at ha
        have hn : two_pairs.num_nodes = 4 := by decide
        rcases ha with rfl | rfl <;> omega)
      (by
        simp only [List.pairwise_cons, List.mem_singleton, List.not_mem_nil,
          List.Pairwise.nil, and_true]
        refine ⟨?_, fun _ h => nomatch h⟩
        intro b hb
        subst hb
        exact two_pairs_separate)
    simpa using this

theorem louvain_within_components_witness :
    Reachable two_pairs ∧
    louvain_community two_pairs false (fun _ => [0, 1, 2, 3]) 2
      = some (.ok [[0, 1], [2, 3]]) ∧
    ∀ grp ∈ ([[0, 1], [2, 3]] : List (List Nat)), ∀ a ∈ grp, ∀ b ∈ grp, joined two_pairs a b :=
  ⟨two_pairs_reachable, by decide!,
    (louvain_within_components two_pairs false (fun _ => [0, 1, 2, 3]) 2 [[0, 1], [2, 3]]
      two_pairs_reachable (by decide!)).1⟩

/-! ## Accessors `node` and `neighbors` -/

/-- C21: in every graph reachable through the public mutators, `node(id)` and
`neighbors(id)` fail exactly when `id >= num_nodes`, the failure being the
out-of-range error; for `id < num_nodes` the call `node(id)` returns the stored node
at position `id`, whose `id` field is `id`, and `neighbors(id)` returns row `id` of
the adjacency table, which has exactly `num_nodes` rows and whose row `id` lists the
opposite endpoints of the edges incident to `id`. -/
theorem node_neighbors_fail_iff (g : PpiGraph) (h : Reachable g) (id : Nat) :
    g.adj_.length = g.num_nodes ∧
    ((∃ e, node g id = .error e) ↔ g.num_nodes ≤ id) ∧
    ((∃ e, neighbors g id = .error e) ↔ g.num_nodes ≤ id) ∧
    (g.num_nodes ≤ id →
      node g id = .error .out_of_range ∧ neighbors g id = .error .out_of_range) ∧
    (id < g.num_nodes →
      ∃ nd row, node g id = .ok nd ∧ nd.id = id ∧ g.nodes_[id]? = some nd ∧
        neighbors g id = .ok row ∧ g.adj_[id]? = some row ∧
        row = incident_opposites g.edges_ id) := by
  have hw := reachable_wellFormed g h
  have hlen : g.adj_.length = g.nodes_.length := hw.adj_length
  have hfail : g.num_nodes ≤ id →
      node g id = .error .out_of_range ∧ neighbors g id = .error .out_of_range := by
    intro hid
    have h1 : g.nodes_[id]? = none := List.getElem?_eq_none (by exact hid)
    have h2 : g.adj_[id]? = none := List.getElem?_eq_none (by rw [hlen]; exact hid)
    simp [node, neighbors, h1, h2]
  have hok : id < g.num_nodes →
      ∃ nd row, node g id = .ok nd ∧ nd.id = id ∧ g.nodes_[id]? = some nd ∧
        neighbors g id = .ok row ∧ g.adj_[id]? = some row ∧
        row = incident_opposites g.edges_ id := by
    intro hid
    have hid2 : id < g.nodes_.length := hid
    have h1 : g.nodes_[id]? = some (g.nodes_[id]) := List.getElem?_eq_getElem hid2
    have hrow : g.adj_[id]? = some (incident_opposites g.edges_ id) := by
      rw [hw.adj, List.getElem?_map, List.getElem?_range hid2]
      rfl
    refine ⟨g.nodes_[id], incident_opposites g.edges_ id, ?_, ?_, h1, ?_, hrow, rfl⟩
    · simp [node, h1]
    · have h3 : (g.nodes_.map Node.id)[id]? = some id := by
        rw [hw.ids]; exact List.getElem?_range hid2
      rw [List.getElem?_map, h1] at h3
      simpa using h3
    · simp [neighbors, hrow]
  refine ⟨hlen, ⟨?_, ?_⟩, ⟨?_, ?_⟩, hfail, hok⟩
  · rintro ⟨e, he⟩
    by_contra hcon
    obtain ⟨nd, row, h1, _⟩ := hok (by omega)
    rw [h1] at he
    cases he
  · intro hid
    exact ⟨_, (hfail hid).1⟩
  · rintro ⟨e, he⟩
    by_contra hcon
    obtain ⟨nd, row, _, _, _, h1, _⟩ := hok (by omega)
    rw [h1] at he
    cases he
  · intro hid
    exact ⟨_, (hfail hid).2⟩

theorem node_neighbors_fail_iff_witness :
    Reachable sample_graph ∧
    ((∃ e, node sample_graph 2 = .error e) ↔ sample_graph.num_nodes ≤ 2) ∧
    ((∃ e, neighbors sample_graph 1 = .error e) ↔ sample_graph.num_nodes ≤ 1) :=
  ⟨sample_graph_reachable,
    (node_neighbors_fail_iff sample_graph sample_graph_reachable 2).2.1,
    (node_neighbors_fail_iff sample_graph sample_graph_reachable 1).2.2.1⟩

/-- C26: under exact arithmetic `combinations(n, k)` is the binomial coefficient
`C(n, k)` for all integers `0 <= k <= n`, whichever branch of the loop is taken
(`k` itself, or `n - k` when `k > n / 2`), and is `0` when `k < 0` or `k > n`. -/
theorem combinations_is_binomial (n k : Int) :
    combinations n k =
      if 0 ≤ k ∧ k ≤ n then ((n.toNat.choose k.toNat : Nat) : ℚ) else 0 := by
  rw [combinations_eq_binomial]
  rfl

/-! ## Community detection: the gain of a move -/

theorem neighbor_labels_eq_map (cs : List Nat) (row labels : List Nat)
    (h : neighbor_labels cs row = .ok labels) :
    labels = row.map (fun nb => (cs[nb]?).getD 0) ∧ ∀ nb ∈ row, nb < cs.length := by
  induction row generalizing labels with
  | nil =>
    simp only [neighbor_labels, Except.ok.injEq] at h
    subst h
    simp
  | cons nb rest ih =>
    simp only [neighbor_labels] at h
    split at h
    · cases h
    · rename_i x hx
      split at h
      · cases h
      · rename_i ls hls
        simp only [Except.ok.injEq] at h
        subst h
        obtain ⟨h1, h2⟩ := ih ls hls
        have hlt : nb < cs.length := by
          by_contra hcon
          rw [List.getElem?_eq_none (by omega)] at hx
          cases hx
        refine ⟨?_, ?_⟩
        · simp [hx, ← h1]
        · intro y hy
          rcases List.mem_cons.1 hy with e | e
          · rw [e]; exact hlt
          · exact h2 y e

theorem neighbor_labels_of_lt (cs : List Nat) (row : List Nat)
    (h : ∀ nb ∈ row, nb < cs.length) :
    neighbor_labels cs row = .ok (row.map (fun nb => (cs[nb]?).getD 0)) := by
  induction row with
  | nil => rfl
  | cons nb rest ih =>
    have hlt : nb < cs.length := h nb (List.mem_cons_self _ _)
    simp only [neighbor_labels, List.getElem?_eq_getElem hlt,
      ih (fun y hy => h y (List.mem_cons_of_mem _ hy)), List.map_cons, Option.getD_some]

theorem count_labels_eq_filter (cs : List Nat) (row labels : List Nat)
    (h : neighbor_labels cs row = .ok labels) (t : Nat) :
    labels.count t = (row.filter (fun nb => decide (cs[nb]? = some t))).length := by
  obtain ⟨h1, h2⟩ := neighbor_labels_eq_map cs row labels h
  subst h1
  clear h
  induction row with
  | nil => rfl
  | cons nb rest ih =>
    have hlt : nb < cs.length := h2 nb (List.mem_cons_self _ _)
    have ih2 := ih (fun y hy => h2 y (List.mem_cons_of_mem _ hy))
    simp only [List.map_cons, List.count_cons, List.filter_cons, ih2,
      List.getElem?_eq_getElem hlt, Option.getD_some, Option.some.injEq, beq_iff_eq]
    by_cases e : cs[nb] = t
    · simp [e]
    · simp [e]

/-- C25: whatever the mode (the degrees `node_degrees`, `k_i` and the total `m` are
the only inputs of a visit that depend on `use_weights`), the term `k_i_in` of the
gain of moving `u` into community `t` is the number of entries of `neighbors(u)`
whose current community is `t`: one for each entry, so parallel edges count once
each, and the edge weights play no part in it (replacing all weights leaves the
adjacency row, hence the count, as it is). The weights enter the gain only through
`k_i` (the degree of `u`), `sigma_tot` and `m`. -/
theorem k_i_in_counts_entries (g : PpiGraph) (cs : List Nat) (u : Nat)
    (row labels : List Nat) (node_degrees : List ℚ) (k_i m : ℚ) (t : Nat)
    (hrow : neighbors g u = .ok row) (hl : neighbor_labels cs row = .ok labels) :
    k_i_in labels t = ((row.filter (fun nb => decide (cs[nb]? = some t))).length : ℚ) ∧
    gain labels (community_degrees cs node_degrees) k_i m t =
      ((row.filter (fun nb => decide (cs[nb]? = some t))).length : ℚ)
        - (sigma_tot cs node_degrees t * k_i) / (2 * m) ∧
    ∀ f : Edge → ℚ,
      neighbors { g with edges_ := g.edges_.map (fun e => Edge.mk e.u e.v (f e)) } u
        = .ok row := by
  have hc := count_labels_eq_filter cs row labels hl t
  refine ⟨?_, ?_, fun _ => hrow⟩
  · rw [k_i_in_eq_count, hc]
  · rw [gain_eq, hc]

theorem k_i_in_counts_entries_witness :
    neighbors sample_graph 0 = .ok [1, 1, 0, 0] ∧
    neighbor_labels [0, 1] [1, 1, 0, 0] = .ok [1, 1, 0, 0] ∧
    k_i_in [1, 1, 0, 0] 1 =
      ((([1, 1, 0, 0] : List Nat).filter
        (fun nb => decide (([0, 1] : List Nat)[nb]? = some 1))).length : ℚ) :=
  ⟨by decide, by decide,
    (k_i_in_counts_entries sample_graph [0, 1] 0 [1, 1, 0, 0] [1, 1, 0, 0] [7 / 2, 5 / 2]
      (7 / 2) 3 1 (by decide) (by decide)).1⟩

theorem louvain_init_fold (uw : Bool) (n : Nat) (es : List Edge)
    (hes : ∀ e ∈ es, e.u < n ∧ e.v < n) (d : List ℚ) (hd : d.length = n) (tot : ℚ) :
    es.foldlM (louvain_init_step uw) (d, tot)
      = .ok ((List.range n).map (fun i => d.getD i 0 +
            incident_weight (es.map (fun e => Edge.mk e.u e.v (init_weight uw e))) i),
          tot + (es.map (init_weight uw)).sum) := by
  induction es generalizing d tot with
  | nil =>
    simp only [List.foldlM_nil, incident_weight, List.map_nil, List.sum_nil, add_zero, pure,
      Except.pure]
    congr 2
    apply List.ext_getElem?
    intro i
    by_cases hi : i < n
    · have hi2 : i < d.length := by omega
      simp [List.getElem?_range hi, List.getD_eq_getElem?_getD, List.getElem?_eq_getElem hi2]
    · have hi2 : d.length ≤ i := by omega
      have hnone : (List.range n)[i]? = none := by
        rw [List.getElem?_eq_none_iff, List.length_range]; omega
      simp [hnone, List.getElem?_eq_none hi2]
  | cons e rest ih =>
    have he := hes e (List.mem_cons_self _ _)
    have hu : e.u < d.length := by omega
    have hv : e.v < d.length := by omega
    have hstep : louvain_init_step uw (d, tot) e =
        .ok ((d.modify (fun x => x + init_weight uw e) e.u).modify
          (fun x => x + init_weight uw e) e.v, tot + init_weight uw e) := by
      simp [louvain_init_step, init_weight, hu, hv]
    simp only [List.foldlM_cons, hstep, bind, Except.bind]
    rw [ih (fun x hx => hes x (List.mem_cons_of_mem _ hx)) _ (by simp [hd])]
    congr 2
    · apply List.map_congr_left
      intro i hi
      have hi2 : i < d.length := by have := List.mem_range.1 hi; omega
      simp only [List.getD_eq_getElem?_getD, List.getElem?_modify,
        List.getElem?_eq_getElem hi2, incident_weight, List.map_cons, List.sum_cons]
      by_cases h1 : e.u = i <;> by_cases h2 : e.v = i <;> simp [h1, h2] <;> ring
    · simp only [List.map_cons, List.sum_cons]; ring

theorem louvain_init_ok (g : PpiGraph) (hg : WellFormed g) (uw : Bool) :
    g.edges_.foldlM (louvain_init_step uw) (List.replicate g.num_nodes (0 : ℚ), (0 : ℚ))
      = .ok ((List.range g.num_nodes).map (fun i =>
            incident_weight (g.edges_.map (fun e => Edge.mk e.u e.v (init_weight uw e))) i),
          (g.edges_.map (init_weight uw)).sum) := by
  rw [louvain_init_fold uw g.num_nodes g.edges_ hg.endpoints _ (by simp) 0]
  congr 2
  · apply List.map_congr_left
    intro i hi
    have hi2 : i < g.num_nodes := List.mem_range.1 hi
    simp [List.getD_eq_getElem?_getD, List.getElem?_replicate, hi2]
  · simp

theorem louvain_community_unfold (g : PpiGraph) (uw : Bool) (nd : List ℚ) (W : ℚ)
    (hn : g.num_nodes ≠ 0)
    (hinit : g.edges_.foldlM (louvain_init_step uw)
      (List.replicate g.num_nodes (0 : ℚ), (0 : ℚ)) = .ok (nd, W))
    (hW : W ≠ 0) (orders : Nat → List Nat) (fuel : Nat) :
    louvain_community g uw orders fuel =
      match louvain_loop g nd (W / 2) orders fuel 0 (List.range g.num_nodes) with
      | none => none
      | some (.error e) => some (.error e)
      | some (.ok communities) => some (.ok (group_by_community communities)) := by
  have hW2 : ¬ W / 2 = 0 := by
    intro h
    apply hW
    linarith
  simp only [louvain_community, hn, if_false, hinit, hW2]

/-- C23: the value of `m` with which `louvain_community` evaluates the gain is HALF
the total edge weight: the initialisation loop adds every edge weight (1 per edge in
unweighted mode) to `m` once, which makes `m` the total edge weight `W`, and line 58
then halves it. The degrees are the sums of incident weights, and the gain evaluated
for moving `u` into community `t` is `k_i_in - sigma_tot(t) * degree(u) / (2 * (W / 2))`,
that is `k_i_in - sigma_tot(t) * degree(u) / W`, not the value with `2 * W` as the
divisor. On the graph with the single edge 0-1: the total edge weight is 1, the gain
of moving node 0 into the community of node 1 is `0` with the code's `m = 1/2`
(no move, result `[[0], [1]]`), while with `m = 1` it is `1/2` and the visit would
move node 0. -/
theorem gain_uses_half_total_weight :
    (∀ (g : PpiGraph) (uw : Bool), Reachable g → g.num_nodes ≠ 0 →
      (g.edges_.map (init_weight uw)).sum ≠ 0 →
      ∃ nd, g.edges_.foldlM (louvain_init_step uw)
          (List.replicate g.num_nodes (0 : ℚ), (0 : ℚ))
            = .ok (nd, (g.edges_.map (init_weight uw)).sum) ∧
        nd = (List.range g.num_nodes).map (fun i =>
          incident_weight (g.edges_.map (fun e => Edge.mk e.u e.v (init_weight uw e))) i) ∧
        (∀ orders fuel, louvain_community g uw orders fuel =
          match louvain_loop g nd ((g.edges_.map (init_weight uw)).sum / 2) orders fuel 0
            (List.range g.num_nodes) with
          | none => none
          | some (.error e) => some (.error e)
          | some (.ok communities) => some (.ok (group_by_community communities))) ∧
        ∀ labels cs k_i t,
          gain labels (community_degrees cs nd) k_i ((g.edges_.map (init_weight uw)).sum / 2) t
            = k_i_in labels t
              - (sigma_tot cs nd t * k_i) / (g.edges_.map (init_weight uw)).sum) ∧
    single_edge.edges_.foldlM (louvain_init_step false)
      (List.replicate single_edge.num_nodes (0 : ℚ), (0 : ℚ)) = .ok ([1, 1], 1) ∧
    gain [1] (community_degrees [0, 1] [1, 1]) 1 (1 / 2) 1 = 0 ∧
    gain [1] (community_degrees [0, 1] [1, 1]) 1 1 1 = 1 / 2 ∧
    visit_node single_edge [1, 1] (1 / 2) ([0, 1], false) 0 = .ok ([0, 1], false) ∧
    visit_node single_edge [1, 1] 1 ([0, 1], false) 0 = .ok ([1, 1], true) ∧
    ∀ fuel, louvain_community single_edge false (fun _ => [0, 1]) (fuel + 1)
      = some (.ok [[0], [1]]) := by
  refine ⟨?_, by decide!, by decide!, by decide!, by decide!, by decide!, ?_⟩
  · intro g uw hg hn hW
    have hw := reachable_wellFormed g hg
    refine ⟨_, louvain_init_ok g hw uw, rfl, ?_, ?_⟩
    · intro orders fuel
      exact louvain_community_unfold g uw _ _ hn (louvain_init_ok g hw uw) hW orders fuel
    · intro labels cs k_i t
      simp only [gain, community_degrees_get]
      congr 1
      field_simp
  · intro fuel
    have h1 : run_pass single_edge [1, 1] (1 / 2) [0, 1] [0, 1] = .ok ([0, 1], false) := by
      decide!
    have hinit : single_edge.edges_.foldlM (louvain_init_step false)
        (List.replicate single_edge.num_nodes (0 : ℚ), (0 : ℚ)) = .ok ([1, 1], 1) := by
      decide!
    rw [louvain_community_unfold single_edge false [1, 1] 1 (by decide) hinit (by norm_num)]
    have h2 : List.range single_edge.num_nodes = [0, 1] := by decide
    simp only [louvain_loop, h2, h1, Bool.false_eq_true, if_false]
    decide

/-! ## Community detection: a graph on which the loop never exits -/

theorem foldlM_total {α σ ε : Type} (f : σ → α → Except ε σ) (P : σ → Prop) (l : List α)
    (hstep : ∀ x a, a ∈ l → P x → ∃ y, f x a = .ok y ∧ P y) (s : σ) (hs : P s) :
    ∃ s2, l.foldlM f s = .ok s2 ∧ P s2 := by
  induction l generalizing s with
  | nil => exact ⟨s, rfl, hs⟩
  | cons a rest ih =>
    obtain ⟨y, hy, hp⟩ := hstep s a (List.mem_cons_self _ _) hs
    obtain ⟨s2, h2, hp2⟩ := ih (fun x b hb hx => hstep x b (List.mem_cons_of_mem _ hb) hx) y hp
    refine ⟨s2, ?_, hp2⟩
    simp only [List.foldlM_cons, hy, bind, Except.bind]
    exact h2

theorem path_pair_visit_within :
    ∀ cs ∈ path_pair_states, ∀ u ∈ List.range 5, ∀ b ∈ [true, false],
      visit_within path_pair_states path_and_pair [1, 2, 1, 1, 1] (3 / 2) cs b u = true := by
  decide!

theorem path_pair_visit_moves :
    ∀ cs ∈ path_pair_states,
      visit_moves path_and_pair [1, 2, 1, 1, 1] (3 / 2) cs 1 = true := by
  decide!

theorem path_pair_loop (orders : Nat → List Nat)
    (horders : ∀ p, (orders p).Perm (List.range 5)) (fuel pass : Nat) (cs : List Nat)
    (hcs : cs ∈ path_pair_states) :
    louvain_loop path_and_pair [1, 2, 1, 1, 1] (3 / 2) orders fuel pass cs = none := by
  induction fuel generalizing pass cs with
  | zero => rfl
  | succ fuel ih =>
    obtain ⟨st, hst, hin⟩ := foldlM_total (visit_node path_and_pair [1, 2, 1, 1, 1] (3 / 2))
      (fun st => st.1 ∈ path_pair_states) (orders pass)
      (fun x a ha hx => by
        have hb : x.2 ∈ [true, false] := by cases x.2 <;> simp
        have h := path_pair_visit_within x.1 hx a ((horders pass).mem_iff.1 ha) x.2 hb
        unfold visit_within at h
        split at h
        · rename_i y hy
          exact ⟨y, hy, by simpa using h⟩
        · cases h) (cs, false) hcs
    obtain ⟨cs1, imp⟩ := st
    have hp : run_pass path_and_pair [1, 2, 1, 1, 1] (3 / 2) (orders pass) cs
        = .ok (cs1, imp) := hst
    simp only [louvain_loop, hp]
    cases imp with
    | true => simpa using ih (pass + 1) cs1 hin
    | false =>
      exfalso
      obtain ⟨_, hv⟩ := run_pass_no_improvement _ _ _ _ _ _ hp
      have h1 := hv 1 ((horders pass).mem_iff.2 (by decide))
      have h2 := path_pair_visit_moves cs hcs
      unfold visit_moves at h2
      rw [h1] at h2
      cases h2

/-- C27: `louvain_community` does not terminate on every input. On the graph made of
the path A-B-C and the separate edge D-E (unweighted mode) no pass is free of moves,
whatever permutation of the nodes is visited in each pass: the middle node B moves in
every pass, so the `while (improvement)` loop never exits and no result is returned,
however many passes are allowed. -/
theorem louvain_never_returns (orders : Nat → List Nat)
    (horders : ∀ p, (orders p).Perm (List.range 5)) (fuel : Nat) :
    louvain_community path_and_pair false orders fuel = none := by
  have hinit : path_and_pair.edges_.foldlM (louvain_init_step false)
      (List.replicate path_and_pair.num_nodes (0 : ℚ), (0 : ℚ))
        = .ok ([1, 2, 1, 1, 1], 3) := by
    decide!
  rw [louvain_community_unfold path_and_pair false [1, 2, 1, 1, 1] 3 (by decide) hinit
    (by norm_num)]
  have h2 : List.range path_and_pair.num_nodes = [0, 1, 2, 3, 4] := by decide
  rw [h2, path_pair_loop orders horders fuel 0 [0, 1, 2, 3, 4] (by decide)]

theorem louvain_never_returns_witness :
    (∀ p : Nat, ((fun _ => [4, 2, 0, 1, 3]) p : List Nat).Perm (List.range 5)) ∧
    louvain_community path_and_pair false (fun _ => [4, 2, 0, 1, 3]) 1000 = none :=
  ⟨fun _ => (by decide : ([4, 2, 0, 1, 3] : List Nat).Perm (List.range 5)),
    louvain_never_returns (fun _ => [4, 2, 0, 1, 3])
      (fun _ => (by decide : ([4, 2, 0, 1, 3] : List Nat).Perm (List.range 5))) 1000⟩

/-! ## Enrichment engine: a query larger than the background -/

/-- C29 at the failing inputs: the index built from three records has `N = 3`
annotated proteins. The query `[P1, X1, X2, X3]`, three of whose proteins are absent
from the index, and the query `[P1, P3, P3, P3]`, which repeats an entry, both have
`n = 4 > N`, so the divisor `C(3, 4)` of the probability mass function is `0`: the
mass function divides by zero, the upper-tail sum has no value, and the results carry
that missing `p_value` (Bonferroni's `std::min(1.0, ·)` turns it into `1`). -/
theorem go_enrichment_divides_by_zero :
    (get_all_annotated_proteins (load_from_gaf three_protein_gaf_lines)).length = 3 ∧
    combinations 3 4 = 0 ∧
    hypergeometric_pmf 1 4 2 3 = none ∧
    go_enrichment ["P1", "X1", "X2", "X3"] (load_from_gaf three_protein_gaf_lines) "none"
      = [GoEnrichmentResult.mk "GO:0000001" none none 1 4 2 3] ∧
    go_enrichment ["P1", "P3", "P3", "P3"] (load_from_gaf three_protein_gaf_lines)
        "bonferroni"
      = [GoEnrichmentResult.mk "GO:0000001" none (some 1) 1 4 2 3,
         GoEnrichmentResult.mk "GO:0000002" (some 0) (some 0) 3 4 1 3] := by
  decide!

/-! ## Community detection: which community a visited node moves to -/

theorem oset_insert_sorted (s : List Nat) (k : Nat) (hs : s.Pairwise (fun a b => a < b)) :
    (oset_insert s k).Pairwise (fun a b => a < b) := by
  induction s with
  | nil => simp [oset_insert]
  | cons a rest ih =>
    have hrest := (List.pairwise_cons.1 hs).2
    have ha := (List.pairwise_cons.1 hs).1
    simp only [oset_insert]
    split_ifs with h1 h2
    · refine List.pairwise_cons.2 ⟨?_, hs⟩
      intro x hx
      rcases List.mem_cons.1 hx with e | e
      · rw [e]; exact h1
      · exact lt_trans h1 (ha x e)
    · exact hs
    · refine List.pairwise_cons.2 ⟨?_, ih hrest⟩
      intro x hx
      rcases (mem_oset_insert rest k x).1 hx with e | e
      · rw [e]; omega
      · exact ha x e

theorem oset_fold_sorted (labels acc : List Nat) (hacc : acc.Pairwise (fun a b => a < b)) :
    (labels.foldl oset_insert acc).Pairwise (fun a b => a < b) := by
  induction labels generalizing acc with
  | nil => exact hacc
  | cons a rest ih => exact ih _ (oset_insert_sorted acc a hacc)

theorem consider_by_cases (gain_of : Nat → ℚ) (original : Nat) (best : Nat × ℚ) (a : Nat) :
    (consider_target_by gain_of original best a = best ∧
        (a ≠ original → gain_of a ≤ best.2)) ∨
      (a ≠ original ∧ best.2 < gain_of a ∧
        consider_target_by gain_of original best a = (a, gain_of a)) := by
  unfold consider_target_by
  split_ifs with h1 h2
  · exact Or.inl ⟨rfl, fun hne => absurd h1 hne⟩
  · exact Or.inr ⟨h1, h2, rfl⟩
  · exact Or.inl ⟨rfl, fun _ => not_lt.1 h2⟩

theorem consider_by_fold_spec (gain_of : Nat → ℚ) (original : Nat) (cands : List Nat)
    (best : Nat × ℚ) :
    (cands.foldl (consider_target_by gain_of original) best = best ∨
      ((cands.foldl (consider_target_by gain_of original) best).1 ∈ cands ∧
        (cands.foldl (consider_target_by gain_of original) best).1 ≠ original ∧
        (cands.foldl (consider_target_by gain_of original) best).2 =
          gain_of (cands.foldl (consider_target_by gain_of original) best).1 ∧
        best.2 < (cands.foldl (consider_target_by gain_of original) best).2)) ∧
    best.2 ≤ (cands.foldl (consider_target_by gain_of original) best).2 ∧
    ∀ t ∈ cands, t ≠ original →
      gain_of t ≤ (cands.foldl (consider_target_by gain_of original) best).2 := by
  induction cands generalizing best with
  | nil => simp
  | cons a rest ih =>
    simp only [List.foldl_cons]
    obtain ⟨ih1, ih2, ih3⟩ := ih (consider_target_by gain_of original best a)
    rcases consider_by_cases gain_of original best a with ⟨he, hle⟩ | ⟨hne, hlt, he⟩
    · rw [he] at ih1 ih2 ih3 ⊢
      refine ⟨?_, ih2, ?_⟩
      · rcases ih1 with h | ⟨h1, h2, h3, h4⟩
        · exact Or.inl h
        · exact Or.inr ⟨List.mem_cons_of_mem _ h1, h2, h3, h4⟩
      · intro t ht hto
        rcases List.mem_cons.1 ht with e | e
        · subst e; exact le_trans (hle hto) ih2
        · exact ih3 t e hto
    · rw [he] at ih1 ih2 ih3 ⊢
      simp only at ih1 ih2
      refine ⟨Or.inr ?_, le_of_lt (lt_of_lt_of_le hlt ih2), ?_⟩
      · rcases ih1 with h | ⟨h1, h2, h3, h4⟩
        · rw [h]
          exact ⟨List.mem_cons_self _ _, hne, rfl, hlt⟩
        · exact ⟨List.mem_cons_of_mem _ h1, h2, h3, lt_trans hlt h4⟩
      · intro t ht hto
        rcases List.mem_cons.1 ht with e | e
        · subst e; exact ih2
        · exact ih3 t e hto

theorem consider_by_fold_first (gain_of : Nat → ℚ) (original : Nat) (cands : List Nat)
    (hs : cands.Pairwise (fun a b => a < b)) (best : Nat × ℚ) :
    ∀ t ∈ cands, t ≠ original →
      gain_of t = (cands.foldl (consider_target_by gain_of original) best).2 →
      cands.foldl (consider_target_by gain_of original) best = best ∨
        (cands.foldl (consider_target_by gain_of original) best).1 ≤ t := by
  induction cands generalizing best with
  | nil => intro t ht; cases ht
  | cons a rest ih =>
    have hrest := (List.pairwise_cons.1 hs).2
    have ha := (List.pairwise_cons.1 hs).1
    intro t ht hto hg
    simp only [List.foldl_cons] at hg ⊢
    obtain ⟨f1, _, _⟩ := consider_by_fold_spec gain_of original rest
      (consider_target_by gain_of original best a)
    rcases consider_by_cases gain_of original best a with ⟨he, hle⟩ | ⟨hne, hlt, he⟩
    · rw [he] at hg f1 ⊢
      rcases List.mem_cons.1 ht with e | e
      · subst e
        rcases f1 with h | ⟨_, _, _, h4⟩
        · exact Or.inl h
        · exfalso
          have := hle hto
          rw [hg] at this
          exact absurd h4 (not_lt.2 this)
      · exact ih hrest best t e hto hg
    · rw [he] at hg f1 ⊢
      right
      rcases List.mem_cons.1 ht with e | e
      · subst e
        rcases f1 with h | ⟨_, _, _, h4⟩
        · rw [h]
        · exfalso
          simp only at h4
          exact lt_irrefl _ (lt_of_lt_of_eq h4 hg.symm)
      · rcases ih hrest (a, gain_of a) t e hto hg with h | h
        · rw [h]; exact le_of_lt (ha t e)
        · exact h

/-- C24: the move-selection rule of one node visit, the gains being the binary64
values that line 111 computes. The candidates are the communities of the neighbours
of `u` other than the community of `u`. If no candidate has a gain above zero (in
particular if there is no candidate), the visit changes nothing. Otherwise `u` moves
to a candidate `best` whose gain is positive and at least the gain of every
candidate, `best` being the smallest community id among the candidates of that
largest gain, and the pass is marked as improving. In either case the community of
every node other than `u` is left as it was. The divisor `2.0 * m` of the gain is not
zero, as in every visit that the code performs. -/
theorem visit_node_selection (g : PpiGraph) (node_degrees : List ℚ) (m : ℚ)
    (cs : List Nat) (b : Bool) (u original : Nat) (row labels : List Nat) (k_i : ℚ)
    (hc : cs[u]? = some original) (hrow : neighbors g u = .ok row)
    (hl : neighbor_labels cs row = .ok labels) (hk : node_degrees[u]? = some k_i)
    (_hm : fmul 2 m ≠ 0) :
    ((∀ t ∈ labels, t ≠ original →
        gain_binary64 labels (community_degrees_binary64 cs node_degrees) k_i m t ≤ 0) →
      visit_node_binary64 g node_degrees m (cs, b) u = .ok (cs, b)) ∧
    ((∃ t ∈ labels, t ≠ original ∧
        0 < gain_binary64 labels (community_degrees_binary64 cs node_degrees) k_i m t) →
      ∃ best ∈ labels, best ≠ original ∧
        0 < gain_binary64 labels (community_degrees_binary64 cs node_degrees) k_i m best ∧
        (∀ t ∈ labels, t ≠ original →
          gain_binary64 labels (community_degrees_binary64 cs node_degrees) k_i m t
            ≤ gain_binary64 labels (community_degrees_binary64 cs node_degrees) k_i m best) ∧
        (∀ t ∈ labels, t ≠ original →
          gain_binary64 labels (community_degrees_binary64 cs node_degrees) k_i m t
            = gain_binary64 labels (community_degrees_binary64 cs node_degrees) k_i m best →
          best ≤ t) ∧
        visit_node_binary64 g node_degrees m (cs, b) u = .ok (cs.set u best, true)) ∧
    (∀ st2, visit_node_binary64 g node_degrees m (cs, b) u = .ok st2 →
      ∀ v, v ≠ u → st2.1[v]? = cs[v]?) := by
  obtain ⟨h1, h2, h3⟩ := consider_by_fold_spec
    (gain_binary64 labels (community_degrees_binary64 cs node_degrees) k_i m)
    original (labels.foldl oset_insert []) (original, 0)
  have h4 := consider_by_fold_first
    (gain_binary64 labels (community_degrees_binary64 cs node_degrees) k_i m) original
    (labels.foldl oset_insert []) (oset_fold_sorted labels [] List.Pairwise.nil) (original, 0)
  have hmem : ∀ t, t ∈ labels.foldl oset_insert [] ↔ t ∈ labels := by
    intro t
    rw [mem_oset_fold]
    simp
  have hv : visit_node_binary64 g node_degrees m (cs, b) u =
      if ((labels.foldl oset_insert []).foldl
          (consider_target_by
            (gain_binary64 labels (community_degrees_binary64 cs node_degrees) k_i m)
            original) (original, 0)).1 ≠ original
      then .ok (cs.set u ((labels.foldl oset_insert []).foldl
          (consider_target_by
            (gain_binary64 labels (community_degrees_binary64 cs node_degrees) k_i m)
            original) (original, 0)).1, true)
      else .ok (cs, b) := by
    simp only [visit_node_binary64, hc, hrow, hl, hk]
  generalize (labels.foldl oset_insert []).foldl
    (consider_target_by
      (gain_binary64 labels (community_degrees_binary64 cs node_degrees) k_i m) original)
    (original, 0) = r at h1 h2 h3 h4 hv
  refine ⟨?_, ?_, ?_⟩
  · intro hall
    rcases h1 with h | ⟨ha, hb, hc2, hd⟩
    · rw [hv, h]; simp
    · exfalso
      have := hall r.1 ((hmem _).1 ha) hb
      rw [← hc2] at this
      exact absurd hd (not_lt.2 this)
  · rintro ⟨t, ht, hto, hpos⟩
    have hle := h3 t ((hmem t).2 ht) hto
    rcases h1 with h | ⟨ha, hb, hc2, hd⟩
    · exfalso
      rw [h] at hle
      exact absurd hpos (not_lt.2 hle)
    · refine ⟨r.1, (hmem _).1 ha, hb, ?_, ?_, ?_, ?_⟩
      · rw [← hc2]; exact hd
      · intro t2 ht2 hto2
        rw [← hc2]
        exact h3 t2 ((hmem t2).2 ht2) hto2
      · intro t2 ht2 hto2 heq
        rw [← hc2] at heq
        rcases h4 t2 ((hmem t2).2 ht2) hto2 heq with e | e
        · exfalso
          rw [e] at hb
          exact hb rfl
        · exact e
      · rw [hv]; simp [hb]
  · intro st2 hst2 v hvu
    rw [hv] at hst2
    split_ifs at hst2
    · cases hst2
      simp only
      rw [List.getElem?_set]
      have : ¬ u = v := fun e => hvu e.symm
      simp [this]
    · cases hst2
      rfl

theorem visit_node_selection_witness :
    fmul 2 (9 / 2) ≠ 0 ∧
    neighbors tie_graph 3 = .ok [0, 1, 2] ∧
    neighbor_labels [0, 0, 2, 3, 4, 5, 6] [0, 1, 2] = .ok [0, 0, 2] ∧
    gain_binary64 [0, 0, 2]
        (community_degrees_binary64 [0, 0, 2, 3, 4, 5, 6] [2, 3, 2, 3, 3, 3, 2]) 3 (9 / 2) 0
      = 1501199875790165 / 2 ^ 52 ∧
    gain_binary64 [0, 0, 2]
        (community_degrees_binary64 [0, 0, 2, 3, 4, 5, 6] [2, 3, 2, 3, 3, 3, 2]) 3 (9 / 2) 2
      = 3002399751580331 / 2 ^ 53 ∧
    visit_node_binary64 tie_graph [2, 3, 2, 3, 3, 3, 2] (9 / 2)
        ([0, 0, 2, 3, 4, 5, 6], false) 3
      = .ok ([0, 0, 2, 2, 4, 5, 6], true) ∧
    ∃ best ∈ ([0, 0, 2] : List Nat), best ≠ 3 ∧
      0 < gain_binary64 [0, 0, 2]
        (community_degrees_binary64 [0, 0, 2, 3, 4, 5, 6] [2, 3, 2, 3, 3, 3, 2]) 3 (9 / 2)
        best ∧
      (∀ t ∈ ([0, 0, 2] : List Nat), t ≠ 3 →
        gain_binary64 [0, 0, 2]
            (community_degrees_binary64 [0, 0, 2, 3, 4, 5, 6] [2, 3, 2, 3, 3, 3, 2]) 3
            (9 / 2) t
          ≤ gain_binary64 [0, 0, 2]
            (community_degrees_binary64 [0, 0, 2, 3, 4, 5, 6] [2, 3, 2, 3, 3, 3, 2]) 3
            (9 / 2) best) ∧
      (∀ t ∈ ([0, 0, 2] : List Nat), t ≠ 3 →
        gain_binary64 [0, 0, 2]
            (community_degrees_binary64 [0, 0, 2, 3, 4, 5, 6] [2, 3, 2, 3, 3, 3, 2]) 3
            (9 / 2) t
          = gain_binary64 [0, 0, 2]
            (community_degrees_binary64 [0, 0, 2, 3, 4, 5, 6] [2, 3, 2, 3, 3, 3, 2]) 3
            (9 / 2) best → best ≤ t) ∧
      visit_node_binary64 tie_graph [2, 3, 2, 3, 3, 3, 2] (9 / 2)
          ([0, 0, 2, 3, 4, 5, 6], false) 3
        = .ok (([0, 0, 2, 3, 4, 5, 6] : List Nat).set 3 best, true) :=
  ⟨by decide!, by decide, by decide, by decide!, by decide!, by decide!,
    (visit_node_selection tie_graph [2, 3, 2, 3, 3, 3, 2] (9 / 2) [0, 0, 2, 3, 4, 5, 6] false
      3 3 [0, 1, 2] [0, 0, 2] 3 (by decide) (by decide) (by decide)
      (by decide!) (by decide!)).2.1 ⟨0, by decide, by decide, by decide!⟩⟩

/-! ## Community detection on a complete graph -/

theorem count_incident_opposites (es : List Edge) (i j : Nat) :
    (incident_opposites es i).count j =
      (if i = j then 2 else 1) *
        (es.filter (fun e => decide ((e.u = i ∧ e.v = j) ∨ (e.u = j ∧ e.v = i)))).length := by
  induction es with
  | nil => simp [incident_opposites]
  | cons e rest ih =>
    simp only [incident_opposites, List.count_append, ih, List.filter_cons]
    by_cases hij : i = j
    · subst hij
      by_cases h1 : e.u = i <;> by_cases h2 : e.v = i <;>
        (simp [h1, h2, List.count_cons]; try omega)
    · have hji : ¬ j = i := fun e => hij e.symm
      by_cases h1 : e.u = i <;> by_cases h2 : e.v = i <;>
        by_cases h3 : e.u = j <;> by_cases h4 : e.v = j <;>
        simp [h1, h2, h3, h4, hij, hji, List.count_cons] <;> omega

theorem incident_weight_unit (es : List Edge) (i : Nat) :
    incident_weight (es.map (fun e => Edge.mk e.u e.v (init_weight false e))) i
      = ((incident_opposites es i).length : ℚ) := by
  induction es with
  | nil => simp [incident_weight, incident_opposites]
  | cons e rest ih =>
    simp only [incident_weight, List.map_cons, List.sum_cons, init_weight] at ih ⊢
    rw [ih]
    simp only [incident_opposites, List.length_append]
    by_cases h1 : e.u = i <;> by_cases h2 : e.v = i <;> (simp [h1, h2]; try ring)

theorem sum_indicator_range (n u : Nat) (hu : u < n) :
    ((List.range n).map (fun i => if u = i then 1 else 0)).sum = 1 := by
  induction n with
  | zero => omega
  | succ n ih =>
    rw [List.range_succ, List.map_append, List.sum_append]
    by_cases hun : u = n
    · subst hun
      have hz : ((List.range u).map (fun i => if u = i then 1 else 0)).sum = 0 := by
        apply List.sum_eq_zero
        intro x hx
        obtain ⟨i, hi, rfl⟩ := List.mem_map.1 hx
        have := List.mem_range.1 hi
        simp; omega
      simp [hz]
    · have := ih (by omega)
      simp [this, hun]

theorem sum_incident_lengths (es : List Edge) (n : Nat)
    (hes : ∀ e ∈ es, e.u < n ∧ e.v < n) :
    ((List.range n).map (fun i => (incident_opposites es i).length)).sum = 2 * es.length := by
  induction es with
  | nil => simp [incident_opposites]
  | cons e rest ih =>
    have he := hes e (List.mem_cons_self _ _)
    have ih2 := ih (fun x hx => hes x (List.mem_cons_of_mem _ hx))
    have hsplit : ∀ i, (incident_opposites (e :: rest) i).length =
        (if e.u = i then 1 else 0) + (if e.v = i then 1 else 0)
          + (incident_opposites rest i).length := by
      intro i
      simp only [incident_opposites, List.length_append]
      by_cases h1 : e.u = i <;> by_cases h2 : e.v = i <;> simp [h1, h2]
    simp only [hsplit, List.sum_map_add, ih2, sum_indicator_range n e.u he.1,
      sum_indicator_range n e.v he.2, List.length_cons]
    omega

theorem complete_row (g : PpiGraph) (hg : WellFormed g) (hcomp : IsComplete g) (u : Nat)
    (hu : u < g.num_nodes) :
    (incident_opposites g.edges_ u).Perm ((List.range g.num_nodes).erase u) := by
  rw [List.perm_iff_count]
  intro j
  rw [count_incident_opposites, List.count_erase, count_range]
  by_cases hj : j < g.num_nodes
  · have h := hcomp u hu j hj
    unfold edges_between at h
    rw [h]
    by_cases e : u = j
    · subst e; simp [hj]
    · have e2 : ¬ j = u := fun x => e x.symm
      simp [e, e2, hj]
  · have hz : (g.edges_.filter
        (fun e => decide ((e.u = u ∧ e.v = j) ∨ (e.u = j ∧ e.v = u)))).length = 0 := by
      rw [List.length_eq_zero, List.filter_eq_nil_iff]
      intro e he
      have := hg.endpoints e he
      have h1 : g.nodes_.length = g.num_nodes := rfl
      simp only [decide_eq_true_eq]
      omega
    rw [hz]
    simp [hj]

theorem complete_row_length (g : PpiGraph) (hg : WellFormed g) (hcomp : IsComplete g)
    (u : Nat) (hu : u < g.num_nodes) :
    (incident_opposites g.edges_ u).length = g.num_nodes - 1 := by
  rw [(complete_row g hg hcomp u hu).length_eq, List.length_erase_of_mem (List.mem_range.2 hu),
    List.length_range]

theorem complete_num_edges (g : PpiGraph) (hg : WellFormed g) (hcomp : IsComplete g) :
    2 * g.edges_.length = g.num_nodes * (g.num_nodes - 1) := by
  rw [← sum_incident_lengths g.edges_ g.num_nodes hg.endpoints]
  have h : (List.range g.num_nodes).map (fun i => (incident_opposites g.edges_ i).length)
      = (List.range g.num_nodes).map (fun _ => g.num_nodes - 1) := by
    apply List.map_congr_left
    intro i hi
    exact complete_row_length g hg hcomp i (List.mem_range.1 hi)
  rw [h]
  simp

theorem sigma_tot_range (n : Nat) (nd : List ℚ) (hnd : nd.length = n) (t : Nat) (x : ℚ)
    (ht : nd[t]? = some x) : sigma_tot (List.range n) nd t = x := by
  subst hnd
  unfold sigma_tot
  induction nd using List.reverseRecOn generalizing t x with
  | nil => simp at ht
  | append_singleton l a ih =>
    rw [List.length_append, List.length_singleton, List.range_succ,
      List.zip_append (by simp), List.map_append, List.sum_append]
    by_cases h : t < l.length
    · rw [List.getElem?_append_left h] at ht
      rw [ih t x ht]
      have : ¬ l.length = t := by omega
      simp [this]
    · have hz : ((List.range l.length).zip l).map (fun cd => if cd.1 = t then cd.2 else 0)
          = ((List.range l.length).zip l).map (fun _ => (0 : ℚ)) := by
        apply List.map_congr_left
        intro cd hcd
        have := List.mem_range.1 (List.of_mem_zip hcd).1
        have : ¬ cd.1 = t := by omega
        simp [this]
      rw [hz]
      by_cases h2 : t = l.length
      · subst h2
        simp at ht
        simp [ht]
      · rw [List.getElem?_eq_none (by simp; omega)] at ht
        cases ht

theorem foldlM_fixed {α σ ε : Type} (f : σ → α → Except ε σ) (l : List α) (s : σ)
    (h : ∀ a ∈ l, f s a = .ok s) : l.foldlM f s = .ok s := by
  induction l with
  | nil => rfl
  | cons a rest ih =>
    simp only [List.foldlM_cons, h a (List.mem_cons_self _ _), bind, Except.bind]
    exact ih (fun b hb => h b (List.mem_cons_of_mem _ hb))

theorem sum_init_weight_unit (es : List Edge) :
    (es.map (init_weight false)).sum = (es.length : ℚ) := by
  induction es with
  | nil => simp
  | cons e rest ih =>
    simp only [List.map_cons, List.sum_cons, ih, List.length_cons, init_weight]
    push_cast
    ring

theorem complete_visit (g : PpiGraph) (hg : WellFormed g) (hcomp : IsComplete g)
    (hn : 2 ≤ g.num_nodes) (u : Nat) (hu : u < g.num_nodes) :
    neighbors g u = .ok (incident_opposites g.edges_ u) ∧
    neighbor_labels (List.range g.num_nodes) (incident_opposites g.edges_ u)
      = .ok (incident_opposites g.edges_ u) ∧
    (∀ t, t ∈ incident_opposites g.edges_ u ↔ (t < g.num_nodes ∧ t ≠ u)) ∧
    ∀ t ∈ incident_opposites g.edges_ u,
      gain (incident_opposites g.edges_ u)
        (community_degrees (List.range g.num_nodes)
          ((List.range g.num_nodes).map (fun _ => ((g.num_nodes : ℚ) - 1))))
        ((g.num_nodes : ℚ) - 1) ((g.num_nodes : ℚ) * ((g.num_nodes : ℚ) - 1) / 2 / 2) t
        = 1 - 2 * ((g.num_nodes : ℚ) - 1) / (g.num_nodes : ℚ) := by
  have hperm := complete_row g hg hcomp u hu
  have hmem : ∀ t, t ∈ incident_opposites g.edges_ u ↔ (t < g.num_nodes ∧ t ≠ u) := by
    intro t
    rw [hperm.mem_iff, (List.nodup_range _).mem_erase_iff, List.mem_range]
    tauto
  have hu2 : u < g.nodes_.length := hu
  have hrow : neighbors g u = .ok (incident_opposites g.edges_ u) := by
    rw [neighbors_eq_ok_iff, hg.adj, List.getElem?_map, List.getElem?_range hu2]
    rfl
  have hlab : neighbor_labels (List.range g.num_nodes) (incident_opposites g.edges_ u)
      = .ok (incident_opposites g.edges_ u) := by
    rw [neighbor_labels_of_lt _ _ (fun nb hnb => by
      rw [List.length_range]; exact ((hmem nb).1 hnb).1)]
    congr 1
    conv_rhs => rw [← List.map_id (incident_opposites g.edges_ u)]
    apply List.map_congr_left
    intro nb hnb
    rw [List.getElem?_range ((hmem nb).1 hnb).1]
    rfl
  refine ⟨hrow, hlab, hmem, ?_⟩
  intro t ht
  obtain ⟨ht1, ht2⟩ := (hmem t).1 ht
  have hcount : (incident_opposites g.edges_ u).count t = 1 := by
    rw [hperm.count_eq, List.count_erase, count_range]
    have hne : ¬ u = t := fun e => ht2 e.symm
    simp [ht1, hne]
  have hsig : sigma_tot (List.range g.num_nodes)
      ((List.range g.num_nodes).map (fun _ => ((g.num_nodes : ℚ) - 1))) t
        = (g.num_nodes : ℚ) - 1 := by
    apply sigma_tot_range _ _ (by simp)
    rw [List.getElem?_map, List.getElem?_range ht1]
    rfl
  rw [gain_eq, hcount, hsig]
  have hN : (2 : ℚ) ≤ (g.num_nodes : ℚ) := by exact_mod_cast hn
  have h1 : (g.num_nodes : ℚ) ≠ 0 := by linarith
  have h2 : (g.num_nodes : ℚ) - 1 ≠ 0 := by linarith
  field_simp
  ring

/-- C30: on an unweighted complete graph with `n >= 2` nodes (exactly one edge for
every pair of distinct nodes, no self-loop) the initialisation gives every node the
degree `n - 1` and the total `n (n - 1) / 2`, so the code's `m` is `n (n - 1) / 4`,
half the number of edges; in the first pass every candidate gain is
`1 - 2 (n - 1) / n <= 0`, so a first pass over any order of the nodes makes no move
and leaves `improvement` false, and `louvain_community` returns the `n` singleton
groups `[{0}, .., {n-1}]` as soon as one pass is allowed. -/
theorem louvain_complete_graph (g : PpiGraph) (hg : Reachable g) (hn : 2 ≤ g.num_nodes)
    (hcomp : IsComplete g) (orders : Nat → List Nat)
    (horder : ∀ u ∈ orders 0, u < g.num_nodes) (fuel : Nat) :
    g.edges_.foldlM (louvain_init_step false) (List.replicate g.num_nodes (0 : ℚ), (0 : ℚ))
      = .ok ((List.range g.num_nodes).map (fun _ => ((g.num_nodes : ℚ) - 1)),
          (g.num_nodes : ℚ) * ((g.num_nodes : ℚ) - 1) / 2) ∧
    (∀ u < g.num_nodes, ∀ t < g.num_nodes, t ≠ u →
      ∃ row, neighbors g u = .ok row ∧
        neighbor_labels (List.range g.num_nodes) row = .ok row ∧ t ∈ row ∧
        gain row
          (community_degrees (List.range g.num_nodes)
            ((List.range g.num_nodes).map (fun _ => ((g.num_nodes : ℚ) - 1))))
          ((g.num_nodes : ℚ) - 1) ((g.num_nodes : ℚ) * ((g.num_nodes : ℚ) - 1) / 2 / 2) t
          = 1 - 2 * ((g.num_nodes : ℚ) - 1) / (g.num_nodes : ℚ)) ∧
    1 - 2 * ((g.num_nodes : ℚ) - 1) / (g.num_nodes : ℚ) ≤ 0 ∧
    run_pass g ((List.range g.num_nodes).map (fun _ => ((g.num_nodes : ℚ) - 1)))
        ((g.num_nodes : ℚ) * ((g.num_nodes : ℚ) - 1) / 2 / 2) (orders 0)
        (List.range g.num_nodes)
      = .ok (List.range g.num_nodes, false) ∧
    louvain_community g false orders (fuel + 1)
      = some (.ok ((List.range g.num_nodes).map (fun i => [i]))) := by
  have hw := reachable_wellFormed g hg
  have hN : (2 : ℚ) ≤ (g.num_nodes : ℚ) := by exact_mod_cast hn
  have hcast : ((g.num_nodes - 1 : Nat) : ℚ) = (g.num_nodes : ℚ) - 1 := by
    rw [Nat.cast_sub (by omega)]
    simp
  have hW : (g.edges_.map (init_weight false)).sum
      = (g.num_nodes : ℚ) * ((g.num_nodes : ℚ) - 1) / 2 := by
    rw [sum_init_weight_unit]
    have h2 : ((2 * g.edges_.length : Nat) : ℚ) = ((g.num_nodes * (g.num_nodes - 1) : Nat) : ℚ) := by
      rw [complete_num_edges g hw hcomp]
    push_cast at h2
    rw [hcast] at h2
    linarith
  have hinit : g.edges_.foldlM (louvain_init_step false)
      (List.replicate g.num_nodes (0 : ℚ), (0 : ℚ))
      = .ok ((List.range g.num_nodes).map (fun _ => ((g.num_nodes : ℚ) - 1)),
          (g.num_nodes : ℚ) * ((g.num_nodes : ℚ) - 1) / 2) := by
    rw [louvain_init_ok g hw false, hW]
    congr 2
    apply List.map_congr_left
    intro i hi
    rw [incident_weight_unit, complete_row_length g hw hcomp i (List.mem_range.1 hi), hcast]
  have hgain : 1 - 2 * ((g.num_nodes : ℚ) - 1) / (g.num_nodes : ℚ) ≤ 0 := by
    have h1 : (0 : ℚ) < (g.num_nodes : ℚ) := by linarith
    rw [sub_nonpos, le_div_iff₀ h1]
    linarith
  have hvisit : ∀ u ∈ orders 0,
      visit_node g ((List.range g.num_nodes).map (fun _ => ((g.num_nodes : ℚ) - 1)))
        ((g.num_nodes : ℚ) * ((g.num_nodes : ℚ) - 1) / 2 / 2)
        (List.range g.num_nodes, false) u = .ok (List.range g.num_nodes, false) := by
    intro u hu
    have hu2 := horder u hu
    obtain ⟨hrow, hlab, hmem, hg2⟩ := complete_visit g hw hcomp hn u hu2
    rcases visit_node_spec g ((List.range g.num_nodes).map (fun _ => ((g.num_nodes : ℚ) - 1)))
      ((g.num_nodes : ℚ) * ((g.num_nodes : ℚ) - 1) / 2 / 2) (List.range g.num_nodes) false u u
      (incident_opposites g.edges_ u) (incident_opposites g.edges_ u)
      ((g.num_nodes : ℚ) - 1) (List.getElem?_range hu2) hrow hlab
      (by rw [List.getElem?_map, List.getElem?_range hu2]; rfl) with h | ⟨t, ht, _, hpos, _⟩
    · exact h.1
    · exfalso
      have := hg2 t ht
      rw [gain_eq] at this
      rw [this] at hpos
      exact absurd hpos (not_lt.2 hgain)
  have hpass : run_pass g ((List.range g.num_nodes).map (fun _ => ((g.num_nodes : ℚ) - 1)))
      ((g.num_nodes : ℚ) * ((g.num_nodes : ℚ) - 1) / 2 / 2) (orders 0)
      (List.range g.num_nodes) = .ok (List.range g.num_nodes, false) :=
    foldlM_fixed _ _ _ hvisit
  refine ⟨hinit, ?_, hgain, hpass, ?_⟩
  · intro u hu t ht htu
    obtain ⟨hrow, hlab, hmem, hg2⟩ := complete_visit g hw hcomp hn u hu
    exact ⟨_, hrow, hlab, (hmem t).2 ⟨ht, htu⟩, hg2 t ((hmem t).2 ⟨ht, htu⟩)⟩
  · have hW0 : (g.num_nodes : ℚ) * ((g.num_nodes : ℚ) - 1) / 2 ≠ 0 := by
      have h1 : (0 : ℚ) < (g.num_nodes : ℚ) * ((g.num_nodes : ℚ) - 1) / 2 := by
        apply div_pos _ (by norm_num)
        apply mul_pos <;> linarith
      exact ne_of_gt h1
    rw [louvain_community_unfold g false _ _ (by omega) hinit hW0]
    simp only [louvain_loop, hpass, Bool.false_eq_true, if_false, group_by_community_range]

theorem triangle_graph_reachable : Reachable triangle_graph :=
  Reachable.add_edge _ 2 0 1 (Reachable.add_edge _ 1 2 1 (Reachable.add_edge _ 0 1 1
    (Reachable.get_or_add_node _ "ProtC" none (Reachable.get_or_add_node _ "ProtB" none
      (Reachable.get_or_add_node _ "ProtA" none Reachable.empty)))))

theorem louvain_complete_graph_witness :
    Reachable triangle_graph ∧ IsComplete triangle_graph ∧
    louvain_community triangle_graph false (fun _ => [2, 0, 1]) (0 + 1)
      = some (.ok ((List.range triangle_graph.num_nodes).map (fun i => [i]))) :=
  ⟨triangle_graph_reachable, by unfold IsComplete; decide,
    (louvain_complete_graph triangle_graph triangle_graph_reachable (by decide)
      (by unfold IsComplete; decide) (fun _ => [2, 0, 1]) (by decide) 0).2.2.2.2⟩

/-! ## Enrichment engine: the p-value is a probability -/

theorem vandermonde_tail_le (k n K N : Nat) (hK : K ≤ N) :
    ∑ i in Finset.Icc k (min n K), K.choose i * (N - K).choose (n - i) ≤ N.choose n := by
  have hv : N.choose n =
      ∑ i in Finset.range (n + 1), K.choose i * (N - K).choose (n - i) := by
    have h1 := Nat.add_choose_eq K (N - K) n
    rw [Nat.add_sub_cancel' hK] at h1
    rw [h1, Finset.Nat.sum_antidiagonal_eq_sum_range_succ
      (fun a b => K.choose a * (N - K).choose b) n]
  rw [hv]
  apply Finset.sum_le_sum_of_subset
  intro i hi
  have := (Finset.mem_Icc.1 hi).2
  have h2 : i ≤ n := le_trans this (min_le_left _ _)
  exact Finset.mem_range.2 (by omega)

theorem upper_tail_probability (k n K N : Nat) (hK : K ≤ N) (hn : n ≤ N) (hkn : k ≤ n)
    (hkK : k ≤ K) (hrest : n - k ≤ N - K) :
    ∃ p, upper_tail_sum k n K N = some p ∧ 0 < p ∧ p ≤ 1 := by
  refine ⟨_, upper_tail_sum_regular k n K N hK hn, ?_, ?_⟩
  · have hpos : (0 : ℚ) < ((N.choose n : Nat) : ℚ) := by
      exact_mod_cast Nat.choose_pos hn
    apply Finset.sum_pos'
    · intro i _
      positivity
    · refine ⟨k, Finset.mem_Icc.2 ⟨le_refl _, le_min hkn hkK⟩, ?_⟩
      have h1 : (0 : ℚ) < ((K.choose k : Nat) : ℚ) := by
        exact_mod_cast Nat.choose_pos hkK
      have h2 : (0 : ℚ) < (((N - K).choose (n - k) : Nat) : ℚ) := by
        exact_mod_cast Nat.choose_pos hrest
      positivity
  · have hpos : (0 : ℚ) < ((N.choose n : Nat) : ℚ) := by
      exact_mod_cast Nat.choose_pos hn
    rw [← Finset.sum_div, div_le_one hpos]
    have := vandermonde_tail_le k n K N hK
    exact_mod_cast this

theorem keys_nodup_load (records : List GafRecord) :
    (get_all_annotated_proteins (load_records records)).Nodup := by
  rw [keys_load]
  exact (load_fold_spec records).1

theorem has_annotations_iff (db : AnnotationDb) (p : String) :
    has_annotations db p = true ↔ p ∈ get_all_annotated_proteins db :=
  mem_keys_iff_find db.protein_to_go_ p

/-- C28: under exact arithmetic, for the index built from any records and every
duplicate-free query set all of whose entries are keys of the index (annotated
proteins), every result of `go_enrichment` has `1 <= k <= min(n, K)`, `K <= N`,
`n <= N`, and its `p_value` exists (no division by zero occurs) and satisfies
`0 < p_value <= 1`. -/
theorem go_enrichment_result_bounds (records : List GafRecord) (protein_set : List String)
    (correction_method : String) (res : GoEnrichmentResult)
    (hnodup : protein_set.Nodup)
    (hann : ∀ p ∈ protein_set, has_annotations (load_records records) p = true)
    (h : res ∈ go_enrichment protein_set (load_records records) correction_method) :
    1 ≤ res.count_in_set ∧
    res.count_in_set ≤ min res.total_in_set res.count_in_background ∧
    res.count_in_background ≤ res.total_in_background ∧
    res.total_in_set ≤ res.total_in_background ∧
    ∃ p, res.p_value = some p ∧ 0 < p ∧ p ≤ 1 := by
  obtain ⟨kv, hkv, h1, h2, h3, h4, h5, _⟩ := go_enrichment_mem _ _ _ res h
  obtain ⟨hc, hpos⟩ := (unique_terms_spec protein_set (load_records records)).2.2 kv hkv
  rw [count_flatMap_nodup _ _ (annotations_nodup_load records)] at hc
  have hsub : protein_set.Subperm (get_all_annotated_proteins (load_records records)) :=
    List.subperm_of_subset hnodup
      (fun p hp => (has_annotations_iff _ p).1 (hann p hp))
  have hK : get_term_frequency (load_records records) kv.1 =
      (get_all_annotated_proteins (load_records records)).countP
        (fun p => decide (kv.1 ∈ get_annotations (load_records records) p)) := by
    rw [term_frequency_load, List.countP_eq_length_filter]
  have hp : res.p_value = upper_tail_sum res.count_in_set res.total_in_set
      res.count_in_background res.total_in_background := by
    have h6 := h
    rw [go_enrichment_eq] at h6
    obtain ⟨r0, hr0, rfl⟩ := List.mem_map.1 h6
    exact raw_results_p_value _ _ _ _ r0 hr0
  have hsplit : ∀ (P : String → Bool) (l1 l2 : List String), l1.Subperm l2 →
      l1.length - l1.countP P ≤ l2.length - l2.countP P := by
    intro P l1 l2 hs
    have e1 := List.length_eq_countP_add_countP P l1
    have e2 := List.length_eq_countP_add_countP P l2
    have l2 := hs.countP_le (fun a => ¬ P a)
    omega
  have l1 := hsub.countP_le (fun p => decide (kv.1 ∈ get_annotations (load_records records) p))
  have l3 := hsub.length_le
  have hk : 1 ≤ res.count_in_set := by omega
  have hkn : res.count_in_set ≤ res.total_in_set := by
    rw [h2, h3, hc]; exact List.countP_le_length _
  have hkK : res.count_in_set ≤ res.count_in_background := by
    rw [h2, h4, hc, hK]; exact l1
  have hKN : res.count_in_background ≤ res.total_in_background := by
    rw [h4, h5, hK]; exact List.countP_le_length _
  have hnN : res.total_in_set ≤ res.total_in_background := by
    rw [h3, h5]; exact l3
  have hrest : res.total_in_set - res.count_in_set
      ≤ res.total_in_background - res.count_in_background := by
    rw [h2, h3, h4, h5, hc, hK]
    exact hsplit _ _ _ hsub
  refine ⟨hk, le_min hkn hkK, hKN, hnN, ?_⟩
  rw [hp]
  exact upper_tail_probability _ _ _ _ hKN hnN hkn hkK hrest

theorem go_enrichment_result_bounds_witness :
    (["P12345", "Q99999"] : List String).Nodup ∧
    (∀ p ∈ (["P12345", "Q99999"] : List String), has_annotations test_db p = true) ∧
    GoEnrichmentResult.mk "GO:0005575" (some (3 / 10)) (some (3 / 5)) 2 2 3 5
      ∈ go_enrichment ["P12345", "Q99999"] test_db "bonferroni" ∧
    ∃ p, (GoEnrichmentResult.mk "GO:0005575" (some (3 / 10)) (some (3 / 5)) 2 2 3 5).p_value
      = some p ∧ 0 < p ∧ p ≤ 1 :=
  ⟨by decide, by decide!, by decide!,
    (go_enrichment_result_bounds (test_gaf_lines.filterMap parse_gaf_line)
      ["P12345", "Q99999"] "bonferroni"
      (GoEnrichmentResult.mk "GO:0005575" (some (3 / 10)) (some (3 / 5)) 2 2 3 5)
      (by decide) (by decide!) (by decide!)).2.2.2.2⟩

/-! ## Edge-list files: writing a graph and reading it back -/

theorem getline_append (d : Char) (f rest : List Char) (hf : d ∉ f) :
    getline d (f ++ d :: rest) = some (f, rest) := by
  induction f with
  | nil => simp [getline]
  | cons c f ih =>
    have hc : ¬ c = d := fun e => hf (by rw [e]; exact List.mem_cons_self _ _)
    have ih2 := ih (fun h => hf (List.mem_cons_of_mem _ h))
    simp only [List.cons_append, getline, hc, if_false, List.append_eq, ih2]

theorem getline_all (d : Char) (f : List Char) (hne : f ≠ []) (hf : d ∉ f) :
    getline d f = some (f, []) := by
  induction f with
  | nil => exact absurd rfl hne
  | cons c f ih =>
    have hc : ¬ c = d := fun e => hf (by rw [e]; exact List.mem_cons_self _ _)
    cases f with
    | nil => simp [getline, hc]
    | cons c2 f2 =>
      have ih2 := ih (by simp) (fun h => hf (List.mem_cons_of_mem _ h))
      simp only [getline, hc, if_false] at ih2 ⊢
      rw [ih2]

theorem read_lines_saved (ls : List (List Char)) (hls : ∀ l ∈ ls, '\n' ∉ l) (fuel : Nat)
    (hfuel : (ls.flatMap (fun l => l ++ ['\n'])).length < fuel) :
    read_lines fuel (ls.flatMap (fun l => l ++ ['\n'])) = some ls := by
  induction ls generalizing fuel with
  | nil =>
    cases fuel with
    | zero => simp at hfuel
    | succ f => simp [read_lines, getline]
  | cons l rest ih =>
    cases fuel with
    | zero => simp at hfuel
    | succ f =>
      have h1 : getline '\n' ((l :: rest).flatMap (fun l => l ++ ['\n']))
          = some (l, rest.flatMap (fun l => l ++ ['\n'])) := by
        rw [List.flatMap_cons, List.append_assoc]
        exact getline_append '\n' l _ (hls l (List.mem_cons_self _ _))
      have h2 : (rest.flatMap (fun l => l ++ ['\n'])).length < f := by
        rw [List.flatMap_cons] at hfuel
        simp only [List.length_append, List.length_cons, List.length_nil] at hfuel
        omega
      simp only [read_lines, h1, ih (fun x hx => hls x (List.mem_cons_of_mem _ hx)) f h2]

theorem getline_length (d : Char) (s f r : List Char) (h : getline d s = some (f, r)) :
    r.length < s.length := by
  induction s generalizing f r with
  | nil => simp [getline] at h
  | cons c rest ih =>
    simp only [getline] at h
    split_ifs at h with hc
    · simp only [Option.some.injEq, Prod.mk.injEq] at h
      rw [← h.2]; simp
    · cases hg : getline d rest with
      | none =>
        rw [hg] at h
        simp only [Option.some.injEq, Prod.mk.injEq] at h
        rw [← h.2]; simp
      | some fr =>
        rw [hg] at h
        simp only [Option.some.injEq, Prod.mk.injEq] at h
        have := ih fr.1 fr.2 hg
        rw [← h.2]
        simp only [List.length_cons]
        omega

theorem read_lines_total (fuel : Nat) (text : List Char) (h : text.length < fuel) :
    ∃ ls, read_lines fuel text = some ls := by
  induction fuel generalizing text with
  | zero => omega
  | succ f ih =>
    simp only [read_lines]
    cases hg : getline '\n' text with
    | none => exact ⟨[], rfl⟩
    | some fr =>
      have := getline_length '\n' text fr.1 fr.2 hg
      obtain ⟨ls, hls⟩ := ih fr.2 (by omega)
      exact ⟨fr.1 :: ls, by simp only [hls]⟩

theorem pid_chars_node (g : PpiGraph) (i : Nat) (hi : i < g.nodes_.length) :
    ∃ nd, node g i = .ok nd ∧ nd ∈ g.nodes_ ∧ nd.protein_id.data = pid_chars g i ∧
      g.nodes_[i]? = some nd := by
  have h : g.nodes_[i]? = some (g.nodes_[i]) := List.getElem?_eq_getElem hi
  refine ⟨g.nodes_[i], ?_, List.getElem_mem _, ?_, h⟩
  · simp [node, h]
  · simp [pid_chars, h]

theorem save_edgelist_fold (fmt : ℚ → List Char) (g : PpiGraph) (d : Char) (es : List Edge)
    (hes : ∀ e ∈ es, e.u < g.nodes_.length ∧ e.v < g.nodes_.length) (acc : List Char) :
    es.foldlM (save_edgelist_step fmt g false d) acc
      = .ok (acc ++ (es.map (fun e => pid_chars g e.u ++ d :: pid_chars g e.v)).flatMap
          (fun l => l ++ ['\n'])) := by
  induction es generalizing acc with
  | nil => simp [pure, Except.pure]
  | cons e rest ih =>
    obtain ⟨hu, hv⟩ := hes e (List.mem_cons_self _ _)
    obtain ⟨nu, hnu, _, hpu, _⟩ := pid_chars_node g e.u hu
    obtain ⟨nv, hnv, _, hpv, _⟩ := pid_chars_node g e.v hv
    have hline : save_edgelist_line fmt g false d e
        = .ok ((pid_chars g e.u ++ d :: pid_chars g e.v) ++ ['\n']) := by
      simp [save_edgelist_line, hnu, hnv, hpu, hpv]
    simp only [List.foldlM_cons, save_edgelist_step, hline, bind, Except.bind]
    rw [ih (fun x hx => hes x (List.mem_cons_of_mem _ hx))]
    simp [List.flatMap_cons, List.append_assoc]

theorem get_or_add_node_spec (g : PpiGraph) (hg : WellFormed g) (pid : String)
    (symbol : Option String) :
    WellFormed (get_or_add_node g pid symbol).2 ∧
    (get_or_add_node g pid symbol).1 < (get_or_add_node g pid symbol).2.nodes_.length ∧
    g.nodes_.length ≤ (get_or_add_node g pid symbol).2.nodes_.length ∧
    (get_or_add_node g pid symbol).2.edges_ = g.edges_ ∧
    ∀ x, x ∈ (get_or_add_node g pid symbol).2.nodes_.map Node.protein_id ↔
      (x = pid ∨ x ∈ g.nodes_.map Node.protein_id) := by
  refine ⟨wellFormed_get_or_add_node g hg pid symbol, ?_⟩
  unfold get_or_add_node
  cases h : index_find g.protein_index_ pid with
  | some id =>
    have h2 := h
    rw [hg.index, index_find_some_iff g.nodes_ hg.ids hg.unique] at h2
    obtain ⟨nd, hnd, hpid⟩ := h2
    have hlt : id < g.nodes_.length := by
      by_contra hcon
      rw [List.getElem?_eq_none (by omega)] at hnd
      cases hnd
    refine ⟨hlt, le_refl _, rfl, ?_⟩
    intro x
    constructor
    · intro hx; exact Or.inr hx
    · rintro (hx | hx)
      · rw [hx, ← hpid]
        exact List.mem_map.2 ⟨nd, List.getElem?_mem hnd, rfl⟩
      · exact hx
  | none =>
    simp only [add_node_internal_eq g hg pid symbol h]
    refine ⟨by simp, by simp, trivial, ?_⟩
    intro x
    simp only [List.map_append, List.map_cons, List.map_nil, List.mem_append,
      List.mem_singleton]
    tauto

theorem load_edgelist_line_saved (stod : List Char → Option ℚ) (d : Char)
    (g : PpiGraph) (hg : WellFormed g) (cu cv : List Char)
    (hu1 : cu ≠ []) (hu2 : d ∉ cu) (hu3 : cu.head? ≠ some '#')
    (hv1 : cv ≠ []) (hv2 : d ∉ cv) :
    ∃ g3, load_edgelist_line stod false d g (cu ++ d :: cv) = .ok g3 ∧ WellFormed g3 ∧
      g3.edges_.length = g.edges_.length + 1 ∧
      ∀ x, x ∈ g3.nodes_.map Node.protein_id ↔
        (x ∈ g.nodes_.map Node.protein_id ∨ x = String.mk cu ∨ x = String.mk cv) := by
  obtain ⟨a1, a2, a3, a4, a5⟩ := get_or_add_node_spec g hg (String.mk cu) none
  obtain ⟨b1, b2, b3, b4, b5⟩ :=
    get_or_add_node_spec (get_or_add_node g (String.mk cu) none).2 a1 (String.mk cv) none
  have hskip : ¬ (cu ++ d :: cv = [] ∨ (cu ++ d :: cv).head? = some '#') := by
    cases cu with
    | nil => exact absurd rfl hu1
    | cons c rest =>
      simp only [List.cons_append, List.head?_cons] at hu3 ⊢
      rintro (h | h)
      · cases h
      · exact hu3 h
  have he := add_edge_eq (get_or_add_node (get_or_add_node g (String.mk cu) none).2
      (String.mk cv) none).2
    (get_or_add_node g (String.mk cu) none).1
    (get_or_add_node (get_or_add_node g (String.mk cu) none).2 (String.mk cv) none).1 1
    (le_of_eq b1.adj_length.symm) (by omega) b2
  refine ⟨(add_edge (get_or_add_node (get_or_add_node g (String.mk cu) none).2
      (String.mk cv) none).2
    (get_or_add_node g (String.mk cu) none).1
    (get_or_add_node (get_or_add_node g (String.mk cu) none).2 (String.mk cv) none).1 1).2,
    ?_, ?_, ?_, ?_⟩
  · simp only [load_edgelist_line, hskip, if_false, getline_append d cu cv hu2,
      getline_all d cv hv1 hv2, Bool.false_eq_true, he]
  · exact wellFormed_add_edge _ b1 _ _ 1
  · rw [he]
    simp only [List.length_append, List.length_singleton, b4, a4]
  · intro x
    rw [he]
    simp only
    rw [b5 x, a5 x]
    tauto

theorem load_fold_saved (stod : List Char → Option ℚ) (d : Char) (g : PpiGraph)
    (es : List Edge)
    (hes : ∀ e ∈ es, (pid_chars g e.u ≠ [] ∧ d ∉ pid_chars g e.u ∧
        (pid_chars g e.u).head? ≠ some '#') ∧
      (pid_chars g e.v ≠ [] ∧ d ∉ pid_chars g e.v))
    (g1 : PpiGraph) (hg1 : WellFormed g1) :
    ∃ g2, (es.map (fun e => pid_chars g e.u ++ d :: pid_chars g e.v)).foldlM
        (load_edgelist_line stod false d) g1 = .ok g2 ∧
      WellFormed g2 ∧ g2.edges_.length = g1.edges_.length + es.length ∧
      ∀ x, x ∈ g2.nodes_.map Node.protein_id ↔
        (x ∈ g1.nodes_.map Node.protein_id ∨
          ∃ e ∈ es, x = String.mk (pid_chars g e.u) ∨ x = String.mk (pid_chars g e.v)) := by
  induction es generalizing g1 with
  | nil => exact ⟨g1, rfl, hg1, rfl, by simp⟩
  | cons e rest ih =>
    obtain ⟨⟨u1, u2, u3⟩, v1, v2⟩ := hes e (List.mem_cons_self _ _)
    obtain ⟨g3, h1, h2, h3, h4⟩ := load_edgelist_line_saved stod d g1 hg1
      (pid_chars g e.u) (pid_chars g e.v) u1 u2 u3 v1 v2
    obtain ⟨g2, k1, k2, k3, k4⟩ := ih (fun x hx => hes x (List.mem_cons_of_mem _ hx)) g3 h2
    refine ⟨g2, ?_, k2, ?_, ?_⟩
    · simp only [List.map_cons, List.foldlM_cons, h1, bind, Except.bind]
      exact k1
    · rw [k3, h3, List.length_cons]; omega
    · intro x
      rw [k4 x, h4 x]
      constructor
      · rintro ((h | h | h) | ⟨e2, he2, h⟩)
        · exact Or.inl h
        · exact Or.inr ⟨e, List.mem_cons_self _ _, Or.inl h⟩
        · exact Or.inr ⟨e, List.mem_cons_self _ _, Or.inr h⟩
        · exact Or.inr ⟨e2, List.mem_cons_of_mem _ he2, h⟩
      · rintro (h | ⟨e2, he2, h⟩)
        · exact Or.inl (Or.inl h)
        · rcases List.mem_cons.1 he2 with e3 | e3
          · subst e3
            rcases h with h | h
            · exact Or.inl (Or.inr (Or.inl h))
            · exact Or.inl (Or.inr (Or.inr h))
          · exact Or.inr ⟨e2, e3, h⟩

theorem has_edge_iff (g : PpiGraph) (i : Nat) :
    has_edge g i = true ↔ ∃ e ∈ g.edges_, e.u = i ∨ e.v = i := by
  simp [has_edge, List.any_eq_true]

/-- The bound on the number of lines in `load_edgelist` is never reached: the reader
returns a graph or an error for every file content. -/
theorem load_edgelist_returns (stod : List Char → Option ℚ) (text : List Char)
    (weighted : Bool) (d : Char) : ∃ r, load_edgelist stod text weighted d = some r := by
  obtain ⟨ls, hls⟩ := read_lines_total (text.length + 1) text (Nat.lt_succ_self _)
  exact ⟨ls.foldlM (load_edgelist_line stod weighted d) PpiGraph.empty,
    by simp only [load_edgelist, hls]⟩

/-- C22 (amended): for every graph built through the public mutators whose protein
ids are non-empty, contain neither the delimiter nor a newline and do not start with
`#`, and for every delimiter other than the newline, `save_edgelist` (unweighted)
succeeds, the saved file has exactly `num_edges` lines, and `load_edgelist`
(unweighted, same delimiter) of that file succeeds and yields a graph with the same
number of edges and with as many nodes as the graph has nodes with at least one
incident edge; so the number of nodes is the same when no node is isolated. -/
theorem edgelist_round_trip (stod : List Char → Option ℚ) (fmt : ℚ → List Char)
    (g : PpiGraph) (d : Char) (hg : Reachable g) (hd : d ≠ '\n')
    (hpid : ∀ nd ∈ g.nodes_, nd.protein_id.data ≠ [] ∧ d ∉ nd.protein_id.data ∧
      '\n' ∉ nd.protein_id.data ∧ nd.protein_id.data.head? ≠ some '#') :
    ∃ text g2, save_edgelist fmt g false d = .ok text ∧
      read_lines (text.length + 1) text
        = some (g.edges_.map (fun e => pid_chars g e.u ++ d :: pid_chars g e.v)) ∧
      (read_lines (text.length + 1) text).map List.length = some g.num_edges ∧
      load_edgelist stod text false d = some (.ok g2) ∧
      g2.num_edges = g.num_edges ∧
      g2.num_nodes = ((List.range g.num_nodes).filter (has_edge g)).length ∧
      ((∀ i, i < g.num_nodes → has_edge g i = true) → g2.num_nodes = g.num_nodes) := by
  have hw := reachable_wellFormed g hg
  have hgood : ∀ i, i < g.nodes_.length →
      pid_chars g i ≠ [] ∧ d ∉ pid_chars g i ∧ '\n' ∉ pid_chars g i ∧
        (pid_chars g i).head? ≠ some '#' := by
    intro i hi
    obtain ⟨nd, _, hmem, hp, _⟩ := pid_chars_node g i hi
    rw [← hp]
    exact hpid nd hmem
  have hsave : save_edgelist fmt g false d
      = .ok ((g.edges_.map (fun e => pid_chars g e.u ++ d :: pid_chars g e.v)).flatMap
          (fun l => l ++ ['\n'])) := by
    unfold save_edgelist
    rw [save_edgelist_fold fmt g d g.edges_ hw.endpoints []]
    rfl
  have hread := read_lines_saved
    (g.edges_.map (fun e => pid_chars g e.u ++ d :: pid_chars g e.v))
    (by
      intro l hl
      obtain ⟨e, he, rfl⟩ := List.mem_map.1 hl
      obtain ⟨hu, hv⟩ := hw.endpoints e he
      have h1 := (hgood e.u hu).2.2.1
      have h2 := (hgood e.v hv).2.2.1
      simp only [List.mem_append, List.mem_cons, not_or]
      exact ⟨h1, fun h => hd h.symm, h2⟩)
    _ (Nat.lt_succ_self _)
  obtain ⟨g2, k1, k2, k3, k4⟩ := load_fold_saved stod d g g.edges_
    (by
      intro e he
      obtain ⟨hu, hv⟩ := hw.endpoints e he
      have h1 := hgood e.u hu
      have h2 := hgood e.v hv
      exact ⟨⟨h1.1, h1.2.1, h1.2.2.2⟩, h2.1, h2.2.1⟩)
    PpiGraph.empty wellFormed_empty
  have hnodes : g2.num_nodes = ((List.range g.num_nodes).filter (has_edge g)).length := by
    have hperm : (g2.nodes_.map Node.protein_id).Perm
        (((List.range g.num_nodes).filter (has_edge g)).map
          (fun i => String.mk (pid_chars g i))) := by
      rw [List.perm_ext_iff_of_nodup k2.unique]
      · intro x
        rw [k4 x]
        simp only [PpiGraph.empty, List.map_nil, List.not_mem_nil, false_or, List.mem_map,
          List.mem_filter, List.mem_range]
        constructor
        · rintro ⟨e, he, hx | hx⟩
          · exact ⟨e.u, ⟨(hw.endpoints e he).1, (has_edge_iff g e.u).2 ⟨e, he, Or.inl rfl⟩⟩,
              hx.symm⟩
          · exact ⟨e.v, ⟨(hw.endpoints e he).2, (has_edge_iff g e.v).2 ⟨e, he, Or.inr rfl⟩⟩,
              hx.symm⟩
        · rintro ⟨i, ⟨_, hi⟩, hx⟩
          obtain ⟨e, he, h | h⟩ := (has_edge_iff g i).1 hi
          · exact ⟨e, he, Or.inl (by rw [h, hx])⟩
          · exact ⟨e, he, Or.inr (by rw [h, hx])⟩
      · have hall : (List.range g.num_nodes).map (fun i => String.mk (pid_chars g i))
            = g.nodes_.map Node.protein_id := by
          apply List.ext_getElem?
          intro i
          by_cases hi : i < g.nodes_.length
          · obtain ⟨nd, _, _, hp, hnd⟩ := pid_chars_node g i hi
            have hi2 : i < g.num_nodes := hi
            simp only [List.getElem?_map, List.getElem?_range hi2, hnd, Option.map_some']
            rw [← hp]
          · have h1 : (List.range g.num_nodes)[i]? = none :=
              List.getElem?_eq_none (by rw [List.length_range]; exact Nat.le_of_not_lt hi)
            have h2 : g.nodes_[i]? = none := List.getElem?_eq_none (Nat.le_of_not_lt hi)
            simp only [List.getElem?_map, h1, h2, Option.map_none']
        have hnd : ((List.range g.num_nodes).map
            (fun i => String.mk (pid_chars g i))).Nodup := by
          rw [hall]; exact hw.unique
        exact ((List.filter_sublist _).map _).nodup hnd
    have := hperm.length_eq
    simpa [PpiGraph.num_nodes] using this
  refine ⟨_, g2, hsave, hread, ?_, ?_, ?_, hnodes, ?_⟩
  · rw [hread]
    simp [PpiGraph.num_edges]
  · simp only [load_edgelist, hread, k1]
  · simp only [PpiGraph.num_edges, k3, PpiGraph.empty, List.length_nil, Nat.zero_add]
  · intro hall
    rw [hnodes, List.filter_eq_self.2 (fun i hi => hall i (List.mem_range.1 hi)),
      List.length_range]

theorem edgelist_round_trip_witness :
    Reachable triangle_graph ∧
    ∃ text g2, save_edgelist (fun _ => []) triangle_graph false '\t' = .ok text ∧
      read_lines (text.length + 1) text
        = some (triangle_graph.edges_.map
            (fun e => pid_chars triangle_graph e.u ++ '\t' :: pid_chars triangle_graph e.v)) ∧
      (read_lines (text.length + 1) text).map List.length = some triangle_graph.num_edges ∧
      load_edgelist (fun _ => none) text false '\t' = some (.ok g2) ∧
      g2.num_edges = triangle_graph.num_edges ∧
      g2.num_nodes
        = ((List.range triangle_graph.num_nodes).filter (has_edge triangle_graph)).length ∧
      ((∀ i, i < triangle_graph.num_nodes → has_edge triangle_graph i = true) →
        g2.num_nodes = triangle_graph.num_nodes) :=
  ⟨triangle_graph_reachable,
    edgelist_round_trip (fun _ => none) (fun _ => []) triangle_graph '\t'
      triangle_graph_reachable (by decide) (by decide)⟩

/-- C22 as stated fails in two ways. The graph with the two nodes A, B and no edge
meets the conditions on the protein ids, yet its saved file is empty and loading it
gives the empty graph: no node instead of two. With the newline as delimiter, the
graph with the single edge A-B is saved as the two lines `A` and `B` for its one edge,
and loading that file fails on the first line, which has no second field. -/
theorem edgelist_round_trip_counterexample :
    (∀ nd ∈ two_isolated.nodes_, nd.protein_id.data ≠ [] ∧ '\t' ∉ nd.protein_id.data ∧
      '\n' ∉ nd.protein_id.data ∧ nd.protein_id.data.head? ≠ some '#') ∧
    save_edgelist (fun _ => []) two_isolated false '\t' = .ok [] ∧
    load_edgelist (fun _ => none) [] false '\t' = some (.ok PpiGraph.empty) ∧
    PpiGraph.empty.num_nodes = 0 ∧ two_isolated.num_nodes = 2 ∧
    (∀ nd ∈ single_edge.nodes_, nd.protein_id.data ≠ [] ∧ '\n' ∉ nd.protein_id.data ∧
      nd.protein_id.data.head? ≠ some '#') ∧
    save_edgelist (fun _ => []) single_edge false '\n' = .ok ['A', '\n', 'B', '\n'] ∧
    read_lines 5 ['A', '\n', 'B', '\n'] = some [['A'], ['B']] ∧
    single_edge.num_edges = 1 ∧
    load_edgelist (fun _ => none) ['A', '\n', 'B', '\n'] false '\n'
      = some (.error .malformed_line) := by
  decide

end tangle
